import Mathlib

/-!
Shallow embedding of the agentrig template-document parser
(`src/templates.mjs`), template builder (`src/template-generator.mjs`),
feedback aggregation (`src/feedback.mjs`) and quality scoring
(`src/unnamed/part_001`), together with theorems settling the frozen
claims about the natural-language specification.

Texts are modeled as `List Char` (`Str`).  JavaScript string builtins
(`trim`, `split`, `slice`, `toLowerCase`, `parseInt`, `Math.round`,
`JSON.parse` / `JSON.stringify`) are modeled by the helpers below.
JavaScript numbers are modeled exactly (as `Nat`/`Int`); `Math.round`
of a non-negative ratio is modeled as exact rational rounding
(`floor(x + 1/2)`).  JSON numbers are modeled as integers, which covers
every value the repository reads or writes.
-/

abbrev Str := List Char

/-- The whitespace class used by JavaScript `trim` (the characters that
occur in the modeled texts: space, tab, LF, CR, VT, FF). -/
def jsWhitespace (c : Char) : Bool :=
  c == ' ' || c == '\t' || c == '\n' || c == '\r' ||
    c == Char.ofNat 11 || c == Char.ofNat 12

/-- JavaScript `String.prototype.trimStart`. -/
def trimStartL (s : Str) : Str := s.dropWhile jsWhitespace

/-- JavaScript `String.prototype.trim`. -/
def trimL (s : Str) : Str := (s.dropWhile jsWhitespace).rdropWhile jsWhitespace

/-- `p` is a prefix of `s` (JavaScript `String.prototype.startsWith`). -/
def startsW : Str → Str → Bool
  | [], _ => true
  | _ :: _, [] => false
  | p :: ps, c :: cs => p == c && startsW ps cs

/-- JavaScript `String.prototype.toLowerCase` (ASCII-adequate). -/
def toLowerL (s : Str) : Str := s.map Char.toLower

/-- JavaScript `String.prototype.split(sep)` for a one-character separator. -/
def splitOnCharL (sep : Char) : Str → List Str
  | [] => [[]]
  | c :: r =>
    if c = sep then [] :: splitOnCharL sep r
    else
      match splitOnCharL sep r with
      | [] => [[c]]
      | l :: ls => (c :: l) :: ls

/-- `content.split("\n")`. -/
def splitLines (s : Str) : List Str := splitOnCharL '\n' s

/-- `lines.join("\n")`. -/
def joinLines : List Str → Str
  | [] => []
  | [l] => l
  | l :: ls => l ++ '\n' :: joinLines ls

/-- JavaScript `s.slice(a, b)` for `a ≤ b` within bounds. -/
def sliceL (s : Str) (a b : Nat) : Str := (s.drop a).take (b - a)

/-- First index in a list at which the test holds. -/
def findIdxL {α : Type} (p : α → Bool) : List α → Option Nat
  | [] => none
  | a :: l => if p a then some 0 else (findIdxL p l).map (· + 1)

/-- First index of `c` in `s`, if any (JavaScript `indexOf` on success). -/
def idxOfChar (c : Char) (s : Str) : Option Nat := findIdxL (· == c) s

theorem splitOnCharL_ne_nil (sep : Char) (s : Str) : splitOnCharL sep s ≠ [] := by
  cases s with
  | nil => simp [splitOnCharL]
  | cons c r =>
    by_cases h : c = sep <;> simp [splitOnCharL, h]
    cases hs : splitOnCharL sep r <;> simp

theorem splitOnCharL_append (sep : Char) (a b : Str) :
    splitOnCharL sep (a ++ sep :: b) = splitOnCharL sep a ++ splitOnCharL sep b := by
  induction a with
  | nil => simp [splitOnCharL]
  | cons c r ih =>
    by_cases h : c = sep <;> simp only [List.cons_append, splitOnCharL, if_pos, if_neg, h,
      ite_true, ite_false, List.append_eq]
    case pos => rw [ih]
    case neg =>
      cases hs : splitOnCharL sep r with
      | nil => exact absurd hs (splitOnCharL_ne_nil sep r)
      | cons l ls =>
        rw [ih, hs]
        simp

theorem splitLines_append (a b : Str) :
    splitLines (a ++ '\n' :: b) = splitLines a ++ splitLines b :=
  splitOnCharL_append '\n' a b

/-! ## Scalar values (`parseScalar`, templates.mjs lines 238-242) -/

def isQuoteChar (c : Char) : Bool := c == '"' || c == '\''

/-- The effect of `value.replace(/^["']|["']$/g, "")`: one leading quote
character (of either kind) and one trailing quote character (of either
kind) are removed, each independently of the other. -/
def stripQuotesJs (s : Str) : Str :=
  let s1 := match s with
    | [] => []
    | c :: r => if isQuoteChar c then r else c :: r
  match s1.getLast? with
  | some c => if isQuoteChar c then s1.dropLast else s1
  | none => s1

/-- `/^\d+$/.test s` -/
def isDigitsL (s : Str) : Bool := !s.isEmpty && s.all (·.isDigit)

/-- `parseInt(s, 10)` on an all-digit string. -/
def parseIntDec (s : Str) : Nat := s.foldl (fun a c => a * 10 + (c.toNat - '0'.toNat)) 0

inductive Scalar where
  | str (s : Str) : Scalar
  | num (n : Nat) : Scalar
deriving DecidableEq

/-- `parseScalar` (templates.mjs lines 238-242). -/
def parseScalar (value : Str) : Scalar :=
  let stripped := stripQuotesJs value
  if isDigitsL stripped then .num (parseIntDec stripped) else .str stripped

/-! ## Frontmatter values and insertion-ordered mappings -/

/-- A value nested one level below a top-level frontmatter key. -/
inductive YChild where
  | scalar (v : Scalar) : YChild
  | list (xs : List Str) : YChild
deriving DecidableEq

/-- A top-level frontmatter value. -/
inductive YVal where
  | scalar (v : Scalar) : YVal
  | list (xs : List Str) : YVal
  | obj (m : List (Str × YChild)) : YVal
deriving DecidableEq

/-- Property read on a JavaScript object modeled as an insertion-ordered
association list. -/
def alGet {κ α : Type} [DecidableEq κ] : List (κ × α) → κ → Option α
  | [], _ => none
  | (k', v) :: r, k => if k' = k then some v else alGet r k

/-- Property assignment on a JavaScript object: replace in place if the
key exists, else append. -/
def alSet {κ α : Type} [DecidableEq κ] (m : List (κ × α)) (k : κ) (v : α) : List (κ × α) :=
  match m with
  | [] => [(k, v)]
  | (k', v') :: r => if k' = k then (k, v) :: r else (k', v') :: alSet r k v

theorem alGet_alSet_same {κ α : Type} [DecidableEq κ] (m : List (κ × α)) (k : κ) (v : α) :
    alGet (alSet m k v) k = some v := by
  induction m with
  | nil => simp [alSet, alGet]
  | cons p r ih =>
    obtain ⟨k', v'⟩ := p
    by_cases h : k' = k <;> simp [alSet, alGet, h, ih]

/-! ## Frontmatter parser (`parseFrontmatter`, templates.mjs lines 145-233)

The parser is embedded with an explicit failure outcome (`none`): the
one state access the source performs without a guard,
`result[parentKey][childKey].push(item)`, is modeled as failing unless
the state really holds an object with a list at `childKey`, which is
exactly when the JavaScript expression would throw a `TypeError`. -/

structure FmState where
  result : List (Str × YVal)
  parentKey : Option Str
  parentIndent : Int
  childKey : Option Str
  childIndent : Int
deriving DecidableEq

def fmInit : FmState := ⟨[], none, -1, none, -1⟩

def fmStep (st : FmState) (line : Str) : Option FmState :=
  let t := trimL line
  if t = [] ∨ startsW "#".data t then some st
  else
    let indent : Int := (line.length : Int) - (trimStartL line).length
    if indent = 0 ∧ t.contains ':' then
      match idxOfChar ':' t with
      | none => some st
      | some ci =>
        let key := trimL (t.take ci)
        let value := trimL (t.drop (ci + 1))
        if value ≠ [] ∧ value ≠ "[]".data then
          some { st with
            result := alSet st.result key (.scalar (parseScalar value))
            parentKey := none
            childKey := none }
        else if value = "[]".data then
          some { st with
            result := alSet st.result key (.list [])
            parentKey := none
            childKey := none }
        else
          some { st with
            result := alSet st.result key (.obj [])
            parentKey := some key
            parentIndent := indent
            childKey := none }
    else
      match st.parentKey with
      | none => some st
      | some pk =>
        if indent > st.parentIndent then
          match st.childKey with
          | some ck =>
            if indent > st.childIndent ∧ startsW "- ".data t then
              let item := stripQuotesJs (trimL (t.drop 2))
              match alGet st.result pk with
              | some (.obj m) =>
                match alGet m ck with
                | some (.list xs) =>
                  some { st with
                    result := alSet st.result pk (.obj (alSet m ck (.list (xs ++ [item])))) }
                | _ => none
              | _ => none
            else
              fmStepTail { st with childKey := if indent ≤ st.childIndent then none else st.childKey }
                pk indent t
          | none => fmStepTail st pk indent t
        else some st
where
  fmStepTail (st : FmState) (pk : Str) (indent : Int) (t : Str) : Option FmState :=
    if startsW "- ".data t then
      let item := stripQuotesJs (trimL (t.drop 2))
      let xs := match alGet st.result pk with
        | some (.list xs) => xs
        | _ => []
      some { st with result := alSet st.result pk (.list (xs ++ [item])) }
    else if t.contains ':' then
      let m := match alGet st.result pk with
        | some (.obj m) => m
        | _ => []
      match idxOfChar ':' t with
      | none => some st
      | some ci =>
        let nk := trimL (t.take ci)
        let nv := trimL (t.drop (ci + 1))
        if nv ≠ [] ∧ nv ≠ "[]".data then
          some { st with
            result := alSet st.result pk (.obj (alSet m nk (.scalar (parseScalar nv))))
            childKey := none }
        else
          some { st with
            result := alSet st.result pk (.obj (alSet m nk (.list [])))
            childKey := some nk
            childIndent := indent }
    else some st

def parseFrontmatterE (yaml : Str) : Option (List (Str × YVal)) :=
  if trimL yaml = [] then some []
  else ((splitLines yaml).foldlM fmStep fmInit).map (·.result)

/-- `parseFrontmatter`: in the source this can never actually throw
(proved below), so downstream code uses the success payload. -/
def parseFrontmatter (yaml : Str) : List (Str × YVal) :=
  (parseFrontmatterE yaml).getD []

/-! ## Section / subsection scanner
(`findTopLevelSections` lines 248-275, `findTopLevelSubsections` lines 353-378) -/

structure Sec where
  name : Str
  index : Nat
  fullMatch : Str
deriving DecidableEq

/-- A line whose trimmed content starts with a triple backtick. -/
def isFenceLine (line : Str) : Bool := startsW "```".data (trimL line)

/-- The shared line scan of the two heading finders: `markerSp` is the
heading marker including its trailing space; the heading test is the
regex `^## .+` (marker then at least one character). -/
def findHeadingsGo (markerSp : Str) (lower : Bool) :
    List Str → Bool → Nat → List Sec
  | [], _, _ => []
  | line :: rest, inFence, pos =>
    let t := trimL line
    let inFence' := if startsW "```".data t then !inFence else inFence
    let here :=
      if !inFence' && startsW markerSp t && decide (markerSp.length < t.length) then
        let name0 := trimL (t.drop markerSp.length)
        [Sec.mk (if lower then toLowerL name0 else name0) pos line]
      else []
    here ++ findHeadingsGo markerSp lower rest inFence' (pos + line.length + 1)

def findTopLevelSections (body : Str) : List Sec :=
  findHeadingsGo "## ".data true (splitLines body) false 0

def findTopLevelSubsections (content : Str) : List Sec :=
  findHeadingsGo "### ".data false (splitLines content) false 0

/-! ## JSON (model of the platform `JSON.parse` / `JSON.stringify`)

Numbers are modeled as integers: fraction/exponent syntax is rejected
by the model parser (the repository never reads or writes non-integer
numbers).  Object key order is insertion order. -/

inductive Json where
  | null : Json
  | bool (b : Bool) : Json
  | num (n : Int) : Json
  | str (s : Str) : Json
  | arr (elems : List Json) : Json
  | obj (fields : List (Str × Json)) : Json

/-- JavaScript falsiness of a JSON value (`x || {}`). -/
def jsFalsy : Json → Bool
  | .null => true
  | .bool b => !b
  | .num n => n == 0
  | .str s => s.isEmpty
  | _ => false

def jsonWsChar (c : Char) : Bool := c == ' ' || c == '\t' || c == '\n' || c == '\r'

def skipWs (s : Str) : Str := s.dropWhile jsonWsChar

def hexVal? (c : Char) : Option Nat :=
  if '0' ≤ c ∧ c ≤ '9' then some (c.toNat - '0'.toNat)
  else if 'a' ≤ c ∧ c ≤ 'f' then some (c.toNat - 'a'.toNat + 10)
  else if 'A' ≤ c ∧ c ≤ 'F' then some (c.toNat - 'A'.toNat + 10)
  else none

/-- Parse the remainder of a JSON string literal (after the opening
quote); returns the decoded text and the rest of the input. -/
def parseJStr : Str → Option (Str × Str)
  | [] => none
  | '"' :: r => some ([], r)
  | '\\' :: 'u' :: h1 :: h2 :: h3 :: h4 :: r =>
    match hexVal? h1, hexVal? h2, hexVal? h3, hexVal? h4 with
    | some a, some b, some c, some d =>
      (parseJStr r).map fun p => (Char.ofNat (((a * 16 + b) * 16 + c) * 16 + d) :: p.1, p.2)
    | _, _, _, _ => none
  | '\\' :: e :: r =>
    match (if e = '"' then some '"'
      else if e = '\\' then some '\\'
      else if e = '/' then some '/'
      else if e = 'b' then some (Char.ofNat 8)
      else if e = 'f' then some (Char.ofNat 12)
      else if e = 'n' then some '\n'
      else if e = 'r' then some '\r'
      else if e = 't' then some '\t'
      else none) with
    | some c => (parseJStr r).map fun p => (c :: p.1, p.2)
    | none => none
  | c :: r =>
    if c.toNat < 32 then none
    else (parseJStr r).map fun p => (c :: p.1, p.2)

/-- The digit run of a JSON integer literal (`0 | [1-9][0-9]*`). -/
def parseDigits (s : Str) : Option (Nat × Str) :=
  match s with
  | '0' :: r => some (0, r)
  | c :: _ =>
    if c.isDigit then
      some (parseIntDec (s.takeWhile (·.isDigit)), s.dropWhile (·.isDigit))
    else none
  | [] => none

/-- An optionally negated digit run. -/
def parseSigned (s : Str) : Option (Int × Str) :=
  match s with
  | '-' :: r => (parseDigits r).map fun p => (-(p.1 : Int), p.2)
  | _ => (parseDigits s).map fun p => ((p.1 : Int), p.2)

/-- Parse a JSON integer literal (`-? (0 | [1-9][0-9]*)`); fraction or
exponent syntax following it makes the model parser fail. -/
def parseJNum (s : Str) : Option (Int × Str) :=
  match parseSigned s with
  | some (n, rest) =>
    match rest with
    | c :: _ => if c = '.' ∨ c = 'e' ∨ c = 'E' then none else some (n, rest)
    | [] => some (n, rest)
  | none => none

mutual

def parseJVal : Nat → Str → Option (Json × Str)
  | 0, _ => none
  | fuel + 1, s0 =>
    let s := skipWs s0
    match s with
    | 'n' :: 'u' :: 'l' :: 'l' :: r => some (.null, r)
    | 't' :: 'r' :: 'u' :: 'e' :: r => some (.bool true, r)
    | 'f' :: 'a' :: 'l' :: 's' :: 'e' :: r => some (.bool false, r)
    | '"' :: r => (parseJStr r).map fun p => (.str p.1, p.2)
    | '[' :: r =>
      match skipWs r with
      | ']' :: r2 => some (.arr [], r2)
      | _ => (parseJElems fuel r).map fun p => (.arr p.1, p.2)
    | '{' :: r =>
      match skipWs r with
      | '}' :: r2 => some (.obj [], r2)
      | _ => (parseJFields fuel r).map fun p => (.obj p.1, p.2)
    | _ => (parseJNum s).map fun p => (.num p.1, p.2)

def parseJElems : Nat → Str → Option (List Json × Str)
  | 0, _ => none
  | fuel + 1, s =>
    (parseJVal fuel s).bind fun p =>
      match skipWs p.2 with
      | ',' :: r2 => (parseJElems fuel r2).map fun q => (p.1 :: q.1, q.2)
      | ']' :: r2 => some ([p.1], r2)
      | _ => none

def parseJFields : Nat → Str → Option (List (Str × Json) × Str)
  | 0, _ => none
  | fuel + 1, s =>
    match skipWs s with
    | '"' :: r =>
      (parseJStr r).bind fun pk =>
        match skipWs pk.2 with
        | ':' :: r3 =>
          (parseJVal fuel r3).bind fun pv =>
            match skipWs pv.2 with
            | ',' :: r5 => (parseJFields fuel r5).map fun q => ((pk.1, pv.1) :: q.1, q.2)
            | '}' :: r5 => some ([(pk.1, pv.1)], r5)
            | _ => none
        | _ => none
    | _ => none

end

/-- `JSON.parse` (model): whole-input parse, `none` on any syntax error. -/
def jsonParse (s : Str) : Option Json :=
  match parseJVal (s.length + 1) s with
  | some (v, r) => if skipWs r = [] then some v else none
  | none => none

/-- Decimal digits of a natural number. -/
def natToStr (n : Nat) : Str :=
  if h : n < 10 then [Char.ofNat ('0'.toNat + n)]
  else natToStr (n / 10) ++ [Char.ofNat ('0'.toNat + n % 10)]
decreasing_by exact Nat.div_lt_self (by omega) (by omega)

/-- JavaScript decimal rendering of an integer. -/
def intToStr (n : Int) : Str :=
  if n < 0 then '-' :: natToStr n.natAbs else natToStr n.natAbs

/-- The escaping `JSON.stringify` applies inside string literals. -/
def escapeJChar (c : Char) : Str :=
  if c = '"' then ['\\', '"']
  else if c = '\\' then ['\\', '\\']
  else if c = '\n' then ['\\', 'n']
  else if c = '\r' then ['\\', 'r']
  else if c = '\t' then ['\\', 't']
  else if c = Char.ofNat 8 then ['\\', 'b']
  else if c = Char.ofNat 12 then ['\\', 'f']
  else if c.toNat < 32 then
    ['\\', 'u', '0', '0',
      Char.ofNat (if c.toNat / 16 < 10 then '0'.toNat + c.toNat / 16 else 'a'.toNat + c.toNat / 16 - 10),
      Char.ofNat (if c.toNat % 16 < 10 then '0'.toNat + c.toNat % 16 else 'a'.toNat + c.toNat % 16 - 10)]
  else [c]

def escapeJ : Str → Str
  | [] => []
  | c :: r => escapeJChar c ++ escapeJ r

def spacesL (n : Nat) : Str := List.replicate n ' '

mutual

/-- `JSON.stringify(v, null, 2)` at nesting indentation `ind`. -/
def jstringify (ind : Nat) : Json → Str
  | .null => "null".data
  | .bool true => "true".data
  | .bool false => "false".data
  | .num n => intToStr n
  | .str s => '"' :: escapeJ s ++ ['"']
  | .arr [] => "[]".data
  | .arr (x :: xs) =>
    "[\n".data ++ jstringifyElems (ind + 2) x xs ++ '\n' :: spacesL ind ++ "]".data
  | .obj [] => "\x7b\x7d".data
  | .obj (f :: fs) =>
    "\x7b\n".data ++ jstringifyFields (ind + 2) f fs ++ '\n' :: spacesL ind ++ "\x7d".data
termination_by v => sizeOf v

def jstringifyElems (ind : Nat) : Json → List Json → Str
  | x, [] => spacesL ind ++ jstringify ind x
  | x, y :: ys => spacesL ind ++ jstringify ind x ++ ",\n".data ++ jstringifyElems ind y ys
termination_by x xs => sizeOf x + sizeOf xs

def jstringifyFields (ind : Nat) : Str × Json → List (Str × Json) → Str
  | (k, v), [] => spacesL ind ++ '"' :: escapeJ k ++ "\": ".data ++ jstringify ind v
  | (k, v), g :: gs =>
    spacesL ind ++ '"' :: escapeJ k ++ "\": ".data ++ jstringify ind v ++ ",\n".data ++
      jstringifyFields ind g gs
termination_by f fs => sizeOf f + sizeOf fs

end

/-! ## Frontmatter extraction (`extractFrontmatter`, templates.mjs lines 113-136) -/

def extractFrontmatter (content : Str) : Str × Str :=
  match splitLines content with
  | [] => ([], content)
  | l0 :: rest =>
    if trimL l0 ≠ "---".data then ([], content)
    else
      match findIdxL (fun l => trimL l == "---".data) rest with
      | none => ([], content)
      | some j => (joinLines (rest.take j), joinLines (rest.drop (j + 1)))

/-! ## Tagged fenced-block extraction

Model of the JavaScript regex searches
`content.match(/```json\s*\n([\s\S]*?)\n```/)` (templates.mjs line 339)
and `subContent.match(/```markdown\s*\n([\s\S]*?)\n```/)` (line 397):
leftmost match start, greedy `\s*` (with backtracking), lazy body ended
by the first subsequent `"\n```"`. -/

/-- First index at which `pat` occurs as a contiguous substring
(the index JavaScript `indexOf` reports on success). -/
def findSub (pat : Str) : Str → Option Nat
  | [] => if pat.isEmpty then some 0 else none
  | s@(_ :: r) => if startsW pat s then some 0 else (findSub pat r).map (· + 1)

/-- Try to match the tagged-block regex at the start of `s`: after the
tag, the greedy `\s*\n` backtracks to the last viable newline of the
whitespace run, then the lazy body ends at the first later `"\n```"`. -/
def matchTagHere (tag s : Str) : Option Str :=
  if startsW tag s then
    let rest := s.drop tag.length
    let w := rest.takeWhile jsWhitespace
    match (List.range w.length).reverse.find?
        (fun k => rest.getD k ' ' == '\n' && (findSub "\n```".data (rest.drop (k + 1))).isSome) with
    | some k =>
      match findSub "\n```".data (rest.drop (k + 1)) with
      | some m => some ((rest.drop (k + 1)).take m)
      | none => none
    | none => none
  else none

/-- The whole regex search: body of the leftmost match, if any. -/
def matchTaggedBlock (tag : Str) : Str → Option Str
  | [] => matchTagHere tag []
  | s@(_ :: r) =>
    match matchTagHere tag s with
    | some b => some b
    | none => matchTaggedBlock tag r

/-- `extractJsonBlock` (templates.mjs lines 338-348): first `json`-tagged
fenced block, body run through `JSON.parse`; `none` both when no block
matches and when the parse throws. -/
def extractJsonBlock (content : Str) : Option Json :=
  (matchTaggedBlock "```json".data content).bind jsonParse

/-! ## Named subsections and tables -/

/-- Content span of the `i`-th heading in `ss` within `text`. -/
def spanContent (text : Str) (ss : List Sec) (i : Nat) (sec : Sec) : Str :=
  let contentStart := sec.index + sec.fullMatch.length
  let contentEnd := match ss.get? (i + 1) with
    | some nxt => nxt.index
    | none => text.length
  trimL (sliceL text contentStart contentEnd)

/-- `extractNamedSubsections` (templates.mjs lines 385-407). -/
def extractNamedSubsections (content : Str) : List (Str × Str) :=
  let subs := findTopLevelSubsections content
  (subs.mapIdx fun i sub => (sub.name, spanContent content subs i sub)).foldl
    (fun acc p =>
      alSet acc p.1
        (match matchTaggedBlock "```markdown".data p.2 with
         | some b => trimL b
         | none => p.2))
    []

structure ExtRow where
  name : Str
  repository : Str
  skill : Str
  description : Str
deriving DecidableEq

/-- Cells of a markdown-table row: split on `|`, trim, drop empties. -/
def cellsOf (t : Str) : List Str :=
  ((splitOnCharL '|' t).map trimL).filter (fun c => !c.isEmpty)

/-- One step of the table scan shared by `parseExternalSkillsTable`
(lines 414-452) and `parseIndex` (lines 34-72): `header` is the
case-insensitive first-cell token that marks the header row. -/
def tableStep (header : Str) (mk : Str → Str → Str → Str → α) :
    List α × Bool → Str → List α × Bool
  | (acc, inTable), line =>
    let t := trimL line
    if !startsW "|".data t then (acc, inTable)
    else
      match cellsOf t with
      | c0 :: c1 :: c2 :: c3 :: _ =>
        if toLowerL c0 = header then (acc, true)
        else if startsW "-".data c0 then (acc, inTable)
        else if inTable then (acc ++ [mk c0 c1 c2 c3], inTable)
        else (acc, inTable)
      | _ => (acc, inTable)

/-- `parseExternalSkillsTable` (templates.mjs lines 414-452). -/
def parseExternalSkillsTable (content : Str) : List ExtRow :=
  ((splitLines content).foldl (tableStep "name".data ExtRow.mk) ([], false)).1

structure TEntry where
  id : Str
  name : Str
  description : Str
  file : Str
deriving DecidableEq

/-- `parseIndex` (templates.mjs lines 34-72). -/
def parseIndex (content : Str) : List TEntry :=
  ((splitLines content).foldl (tableStep "id".data TEntry.mk) ([], false)).1

/-! ## Section extraction (`extractSections`, templates.mjs lines 282-333) -/

structure Sections where
  claude_md : Str := []
  hooks : Json := .obj []
  skills : List (Str × Str) := []
  agents : List (Str × Str) := []
  mcp_servers : Json := .obj []
  external_skills : List ExtRow := []

/-- `extractJsonBlock(content) || {}` (a falsy parsed value also becomes
the empty object). -/
def jsonOrEmpty (content : Str) : Json :=
  match extractJsonBlock content with
  | some v => if jsFalsy v then .obj [] else v
  | none => .obj []

def applySection (acc : Sections) (p : Str × Str) : Sections :=
  if p.1 = "claude_md".data then { acc with claude_md := p.2 }
  else if p.1 = "hooks".data then { acc with hooks := jsonOrEmpty p.2 }
  else if p.1 = "skills".data then { acc with skills := extractNamedSubsections p.2 }
  else if p.1 = "agents".data then { acc with agents := extractNamedSubsections p.2 }
  else if p.1 = "mcp_servers".data then { acc with mcp_servers := jsonOrEmpty p.2 }
  else if p.1 = "external_skills".data then
    { acc with external_skills := parseExternalSkillsTable p.2 }
  else acc

/-- The ordered `(name, trimmed content span)` list of the body's
top-level sections. -/
def sectionSpans (body : Str) : List (Str × Str) :=
  let ss := findTopLevelSections body
  ss.mapIdx fun i sec => (sec.name, spanContent body ss i sec)

def extractSections (body : Str) : Sections :=
  (sectionSpans body).foldl applySection {}

/-! ## Whole-document parse (`parseTemplateContent`, templates.mjs lines 94-108) -/

structure TemplateDoc where
  meta : List (Str × YVal)
  claude_md : Str
  hooks : Json
  skills : List (Str × Str)
  agents : List (Str × Str)
  mcp_servers : Json
  external_skills : List ExtRow

/-- `parseTemplateContent`, with the (provably unreachable) throwing
outcome of the frontmatter parser surfaced as `none`. -/
def parseTemplateContentE (content : Str) : Option TemplateDoc :=
  let fm := extractFrontmatter content
  (parseFrontmatterE fm.1).map fun meta =>
    let sections := extractSections fm.2
    { meta := meta
      claude_md := sections.claude_md
      hooks := sections.hooks
      skills := sections.skills
      agents := sections.agents
      mcp_servers := sections.mcp_servers
      external_skills := sections.external_skills }

def parseTemplateContent (content : Str) : TemplateDoc :=
  (parseTemplateContentE content).getD
    { meta := [], claude_md := [], hooks := .obj [], skills := [], agents := [],
      mcp_servers := .obj [], external_skills := [] }

/-! ## Template builder (`template-generator.mjs`) -/

structure BMeta where
  id : Str
  name : Str
  description : Str
  version : Int
  detection : Option (List (Str × List Str))

structure BDoc where
  meta : BMeta
  claudeMd : Str
  hooks : List (Str × Json)
  skills : List (Str × Str)
  agents : List (Str × Str)
  mcpServers : List (Str × Json)
  externalSkills : List ExtRow

/-- `buildFrontmatter` (template-generator.mjs lines 23-46).  Note the
source always writes the literal `version: 1` and never reads
`meta.version`. -/
def buildFrontmatterLines (meta : BMeta) : List Str :=
  ["---".data,
   "id: ".data ++ meta.id,
   "name: ".data ++ meta.name,
   "description: ".data ++ meta.description,
   "version: 1".data] ++
  (match meta.detection with
   | none => []
   | some groups =>
     "detection:".data ::
       groups.foldr (fun g acc =>
         (if g.2.isEmpty then [] else
           ("  ".data ++ g.1 ++ ":".data) ::
             g.2.map (fun v => "    - \"".data ++ v ++ "\"".data)) ++ acc) []) ++
  ["---".data]

def buildFrontmatter (meta : BMeta) : Str := joinLines (buildFrontmatterLines meta)

/-- The `parts` array assembled by `buildTemplateContent`
(template-generator.mjs lines 61-137); elements may span lines. -/
def buildParts (d : BDoc) : List Str :=
  [buildFrontmatter d.meta, [], "# ".data ++ d.meta.name, []] ++
  (if !d.claudeMd.isEmpty then ["## claude_md".data, trimL d.claudeMd, []] else []) ++
  (if !d.hooks.isEmpty then
    ["## hooks".data, "```json".data, jstringify 0 (.obj d.hooks), "```".data, []] else []) ++
  (if !d.skills.isEmpty then
    "## skills".data ::
      d.skills.foldr (fun p acc =>
        ["### ".data ++ p.1, "```markdown".data, trimL p.2, "```".data, []] ++ acc) []
   else []) ++
  (if !d.agents.isEmpty then
    "## agents".data ::
      d.agents.foldr (fun p acc =>
        ["### ".data ++ p.1, "```markdown".data, trimL p.2, "```".data, []] ++ acc) []
   else []) ++
  (if !d.mcpServers.isEmpty then
    ["## mcp_servers".data, "```json".data, jstringify 0 (.obj d.mcpServers), "```".data, []]
   else []) ++
  (if !d.externalSkills.isEmpty then
    ["## external_skills".data,
     "| Name | Repository | Skill | Description |".data,
     "|------|-----------|-------|-------------|".data] ++
      d.externalSkills.map (fun r =>
        "| ".data ++ r.name ++ " | ".data ++ r.repository ++ " | ".data ++ r.skill ++
          " | ".data ++ r.description ++ " |".data) ++ [[]]
   else [])

/-- `buildTemplateContent`: `parts.join("\n")`. -/
def buildTemplateContent (d : BDoc) : Str := joinLines (buildParts d)

/-! ## Feedback aggregation (`feedback.mjs`) and scoring (`src/unnamed/part_001`) -/

/-- `a || d` for possibly-absent strings (the empty string is falsy). -/
def jsOr (o : Option String) (d : String) : String :=
  match o with
  | some s => if s = "" then d else s
  | none => d

structure FItem where
  id : Option String := none
  category : Option String := none
  name : Option String := none
  event : Option String := none
  status : String := ""
  heuristicKey : Option String := none
deriving DecidableEq

structure FRecord where
  projectType : Option String := none
  templateId : Option String := none
  items : List FItem := []
deriving DecidableEq

/-- `deriveHeuristicKey` (feedback.mjs lines 24-44). -/
def deriveHeuristicKey (item : FItem) : String :=
  let category := jsOr item.category "unknown"
  let name := jsOr item.name (jsOr item.id "unnamed")
  if category = "hook" then "hook:" ++ jsOr item.event "" ++ ":" ++ name
  else if category = "mcp" then "mcp:" ++ name
  else if category = "skill" then "skill:" ++ name
  else if category = "agent" then "agent:" ++ name
  else if category = "claude_md" then "claude_md:" ++ name
  else if category = "external_skill" then "external_skill:" ++ name
  else category ++ ":" ++ name

structure HTally where
  total : Nat := 0
  approved : Nat := 0
  skipped : Nat := 0
  modified : Nat := 0
deriving DecidableEq

structure TTally where
  sessions : Nat := 0
  totalItems : Nat := 0
  approved : Nat := 0
deriving DecidableEq

structure Aggregate where
  totalSessions : Nat
  totalItems : Nat
  overallApprovalRate : Nat
  byHeuristic : List (String × HTally)
  byTemplate : List (String × TTally)
  projectTypes : List (String × Nat)
deriving DecidableEq

/-- `Math.round(100 * a / t)` for `t > 0`, as exact rational rounding. -/
def jsRound100 (a t : Nat) : Nat := (200 * a + t) / (2 * t)

structure AggState where
  byHeuristic : List (String × HTally) := []
  byTemplate : List (String × TTally) := []
  projectTypes : List (String × Nat) := []
  totalItems : Nat := 0
  totalApproved : Nat := 0
deriving DecidableEq

def aggItemStep (tid : String) (st : AggState) (item : FItem) : AggState :=
  let st := { st with
    totalItems := st.totalItems + 1
    totalApproved := if item.status = "approved" then st.totalApproved + 1 else st.totalApproved }
  let key := match item.heuristicKey with
    | some h => if h = "" then deriveHeuristicKey item else h
    | none => deriveHeuristicKey item
  let h := (alGet st.byHeuristic key).getD {}
  let h := { h with
    total := h.total + 1
    approved := if item.status = "approved" then h.approved + 1 else h.approved
    skipped := if item.status ≠ "approved" ∧ item.status = "skipped" then h.skipped + 1 else h.skipped
    modified := if item.status ≠ "approved" ∧ item.status ≠ "skipped" ∧ item.status = "modified"
      then h.modified + 1 else h.modified }
  let st := { st with byHeuristic := alSet st.byHeuristic key h }
  let t := (alGet st.byTemplate tid).getD {}
  let t := { t with
    totalItems := t.totalItems + 1
    approved := if item.status = "approved" then t.approved + 1 else t.approved }
  { st with byTemplate := alSet st.byTemplate tid t }

def aggRecordStep (st : AggState) (record : FRecord) : AggState :=
  let pt := jsOr record.projectType "unknown"
  let st := { st with projectTypes := alSet st.projectTypes pt ((alGet st.projectTypes pt).getD 0 + 1) }
  let tid := jsOr record.templateId "none"
  let t0 := (alGet st.byTemplate tid).getD {}
  let st := { st with byTemplate := alSet st.byTemplate tid { t0 with sessions := t0.sessions + 1 } }
  record.items.foldl (aggItemStep tid) st

/-- `aggregateFeedback` (feedback.mjs lines 166-224). -/
def aggregateFeedback (records : List FRecord) : Aggregate :=
  if records.isEmpty then
    { totalSessions := 0, totalItems := 0, overallApprovalRate := 0,
      byHeuristic := [], byTemplate := [], projectTypes := [] }
  else
    let st := records.foldl aggRecordStep {}
    { totalSessions := records.length
      totalItems := st.totalItems
      overallApprovalRate := if st.totalItems > 0 then jsRound100 st.totalApproved st.totalItems else 0
      byHeuristic := st.byHeuristic
      byTemplate := st.byTemplate
      projectTypes := st.projectTypes }

structure HRow where
  key : String
  total : Nat
  approved : Nat
  skipped : Nat
  modified : Nat
  approvalRate : Nat
deriving DecidableEq

/-- `aggregateByHeuristic` (feedback.mjs lines 230-247); the final sort
is JavaScript's stable sort, descending by approval rate. -/
def aggregateByHeuristic (records : List FRecord) : List HRow :=
  let agg := aggregateFeedback records
  (agg.byHeuristic.map fun p =>
    HRow.mk p.1 p.2.total p.2.approved p.2.skipped p.2.modified
      (if p.2.total > 0 then jsRound100 p.2.approved p.2.total else 0)).mergeSort
    (fun a b => b.approvalRate ≤ a.approvalRate)

/-- `TIERS` (src/unnamed/part_001 lines 6-10): name, minRate, minSessions. -/
def TIERS : List (String × Int × Int) :=
  [("validated", 85, 5), ("acceptable", 65, 3), ("needs-review", 0, 3)]

/-- `getQualityTier` (src/unnamed/part_001 lines 37-47). -/
def getQualityTier (approvalRate sessions : Int) : String :=
  if sessions < 3 then "insufficient-data"
  else
    match TIERS.find? (fun t => approvalRate ≥ t.2.1 && sessions ≥ t.2.2) with
    | some t => t.1
    | none => "insufficient-data"

structure TScore where
  templateId : String
  approvalRate : Nat
  sessions : Nat
  totalItems : Nat
  approved : Nat
  tier : String
deriving DecidableEq

/-- `computeTemplateScore` (src/unnamed/part_001 lines 19-32). -/
def computeTemplateScore (templateId : String) (stats : TTally) : TScore :=
  let approvalRate := if stats.totalItems > 0 then jsRound100 stats.approved stats.totalItems else 0
  { templateId := templateId
    approvalRate := approvalRate
    sessions := stats.sessions
    totalItems := stats.totalItems
    approved := stats.approved
    tier := getQualityTier approvalRate stats.sessions }

/-! ## Specification-side definitions used by the theorem statements -/

/-- Fence parity after scanning `L`, starting from state `f` (the claim's
"fence state toggles on each line whose trimmed content starts with a
triple backtick"). -/
def fenceTgl (L : List Str) (f : Bool) : Bool :=
  L.foldl (fun b l => if isFenceLine l then !b else b) f

/-- Total text size of a line list including the newline after each line. -/
def sizeLinesL (L : List Str) : Nat := (L.map (fun l => l.length + 1)).sum

/-- Character offset of the start of line `j` in the joined text. -/
def lineOffset (L : List Str) (j : Nat) : Nat := sizeLinesL (L.take j)

/-- A line whose trimmed content matches the heading regex for `markerSp`
(marker including its trailing space, followed by at least one character). -/
def isHeadingLine (markerSp : Str) (l : Str) : Bool :=
  startsW markerSp (trimL l) && decide (markerSp.length < (trimL l).length)

/-- Total number of items across records. -/
def countItems (records : List FRecord) : Nat :=
  (records.map (fun r => r.items.length)).sum

/-- Total number of approved items across records. -/
def countApproved (records : List FRecord) : Nat :=
  (records.map (fun r => r.items.countP (fun it => it.status == "approved"))).sum

/-- The claim's reading of scalar quote stripping: remove a leading and a
trailing quote only as a matching pair of the same kind. -/
def stripMatchingPair (s : Str) : Str :=
  if 2 ≤ s.length ∧ isQuoteChar (s.headD 'x') ∧ s.getLastD 'x' = s.headD 'x' then
    (s.drop 1).dropLast
  else s

/-- `parseScalar` as the claim describes it (matching-pair stripping). -/
def parseScalarPair (v : Str) : Scalar :=
  let stripped := stripMatchingPair v
  if isDigitsL stripped then .num (parseIntDec stripped) else .str stripped

/-- Independent one-sided quote stripping (the amended description of
what the source regex replace actually does). -/
def stripAmended (s : Str) : Str :=
  let s1 := if isQuoteChar (s.headD 'x') then s.drop 1 else s
  if isQuoteChar (s1.getLastD 'x') then s1.dropLast else s1

/-- `parseScalar` as amended: strip at most one leading and at most one
trailing quote character, each independently, then digits become an
integer. -/
def parseScalarAmended (v : Str) : Scalar :=
  let stripped := stripAmended v
  if isDigitsL stripped then .num (parseIntDec stripped) else .str stripped

/-- Does this line open a markdown table header for `header`? -/
def isHeaderRow (header : Str) (l : Str) : Bool :=
  let t := trimL l
  startsW "|".data t &&
    (match cellsOf t with
     | c0 :: _ :: _ :: _ :: _ => toLowerL c0 == header
     | _ => false)

/-- The four cells of a data row (none for non-rows, separator rows and
header-token rows). -/
def rowCells? (header : Str) (l : Str) : Option (Str × Str × Str × Str) :=
  let t := trimL l
  if !startsW "|".data t then none
  else
    match cellsOf t with
    | c0 :: c1 :: c2 :: c3 :: _ =>
      if toLowerL c0 = header then none
      else if startsW "-".data c0 then none
      else some (c0, c1, c2, c3)
    | _ => none

/-- Declarative description of the table scan: the data rows strictly
after the first header row, in order. -/
def tableRowsSpec {α : Type} (header : Str) (mk : Str → Str → Str → Str → α)
    (lines : List Str) : List α :=
  match findIdxL (isHeaderRow header) lines with
  | none => []
  | some i =>
    (lines.drop (i + 1)).filterMap
      (fun l => (rowCells? header l).map (fun c => mk c.1 c.2.1 c.2.2.1 c.2.2.2))

/-- Declarative description of `parseIndex`. -/
def indexEntriesSpec (content : Str) : List TEntry :=
  tableRowsSpec "id".data TEntry.mk (splitLines content)

/-- Invariant of the frontmatter scan state: whenever a child key is
open, the parent's entry is an object holding a list at the child key
(exactly what makes the unguarded `push` of the source safe). -/
def FmInv (st : FmState) : Prop :=
  ∀ ck, st.childKey = some ck → ∃ pk, st.parentKey = some pk ∧
    ∃ m, alGet st.result pk = some (.obj m) ∧ ∃ xs, alGet m ck = some (.list xs)

/-! ## The round-trip domain (claim C1) -/

def noNl (s : Str) : Bool := !s.contains '\n'

def trimStable (s : Str) : Bool := trimL s == s

/-- A metadata scalar that survives the builder and the scalar parser
verbatim: single-line, trim-stable, no quote character at either end,
not all digits, not the empty-list token. -/
def plainScalarStr (s : Str) : Bool :=
  !s.isEmpty && noNl s && trimStable s && !isQuoteChar (s.headD 'x') &&
    !isQuoteChar (s.getLastD 'x') && !s.all (·.isDigit) && s != "[]".data

/-- A detection-group key that the frontmatter grammar reads back. -/
def plainDetKey (s : Str) : Bool :=
  !s.isEmpty && noNl s && trimStable s && !s.contains ':' &&
    !startsW "- ".data s && !startsW "#".data s

def fenceFreeLines (s : Str) : Bool :=
  (splitLines s).all (fun l => !startsW "```".data (trimL l))

def plainFenceFree (s : Str) : Bool := trimStable s && fenceFreeLines s

def noHeadingLines (s : Str) : Bool :=
  (splitLines s).all (fun l => !isHeadingLine "## ".data l)

def plainGuidance (s : Str) : Bool := plainFenceFree s && noHeadingLines s

def plainJChar (c : Char) : Bool :=
  c != '"' && c != '\\' && c != '`' && decide (32 ≤ c.toNat)

def plainJStr (s : Str) : Bool := s.all plainJChar

mutual

/-- JSON values whose strings need no escaping (and whose object keys
are distinct, as in any value produced by `JSON.parse`). -/
def plainJson : Json → Bool
  | .null => true
  | .bool _ => true
  | .num _ => true
  | .str s => plainJStr s
  | .arr es => plainJsonList es
  | .obj fs => plainJsonFields fs && decide ((fs.map Prod.fst).Nodup)
termination_by v => sizeOf v

def plainJsonList : List Json → Bool
  | [] => true
  | x :: xs => plainJson x && plainJsonList xs
termination_by xs => sizeOf xs

def plainJsonFields : List (Str × Json) → Bool
  | [] => true
  | (k, v) :: r => plainJStr k && plainJson v && plainJsonFields r
termination_by fs => sizeOf fs

end

mutual

/-- Nesting depth of a JSON value, used for induction. -/
def jdepth : Json → Nat
  | .null | .bool _ | .num _ | .str _ => 0
  | .arr es => jdepthList es + 1
  | .obj fs => jdepthFields fs + 1
termination_by v => sizeOf v

def jdepthList : List Json → Nat
  | [] => 0
  | x :: xs => max (jdepth x) (jdepthList xs)
termination_by xs => sizeOf xs

def jdepthFields : List (Str × Json) → Nat
  | [] => 0
  | (_, v) :: r => max (jdepth v) (jdepthFields r)
termination_by fs => sizeOf fs

end

def plainCell (s : Str) : Bool :=
  !s.isEmpty && noNl s && trimStable s && !s.contains '|'

def plainExtRow (r : ExtRow) : Bool :=
  plainCell r.name && plainCell r.repository && plainCell r.skill &&
    plainCell r.description && (toLowerL r.name != "name".data) &&
    !startsW "-".data r.name

def plainSubName (s : Str) : Bool := !s.isEmpty && noNl s && trimStable s

def goodMeta (m : BMeta) : Bool :=
  plainScalarStr m.id && plainScalarStr m.name && plainScalarStr m.description &&
  (m.version == 1) &&
  (match m.detection with
   | none => true
   | some groups =>
     groups.all (fun g => plainDetKey g.1 && !g.2.isEmpty && g.2.all noNl) &&
       decide ((groups.map Prod.fst).Nodup))

/-- The restricted round-trip domain: documents whose scalar metadata,
guidance, JSON payloads, named entries and table rows survive the
markdown embedding verbatim. -/
def goodDoc (d : BDoc) : Bool :=
  goodMeta d.meta && plainGuidance d.claudeMd &&
  plainJsonFields d.hooks && decide ((d.hooks.map Prod.fst).Nodup) &&
  plainJsonFields d.mcpServers && decide ((d.mcpServers.map Prod.fst).Nodup) &&
  d.skills.all (fun p => plainSubName p.1 && plainFenceFree p.2) &&
  decide ((d.skills.map Prod.fst).Nodup) &&
  d.agents.all (fun p => plainSubName p.1 && plainFenceFree p.2) &&
  decide ((d.agents.map Prod.fst).Nodup) &&
  d.externalSkills.all plainExtRow

/-- The metadata mapping that parsing the built document yields. -/
def metaExpected (d : BDoc) : List (Str × YVal) :=
  [("id".data, .scalar (.str d.meta.id)),
   ("name".data, .scalar (.str d.meta.name)),
   ("description".data, .scalar (.str d.meta.description)),
   ("version".data, .scalar (.num 1))] ++
  (match d.meta.detection with
   | none => []
   | some groups => [("detection".data, .obj (groups.map (fun g => (g.1, .list g.2))))])

/-! ## Block decomposition of the builder output (used to settle C1) -/

/-- All characters whitespace. -/
def allWS (s : Str) : Prop := ∀ c ∈ s, jsWhitespace c = true

/-- The lines of one section block: heading line followed by content lines. -/
def blockLines (markerSp : Str) (b : Str × List Str) : List Str :=
  (markerSp ++ b.1) :: b.2

/-- The section records the heading scan reports for a block list
starting at offset `p`. -/
def secListB (markerSp : Str) (lower : Bool) : List (Str × List Str) → Nat → List Sec
  | [], _ => []
  | b :: bs, p =>
    ⟨(if lower then toLowerL b.1 else b.1), p, markerSp ++ b.1⟩ ::
      secListB markerSp lower bs (p + ((markerSp ++ b.1).length + 1 + sizeLinesL b.2))

/-- Recursive form of the `(name, trimmed span)` computation. -/
def spansRec (body : Str) : List Sec → List (Str × Str)
  | [] => []
  | [s] => [(s.name, trimL (sliceL body (s.index + s.fullMatch.length) body.length))]
  | s :: s2 :: rest =>
    (s.name, trimL (sliceL body (s.index + s.fullMatch.length) s2.index)) ::
      spansRec body (s2 :: rest)

/-- Conditions letting a block pass through the heading scan as exactly
one section: a plain heading name and scan-neutral content lines. -/
def BlockOK (markerSp : Str) (b : Str × List Str) : Prop :=
  trimL b.1 = b.1 ∧ b.1 ≠ [] ∧ noNl b.1 = true ∧
  (∀ (lower : Bool) (p : Nat), findHeadingsGo markerSp lower b.2 false p = []) ∧
  fenceTgl b.2 false = false ∧
  (∀ l ∈ b.2, l.contains '\n' = false)

/-- The section blocks of `buildTemplateContent`'s body. -/
def buildBlocks (d : BDoc) : List (Str × List Str) :=
  (if !d.claudeMd.isEmpty then
    [("claude_md".data, splitLines (trimL d.claudeMd) ++ [[]])] else []) ++
  (if !d.hooks.isEmpty then
    [("hooks".data,
      "```json".data :: splitLines (jstringify 0 (.obj d.hooks)) ++ ["```".data, []])]
   else []) ++
  (if !d.skills.isEmpty then
    [("skills".data,
      d.skills.flatMap (fun p =>
        ("### ".data ++ p.1) :: "```markdown".data :: splitLines (trimL p.2) ++
          ["```".data, []]))]
   else []) ++
  (if !d.agents.isEmpty then
    [("agents".data,
      d.agents.flatMap (fun p =>
        ("### ".data ++ p.1) :: "```markdown".data :: splitLines (trimL p.2) ++
          ["```".data, []]))]
   else []) ++
  (if !d.mcpServers.isEmpty then
    [("mcp_servers".data,
      "```json".data :: splitLines (jstringify 0 (.obj d.mcpServers)) ++ ["```".data, []])]
   else []) ++
  (if !d.externalSkills.isEmpty then
    [("external_skills".data,
      "| Name | Repository | Skill | Description |".data ::
        "|------|-----------|-------|-------------|".data ::
        d.externalSkills.map (fun r =>
          "| ".data ++ r.name ++ " | ".data ++ r.repository ++ " | ".data ++ r.skill ++
            " | ".data ++ r.description ++ " |".data) ++ [[]])]
   else [])

/-- The builder's content lines for one named subsection. -/
def mdLines (p : Str × Str) : List Str :=
  "```markdown".data :: splitLines (trimL p.2) ++ ["```".data, []]

/-- The subsection blocks as the trimmed span presents them: the last
block loses the trailing empty line to the span's final trim. -/
def subBlocksTrim : List (Str × Str) → List (Str × List Str)
  | [] => []
  | [p] => [(p.1, "```markdown".data :: splitLines (trimL p.2) ++ ["```".data])]
  | p :: rest => (p.1, mdLines p) :: subBlocksTrim rest

/-- The markdown-fenced text a subsection span carries for a body `p.2`. -/
def mdText (p : Str × Str) : Str :=
  "```markdown".data ++ ('\n' :: (trimL p.2 ++ "\n```".data))

/-- The builder's markdown table row for one external recommendation. -/
def rowL (r : ExtRow) : Str :=
  "| ".data ++ r.name ++ " | ".data ++ r.repository ++ " | ".data ++ r.skill ++
    " | ".data ++ r.description ++ " |".data

/-- The frontmatter lines one nonempty detection group contributes. -/
def groupLines (g : Str × List Str) : List Str :=
  ("  ".data ++ g.1 ++ ":".data) :: g.2.map (fun v => "    - \"".data ++ v ++ "\"".data)

/-- The frontmatter lines strictly between the two `---` delimiters. -/
def fmInner (meta : BMeta) : List Str :=
  ["id: ".data ++ meta.id,
   "name: ".data ++ meta.name,
   "description: ".data ++ meta.description,
   "version: 1".data] ++
  (match meta.detection with
   | none => []
   | some groups => "detection:".data :: groups.flatMap groupLines)

mutual

/-- Node count of a JSON value, used as a fuel bound for the parser. -/
def jsize : Json → Nat
  | .null | .bool _ | .num _ | .str _ => 1
  | .arr es => jsizeList es + 1
  | .obj fs => jsizeFields fs + 1
termination_by v => sizeOf v

def jsizeList : List Json → Nat
  | [] => 0
  | x :: xs => jsize x + jsizeList xs + 1
termination_by xs => sizeOf xs

def jsizeFields : List (Str × Json) → Nat
  | [] => 0
  | (_, v) :: r => jsize v + jsizeFields r + 1
termination_by fs => sizeOf fs

end

/-! # Theorems -/

/-! ## Claim C4: quality tiers -/

/-- C4: `getQualityTier` returns `insufficient-data` for fewer than 3
sessions regardless of rate; otherwise it returns the first rule of the
ordered list validated (≥85, ≥5), acceptable (≥65, ≥3),
needs-review (≥0, ≥3) whose both thresholds hold; in particular the
boundary values 85/5, 84/5, 65/3, 64/3 and 90/3 evaluate as claimed. -/
theorem C4_getQualityTier_ordered_rules :
    (∀ x s : Int, s < 3 → getQualityTier x s = "insufficient-data") ∧
    (∀ x s : Int, 3 ≤ s →
      getQualityTier x s =
        if x ≥ 85 ∧ s ≥ 5 then "validated"
        else if x ≥ 65 ∧ s ≥ 3 then "acceptable"
        else if x ≥ 0 ∧ s ≥ 3 then "needs-review"
        else "insufficient-data") ∧
    getQualityTier 85 5 = "validated" ∧
    getQualityTier 84 5 = "acceptable" ∧
    getQualityTier 65 3 = "acceptable" ∧
    getQualityTier 64 3 = "needs-review" ∧
    getQualityTier 90 3 = "acceptable" := by
  refine ⟨fun x s h => by simp [getQualityTier, h], fun x s h => ?_,
    by decide, by decide, by decide, by decide, by decide⟩
  have hs3 : ¬ s < 3 := by omega
  by_cases h1 : x ≥ 85 ∧ s ≥ 5
  · simp [getQualityTier, hs3, TIERS, List.find?, h1, h1.1, h1.2]
  · by_cases h2 : x ≥ 65
    · have h2' : x ≥ 65 ∧ s ≥ 3 := ⟨h2, h⟩
      by_cases h85 : x ≥ 85
      · have h5 : ¬ s ≥ 5 := fun hc => h1 ⟨h85, hc⟩
        simp [getQualityTier, hs3, TIERS, List.find?, h85, h5, h2, h, h1, h2']
      · simp [getQualityTier, hs3, TIERS, List.find?, h85, h2, h, h1, h2']
    · have h85 : ¬ x ≥ 85 := by omega
      by_cases h0 : x ≥ 0
      · simp [getQualityTier, hs3, TIERS, List.find?, h85, h2, h0, h, h1]
      · simp [getQualityTier, hs3, TIERS, List.find?, h85, h2, h0, h, h1]

/-- Witness for C4 at concrete inputs. -/
theorem C4_getQualityTier_ordered_rules_witness :
    getQualityTier 100 2 = "insufficient-data" ∧ getQualityTier 90 3 = "acceptable" := by
  constructor
  · exact C4_getQualityTier_ordered_rules.1 100 2 (by norm_num)
  · have h := C4_getQualityTier_ordered_rules.2.1 90 3 (by norm_num)
    rw [h]
    norm_num

/-! ## Claim C5: aggregation totals and approval rates -/

theorem aggItemStep_totalItems (tid : String) (st : AggState) (it : FItem) :
    (aggItemStep tid st it).totalItems = st.totalItems + 1 := by
  simp [aggItemStep]

theorem aggItemStep_totalApproved (tid : String) (st : AggState) (it : FItem) :
    (aggItemStep tid st it).totalApproved =
      st.totalApproved + (if it.status = "approved" then 1 else 0) := by
  by_cases h : it.status = "approved" <;> simp [aggItemStep, h]

theorem foldl_aggItemStep_totals (tid : String) (items : List FItem) :
    ∀ st : AggState,
      ((items.foldl (aggItemStep tid) st).totalItems = st.totalItems + items.length) ∧
      ((items.foldl (aggItemStep tid) st).totalApproved =
        st.totalApproved + items.countP (fun it => it.status == "approved")) := by
  induction items with
  | nil => intro st; simp
  | cons it rest ih =>
    intro st
    obtain ⟨h1, h2⟩ := ih (aggItemStep tid st it)
    constructor
    · rw [List.foldl_cons, h1, aggItemStep_totalItems, List.length_cons]
      omega
    · rw [List.foldl_cons, h2, aggItemStep_totalApproved, List.countP_cons]
      by_cases h : it.status = "approved" <;> simp [h] <;> omega

theorem aggRecordStep_totals (st : AggState) (r : FRecord) :
    ((aggRecordStep st r).totalItems = st.totalItems + r.items.length) ∧
    ((aggRecordStep st r).totalApproved =
      st.totalApproved + r.items.countP (fun it => it.status == "approved")) := by
  unfold aggRecordStep
  exact foldl_aggItemStep_totals _ _ _

theorem foldl_aggRecordStep_totals (records : List FRecord) :
    ∀ st : AggState,
      ((records.foldl aggRecordStep st).totalItems = st.totalItems + countItems records) ∧
      ((records.foldl aggRecordStep st).totalApproved =
        st.totalApproved + countApproved records) := by
  induction records with
  | nil => intro st; simp [countItems, countApproved]
  | cons r rest ih =>
    intro st
    obtain ⟨h1, h2⟩ := ih (aggRecordStep st r)
    obtain ⟨g1, g2⟩ := aggRecordStep_totals st r
    refine ⟨?_, ?_⟩
    · rw [List.foldl_cons, h1, g1]
      simp [countItems]
      omega
    · rw [List.foldl_cons, h2, g2]
      simp [countApproved]
      omega

theorem jsRound100_self (t : Nat) (h : 0 < t) : jsRound100 t t = 100 := by
  unfold jsRound100
  have h1 : 200 * t + t = 2 * t * 100 + t := by ring
  rw [h1, Nat.mul_add_div (by omega), Nat.div_eq_of_lt (by omega)]

/-- C5: `aggregateFeedback []` is the all-zero aggregate with empty
mappings; for every record list the overall rate is
`round(100·approved/total)` (0 when there are no items), every
per-heuristic row's rate and every template score's rate are the same
rounding of their own tallies, and when every item of at least one
record is approved the overall rate is 100. -/
theorem C5_aggregate_rates :
    (aggregateFeedback [] =
      { totalSessions := 0, totalItems := 0, overallApprovalRate := 0,
        byHeuristic := [], byTemplate := [], projectTypes := [] }) ∧
    (∀ records : List FRecord,
      (aggregateFeedback records).totalItems = countItems records ∧
      (aggregateFeedback records).overallApprovalRate =
        (if 0 < countItems records then jsRound100 (countApproved records) (countItems records)
         else 0)) ∧
    (∀ records : List FRecord, ∀ e ∈ aggregateByHeuristic records,
      e.approvalRate = if 0 < e.total then jsRound100 e.approved e.total else 0) ∧
    (∀ tid : String, ∀ stats : TTally,
      (computeTemplateScore tid stats).approvalRate =
        if 0 < stats.totalItems then jsRound100 stats.approved stats.totalItems else 0) ∧
    (∀ records : List FRecord,
      (∀ r ∈ records, ∀ it ∈ r.items, it.status = "approved") →
      0 < countItems records →
      (aggregateFeedback records).overallApprovalRate = 100) := by
  have totals : ∀ records : List FRecord,
      (aggregateFeedback records).totalItems = countItems records ∧
      (aggregateFeedback records).overallApprovalRate =
        (if 0 < countItems records then jsRound100 (countApproved records) (countItems records)
         else 0) := by
    intro records
    cases records with
    | nil => simp [aggregateFeedback, countItems, countApproved]
    | cons r rest =>
      obtain ⟨h1, h2⟩ := foldl_aggRecordStep_totals (r :: rest) {}
      constructor
      · unfold aggregateFeedback
        rw [if_neg (by simp)]
        dsimp only
        rw [h1]
        simp
      · unfold aggregateFeedback
        rw [if_neg (by simp)]
        dsimp only
        rw [h1, h2]
        simp
  refine ⟨by simp [aggregateFeedback], totals, ?_, ?_, ?_⟩
  · intro records e he
    unfold aggregateByHeuristic at he
    have he' := (List.Perm.mem_iff (List.mergeSort_perm _ _)).mp he
    obtain ⟨p, _, hpe⟩ := List.mem_map.mp he'
    subst hpe
    simp
  · intro tid stats
    simp [computeTemplateScore]
  · intro records hall hpos
    have hca : countApproved records = countItems records := by
      unfold countApproved countItems
      congr 1
      apply List.map_congr_left
      intro r hr
      exact List.countP_eq_length.mpr (fun it hit => by
        simp [hall r hr it hit])
    obtain ⟨h1, h2⟩ := totals records
    rw [h2, if_pos hpos, hca, jsRound100_self _ hpos]

/-- Witness for C5: one all-approved record gives rate 100. -/
theorem C5_aggregate_rates_witness :
    (aggregateFeedback [⟨none, none, [{ status := "approved" }]⟩]).overallApprovalRate = 100 :=
  C5_aggregate_rates.2.2.2.2 [⟨none, none, [{ status := "approved" }]⟩]
    (by decide) (by decide)

/-! ## Claim C8: scalar quote stripping -/

/-- C8 counterexample: on `"abc'` (mismatched quote kinds) the source
strips both quotes, while the claim's matching-pair rule strips none. -/
theorem C8_parseScalar_counterexample :
    parseScalar ('"' :: "abc'".data) ≠ parseScalarPair ('"' :: "abc'".data) ∧
    parseScalar ('"' :: "abc'".data) = .str "abc".data ∧
    parseScalarPair ('"' :: "abc'".data) = .str ('"' :: "abc'".data) := by
  refine ⟨by decide, by decide, by decide⟩

theorem stripTail_eq (s1 : Str) :
    (match s1.getLast? with
      | some c => if isQuoteChar c then s1.dropLast else s1
      | none => s1) =
    (if isQuoteChar (s1.getLastD 'x') then s1.dropLast else s1) := by
  cases hr : s1.getLast? with
  | none =>
    have h0 : s1 = [] := by
      cases s1 with
      | nil => rfl
      | cons a as => simp [List.getLast?_eq_none_iff] at hr
    subst h0
    rfl
  | some c2 =>
    have hD : s1.getLastD 'x' = c2 := by
      rw [List.getLastD_eq_getLast?, hr]
      rfl
    rw [hD]

theorem stripQuotesJs_eq_stripAmended (s : Str) : stripQuotesJs s = stripAmended s := by
  cases s with
  | nil => rfl
  | cons c r =>
    by_cases h : isQuoteChar c = true
    · have l1 : stripQuotesJs (c :: r) =
          (match r.getLast? with
            | some c2 => if isQuoteChar c2 then r.dropLast else r
            | none => r) := by
        simp only [stripQuotesJs, h, ite_true]
      have l2 : stripAmended (c :: r) =
          (if isQuoteChar (r.getLastD 'x') then r.dropLast else r) := by
        simp only [stripAmended, List.headD, h, ite_true, List.drop_one, List.tail_cons]
      rw [l1, l2, stripTail_eq r]
    · have l1 : stripQuotesJs (c :: r) =
          (match (c :: r).getLast? with
            | some c2 => if isQuoteChar c2 then (c :: r).dropLast else (c :: r)
            | none => (c :: r)) := by
        simp only [stripQuotesJs, h, ite_false, Bool.false_eq_true]
      have l2 : stripAmended (c :: r) =
          (if isQuoteChar ((c :: r).getLastD 'x') then (c :: r).dropLast else (c :: r)) := by
        simp only [stripAmended, List.headD, h, ite_false, Bool.false_eq_true]
      rw [l1, l2, stripTail_eq (c :: r)]

/-- C8 as amended: `parseScalar` strips at most one leading and at most
one trailing quote character, each independently of the other (they need
not match in kind nor both be present), then interprets an all-digit
remainder as an integer and anything else as a string. -/
theorem C8_parseScalar_amended (v : Str) : parseScalar v = parseScalarAmended v := by
  unfold parseScalar parseScalarAmended
  rw [stripQuotesJs_eq_stripAmended]

/-! ## Claim C9: index parsing preserves order and does not deduplicate -/

theorem tableStep_true {α : Type} (header : Str) (mk : Str → Str → Str → Str → α)
    (acc : List α) (l : Str) :
    tableStep header mk (acc, true) l =
      (acc ++ ((rowCells? header l).map (fun c => mk c.1 c.2.1 c.2.2.1 c.2.2.2)).toList,
        true) := by
  unfold tableStep rowCells?
  by_cases hp : startsW "|".data (trimL l) = true
  · simp only [hp, Bool.not_true, ite_false, Bool.false_eq_true]
    cases hc : cellsOf (trimL l) with
    | nil => simp
    | cons c0 cs0 =>
      cases cs0 with
      | nil => simp
      | cons c1 cs1 =>
        cases cs1 with
        | nil => simp
        | cons c2 cs2 =>
          cases cs2 with
          | nil => simp
          | cons c3 cs3 =>
            by_cases h1 : toLowerL c0 = header
            · simp [h1]
            · by_cases h2 : startsW "-".data c0 = true
              · simp [h1, h2]
              · simp [h1, h2]
  · simp only [hp, Bool.not_false, ite_true]
    simp [hp]

theorem tableFold_true {α : Type} (header : Str) (mk : Str → Str → Str → Str → α) :
    ∀ (lines : List Str) (acc : List α),
      lines.foldl (tableStep header mk) (acc, true) =
        (acc ++ lines.filterMap
          (fun l => (rowCells? header l).map (fun c => mk c.1 c.2.1 c.2.2.1 c.2.2.2)), true) := by
  intro lines
  induction lines with
  | nil => intro acc; simp
  | cons l rest ih =>
    intro acc
    rw [List.foldl_cons, tableStep_true, List.filterMap_cons]
    cases hx : (rowCells? header l).map (fun c => mk c.1 c.2.1 c.2.2.1 c.2.2.2) with
    | none => simpa using ih acc
    | some b =>
      rw [Option.toList_some, ih (acc ++ [b])]
      simp

theorem tableStep_header {α : Type} (header : Str) (mk : Str → Str → Str → Str → α)
    (acc : List α) (b : Bool) (l : Str) (h : isHeaderRow header l = true) :
    tableStep header mk (acc, b) l = (acc, true) := by
  unfold isHeaderRow at h
  rw [Bool.and_eq_true] at h
  obtain ⟨hp, hc⟩ := h
  unfold tableStep
  simp only [hp, Bool.not_true, ite_false, Bool.false_eq_true]
  cases hcl : cellsOf (trimL l) with
  | nil => rw [hcl] at hc; simp at hc
  | cons c0 cs0 =>
    cases cs0 with
    | nil => rw [hcl] at hc; simp at hc
    | cons c1 cs1 =>
      cases cs1 with
      | nil => rw [hcl] at hc; simp at hc
      | cons c2 cs2 =>
        cases cs2 with
        | nil => rw [hcl] at hc; simp at hc
        | cons c3 cs3 =>
          rw [hcl] at hc
          simp only [beq_iff_eq] at hc
          simp [hc]

theorem tableStep_false {α : Type} (header : Str) (mk : Str → Str → Str → Str → α)
    (acc : List α) (l : Str) (h : isHeaderRow header l = false) :
    tableStep header mk (acc, false) l = (acc, false) := by
  unfold isHeaderRow at h
  unfold tableStep
  by_cases hp : startsW "|".data (trimL l) = true
  · simp only [hp, Bool.true_and] at h
    simp only [hp, Bool.not_true, ite_false, Bool.false_eq_true]
    cases hcl : cellsOf (trimL l) with
    | nil => simp
    | cons c0 cs0 =>
      cases cs0 with
      | nil => simp
      | cons c1 cs1 =>
        cases cs1 with
        | nil => simp
        | cons c2 cs2 =>
          cases cs2 with
          | nil => simp
          | cons c3 cs3 =>
            rw [hcl] at h
            simp only [beq_eq_false_iff_ne, ne_eq] at h
            simp [h]
  · simp [hp]

theorem tableFold_false {α : Type} (header : Str) (mk : Str → Str → Str → Str → α) :
    ∀ (lines : List Str) (acc : List α),
      lines.foldl (tableStep header mk) (acc, false) =
        (match findIdxL (isHeaderRow header) lines with
         | none => (acc, false)
         | some i =>
           (acc ++ (lines.drop (i + 1)).filterMap
             (fun l => (rowCells? header l).map (fun c => mk c.1 c.2.1 c.2.2.1 c.2.2.2)),
            true)) := by
  intro lines
  induction lines with
  | nil => intro acc; simp [findIdxL]
  | cons l rest ih =>
    intro acc
    rw [List.foldl_cons]
    show _ = (match (if isHeaderRow header l then some 0 else (findIdxL (isHeaderRow header) rest).map (· + 1)) with
      | none => (acc, false)
      | some i =>
        (acc ++ ((l :: rest).drop (i + 1)).filterMap
          (fun l => (rowCells? header l).map (fun c => mk c.1 c.2.1 c.2.2.1 c.2.2.2)), true))
    by_cases h : isHeaderRow header l = true
    · rw [tableStep_header header mk acc false l h, tableFold_true, if_pos h]
      simp
    · rw [tableStep_false header mk acc l (by simp [h]), ih acc]
      have h' : isHeaderRow header l = false := by simp [h]
      rw [if_neg h]
      cases hf : findIdxL (isHeaderRow header) rest with
      | none => rfl
      | some i => simp [List.drop_succ_cons]

/-- C9 as amended: `parseIndex` returns exactly the data rows strictly
after the first header row, in table order, performing no deduplication
by id. -/
theorem C9_parseIndex_amended (content : Str) :
    parseIndex content = indexEntriesSpec content := by
  unfold parseIndex indexEntriesSpec tableRowsSpec
  rw [tableFold_false]
  cases hf : findIdxL (isHeaderRow "id".data) (splitLines content) with
  | none => rfl
  | some i => simp

/-- C9 counterexample: an index whose table repeats the id `a` in two
data rows yields two entries with the same id, so the result is not
deduplicated by id. -/
theorem C9_parseIndex_counterexample :
    (parseIndex ("| ID | Name | Description | File |\n|---|---|---|---|\n| a | n1 | d1 | f1 |\n| a | n2 | d2 | f2 |".data)).map
        (fun e => e.id) = ["a".data, "a".data] ∧
    ¬ ((parseIndex ("| ID | Name | Description | File |\n|---|---|---|---|\n| a | n1 | d1 | f1 |\n| a | n2 | d2 | f2 |".data)).map
        (fun e => e.id)).Nodup := by
  refine ⟨by decide, by decide⟩

/-! ## Claim C2: the parser never throws -/

theorem fmStepTail_some (st : FmState) (pk : Str) (indent : Int) (t : Str)
    (hpk : st.parentKey = some pk) (hInv : FmInv st)
    (hns : st.childKey.isSome = true → startsW "- ".data t = false) :
    ∃ st', fmStep.fmStepTail st pk indent t = some st' ∧ FmInv st' := by
  unfold fmStep.fmStepTail
  by_cases hd : startsW "- ".data t = true
  · have hck : st.childKey = none := by
      cases hck : st.childKey with
      | none => rfl
      | some ck =>
        have := hns (by rw [hck]; rfl)
        rw [this] at hd
        cases hd
    rw [if_pos hd]
    refine ⟨_, rfl, ?_⟩
    intro ck hcontra
    dsimp only at hcontra
    rw [hck] at hcontra
    cases hcontra
  · rw [if_neg hd]
    by_cases hc : t.contains ':' = true
    · rw [if_pos hc]
      dsimp only
      cases hci : idxOfChar ':' t with
      | none => exact ⟨st, rfl, hInv⟩
      | some ci =>
        dsimp only
        by_cases hv : trimL (t.drop (ci + 1)) ≠ [] ∧ trimL (t.drop (ci + 1)) ≠ "[]".data
        · rw [if_pos hv]
          refine ⟨_, rfl, ?_⟩
          intro ck hcontra
          dsimp only at hcontra
          cases hcontra
        · rw [if_neg hv]
          refine ⟨_, rfl, ?_⟩
          intro ck hcontra
          dsimp only at hcontra
          injection hcontra with hceq
          subst hceq
          refine ⟨pk, by dsimp only; exact hpk, ?_⟩
          refine ⟨_, by dsimp only; exact alGet_alSet_same _ _ _, ?_⟩
          exact ⟨[], alGet_alSet_same _ _ _⟩
    · rw [if_neg hc]
      exact ⟨st, rfl, hInv⟩

theorem fmStep_some (st : FmState) (line : Str) (hInv : FmInv st) :
    ∃ st', fmStep st line = some st' ∧ FmInv st' := by
  unfold fmStep
  by_cases h0 : (trimL line = [] ∨ startsW "#".data (trimL line) = true)
  · rw [if_pos h0]; exact ⟨st, rfl, hInv⟩
  · rw [if_neg h0]
    dsimp only
    by_cases h1 : ((line.length : Int) - (trimStartL line).length = 0 ∧
        (trimL line).contains ':' = true)
    · rw [if_pos h1]
      cases hci : idxOfChar ':' (trimL line) with
      | none => exact ⟨st, rfl, hInv⟩
      | some ci =>
        dsimp only
        by_cases hv : trimL ((trimL line).drop (ci + 1)) ≠ [] ∧
            trimL ((trimL line).drop (ci + 1)) ≠ "[]".data
        · rw [if_pos hv]
          exact ⟨_, rfl, fun ck hcontra => by dsimp only at hcontra; cases hcontra⟩
        · rw [if_neg hv]
          by_cases hv2 : trimL ((trimL line).drop (ci + 1)) = "[]".data
          · rw [if_pos hv2]
            exact ⟨_, rfl, fun ck hcontra => by dsimp only at hcontra; cases hcontra⟩
          · rw [if_neg hv2]
            exact ⟨_, rfl, fun ck hcontra => by dsimp only at hcontra; cases hcontra⟩
    · rw [if_neg h1]
      cases hpk : st.parentKey with
      | none => exact ⟨st, rfl, hInv⟩
      | some pk =>
        dsimp only
        by_cases h2 : ((line.length : Int) - (trimStartL line).length > st.parentIndent)
        · rw [if_pos h2]
          cases hck : st.childKey with
          | some ck =>
            dsimp only
            by_cases h3 : ((line.length : Int) - (trimStartL line).length > st.childIndent ∧
                startsW (['-', ' '] : Str) (trimL line) = true)
            · rw [if_pos h3]
              obtain ⟨pk', hpk', m, hm, xs, hxs⟩ := hInv ck hck
              rw [hpk'] at hpk
              injection hpk with hpkeq
              subst hpkeq
              rw [hm]
              dsimp only
              rw [hxs]
              refine ⟨_, rfl, ?_⟩
              intro ck2 hck2
              dsimp only at hck2
              injection hck2 with hceq
              subst hceq
              exact ⟨pk', rfl, _, alGet_alSet_same _ _ _, _, alGet_alSet_same _ _ _⟩
            · rw [if_neg h3]
              apply fmStepTail_some _ pk _ _ (by rfl)
              · intro ck2 hck2
                dsimp only at hck2
                have hck2' : ck2 = ck := by
                  by_cases h4 : ((line.length : Int) - (trimStartL line).length ≤ st.childIndent)
                  · rw [if_pos h4] at hck2; cases hck2
                  · rw [if_neg h4] at hck2
                    injection hck2 with h
                    exact h.symm
                subst hck2'
                obtain ⟨pk', hpk', m, hm, xs, hxs⟩ := hInv ck2 hck
                rw [hpk] at hpk'
                injection hpk' with he
                subst he
                exact ⟨pk, rfl, m, hm, xs, hxs⟩
              · intro hsome
                dsimp only at hsome
                by_cases h4 : ((line.length : Int) - (trimStartL line).length ≤ st.childIndent)
                · rw [if_pos h4] at hsome
                  cases hsome
                · rw [if_neg h4] at hsome
                  by_cases h5 : startsW "- ".data (trimL line) = true
                  · exact absurd ⟨by omega, h5⟩ h3
                  · simpa using h5
          | none =>
            apply fmStepTail_some _ pk _ _ hpk hInv
            intro hsome
            rw [hck] at hsome
            cases hsome
        · rw [if_neg h2]
          exact ⟨st, rfl, hInv⟩

theorem foldlM_fmStep_some :
    ∀ (lines : List Str) (st : FmState), FmInv st →
      ∃ st', lines.foldlM fmStep st = some st' := by
  intro lines
  induction lines with
  | nil => intro st _; exact ⟨st, rfl⟩
  | cons l rest ih =>
    intro st hInv
    obtain ⟨st1, hst1, hInv1⟩ := fmStep_some st l hInv
    obtain ⟨st2, hst2⟩ := ih st1 hInv1
    refine ⟨st2, ?_⟩
    rw [List.foldlM_cons, hst1]
    exact hst2

/-- C2: parsing is total — `parseTemplateContent` succeeds on every
input (the one unguarded state access of the frontmatter parser is
provably unreachable), `parseFrontmatter` never raises on any fragment,
and the empty input yields the document with empty metadata and empty
collections. -/
theorem C2_parse_never_throws :
    (∀ content : Str, (parseTemplateContentE content).isSome = true) ∧
    (∀ yaml : Str, (parseFrontmatterE yaml).isSome = true) ∧
    parseTemplateContent [] =
      { meta := [], claude_md := [], hooks := .obj [], skills := [], agents := [],
        mcp_servers := .obj [], external_skills := [] } := by
  have hfm : ∀ yaml : Str, (parseFrontmatterE yaml).isSome = true := by
    intro yaml
    unfold parseFrontmatterE
    by_cases h : trimL yaml = []
    · rw [if_pos h]; rfl
    · rw [if_neg h]
      obtain ⟨st', hst'⟩ := foldlM_fmStep_some (splitLines yaml) fmInit
        (fun ck hck => by cases hck)
      rw [hst']
      rfl
  refine ⟨?_, hfm, by rfl⟩
  intro content
  unfold parseTemplateContentE
  dsimp only
  have := hfm (extractFrontmatter content).1
  cases hp : parseFrontmatterE (extractFrontmatter content).1 with
  | none => rw [hp] at this; cases this
  | some m => rfl

/-! ## Claims C3 and C10: fence tracking in the heading scan -/

theorem fenceTgl_cons (l : Str) (A : List Str) (f : Bool) :
    fenceTgl (l :: A) f = fenceTgl A (if isFenceLine l then !f else f) := rfl

theorem fenceTgl_append (A B : List Str) (f : Bool) :
    fenceTgl (A ++ B) f = fenceTgl B (fenceTgl A f) := by
  unfold fenceTgl
  exact List.foldl_append _ _ _ _

theorem fenceTgl_of_no_fences (A : List Str) (f : Bool)
    (h : ∀ l ∈ A, isFenceLine l = false) : fenceTgl A f = f := by
  induction A generalizing f with
  | nil => rfl
  | cons l rest ih =>
    rw [fenceTgl_cons, h l (by simp)]
    simp only [Bool.false_eq_true, ite_false]
    exact ih f (fun l' hl' => h l' (List.mem_cons_of_mem _ hl'))

theorem startsW_marker_not_fence (markerSp t : Str) (hmark : markerSp.headD 'x' = '#')
    (h : startsW markerSp t = true) : startsW "```".data t = false := by
  cases markerSp with
  | nil => simp at hmark
  | cons c ps =>
    simp only [List.headD] at hmark
    subst hmark
    cases t with
    | nil => simp [startsW] at h
    | cons c2 ts =>
      simp only [startsW, Bool.and_eq_true, beq_iff_eq] at h
      obtain ⟨rfl, _⟩ := h
      rfl

theorem lineOffset_cons_succ (l : Str) (L : List Str) (j : Nat) :
    lineOffset (l :: L) (j + 1) = (l.length + 1) + lineOffset L j := by
  simp [lineOffset, sizeLinesL, List.take_succ_cons]

theorem findHeadingsGo_sound (markerSp : Str) (lower : Bool)
    (hmark : markerSp.headD 'x' = '#') :
    ∀ (L : List Str) (f : Bool) (p : Nat) (s : Sec),
      s ∈ findHeadingsGo markerSp lower L f p →
      ∃ j line, L.get? j = some line ∧
        s.index = p + lineOffset L j ∧
        s.fullMatch = line ∧
        isHeadingLine markerSp line = true ∧
        isFenceLine line = false ∧
        fenceTgl (L.take j) f = false := by
  intro L
  induction L with
  | nil => intro f p s hs; simp [findHeadingsGo] at hs
  | cons line rest ih =>
    intro f p s hs
    unfold findHeadingsGo at hs
    rw [List.mem_append] at hs
    rcases hs with hs | hs
    · by_cases hb : ((!(if startsW "```".data (trimL line) then !f else f)) &&
          startsW markerSp (trimL line) && decide (markerSp.length < (trimL line).length)) = true
      · rw [if_pos hb] at hs
        simp only [List.mem_singleton] at hs
        subst hs
        have hb1 := hb
        simp only [Bool.and_eq_true, Bool.not_eq_true', decide_eq_true_eq] at hb1
        obtain ⟨⟨hfence, hstart⟩, hlen⟩ := hb1
        have hnf : isFenceLine line = false :=
          startsW_marker_not_fence markerSp (trimL line) hmark hstart
        have hfeq : f = false := by
          unfold isFenceLine at hnf
          rw [hnf] at hfence
          simpa using hfence
        refine ⟨0, line, rfl, ?_, rfl, ?_, hnf, ?_⟩
        · simp [lineOffset, sizeLinesL]
        · unfold isHeadingLine
          simp [hstart, hlen]
        · simpa [fenceTgl] using hfeq
      · rw [if_neg hb] at hs
        simp at hs
    · obtain ⟨j, line', hget, hidx, hfull, hhead, hfence, htgl⟩ := ih _ _ _ hs
      refine ⟨j + 1, line', by simpa using hget, ?_, hfull, hhead, hfence, ?_⟩
      · rw [lineOffset_cons_succ, hidx]
        omega
      · rw [List.take_succ_cons, fenceTgl_cons]
        exact htgl

theorem lineOffset_lt_of_lt (L : List Str) :
    ∀ j k, j < k → k ≤ L.length → lineOffset L j < lineOffset L k := by
  induction L with
  | nil => intro j k hjk hk; simp at hk; omega
  | cons l rest ih =>
    intro j k hjk hk
    cases k with
    | zero => omega
    | succ k' =>
      cases j with
      | zero =>
        rw [lineOffset_cons_succ]
        have : lineOffset (l :: rest) 0 = 0 := by simp [lineOffset, sizeLinesL]
        rw [this]
        omega
      | succ j' =>
        rw [lineOffset_cons_succ, lineOffset_cons_succ]
        have := ih j' k' (by omega) (by simpa using hk)
        omega

/-- C3: a `##` heading line lying inside a fenced code region (odd
fence-toggle parity of the lines before it) is never reported by
`findTopLevelSections`, and on the body
`"## hooks\n```\n## fake\n```\n"` exactly one section named `hooks` is
detected. -/
theorem C3_fenced_headings_not_sections :
    (∀ (body : Str) (j : Nat) (line : Str),
      (splitLines body).get? j = some line →
      isHeadingLine "## ".data line = true →
      fenceTgl ((splitLines body).take j) false = true →
      ∀ s ∈ findTopLevelSections body, s.index ≠ lineOffset (splitLines body) j) ∧
    findTopLevelSections ("## hooks\n```\n## fake\n```\n".data) =
      [⟨"hooks".data, 0, "## hooks".data⟩] := by
  constructor
  · intro body j line hget hhead htgl s hs hidx
    obtain ⟨j', line', hget', hidx', _, _, _, htgl'⟩ :=
      findHeadingsGo_sound "## ".data true (by rfl) (splitLines body) false 0 s hs
    rw [Nat.zero_add] at hidx'
    have hj : j' = j := by
      by_contra hne
      have hjlen : j < (splitLines body).length := List.get?_eq_some.mp hget |>.1
      have hj'len : j' < (splitLines body).length := List.get?_eq_some.mp hget' |>.1
      rcases Nat.lt_or_ge j' j with hlt | hge
      · have := lineOffset_lt_of_lt (splitLines body) j' j hlt (by omega)
        omega
      · have hlt : j < j' := by omega
        have := lineOffset_lt_of_lt (splitLines body) j j' hlt (by omega)
        omega
    subst hj
    rw [htgl'] at htgl
    cases htgl
  · decide

/-- Witness for C3: on `"## real\n```\n## fake\n```"` the in-fence
heading at line 2 is not reported (its offset differs from the one
detected section's index). -/
theorem C3_fenced_headings_not_sections_witness :
    (Sec.mk "real".data 0 "## real".data).index ≠
      lineOffset (splitLines ("## real\n```\n## fake\n```".data)) 2 :=
  C3_fenced_headings_not_sections.1 ("## real\n```\n## fake\n```".data) 2 "## fake".data
    (by decide) (by decide) (by decide) _ (by decide)

/-- C10: if line `i` opens a fence (even parity before it) and no later
line toggles the fence again, then no section and no subsection is
detected at or after that line — every reported heading lies strictly
before the unclosed fence. -/
theorem C10_unclosed_fence_suppresses :
    ∀ (body : Str) (i : Nat) (li : Str),
      (splitLines body).get? i = some li →
      isFenceLine li = true →
      fenceTgl ((splitLines body).take i) false = false →
      (∀ lj ∈ (splitLines body).drop (i + 1), isFenceLine lj = false) →
      (∀ s ∈ findTopLevelSections body, s.index < lineOffset (splitLines body) i) ∧
      (∀ s ∈ findTopLevelSubsections body, s.index < lineOffset (splitLines body) i) := by
  intro body i li hget hfence htgl hafter
  have key : ∀ (markerSp : Str) (lower : Bool), markerSp.headD 'x' = '#' →
      ∀ s ∈ findHeadingsGo markerSp lower (splitLines body) false 0,
        s.index < lineOffset (splitLines body) i := by
    intro markerSp lower hmark s hs
    obtain ⟨j, line', hget', hidx', _, _, hnf', htgl'⟩ :=
      findHeadingsGo_sound markerSp lower hmark (splitLines body) false 0 s hs
    rw [Nat.zero_add] at hidx'
    have hjlen : j < (splitLines body).length := (List.get?_eq_some.mp hget').1
    have hilen : i < (splitLines body).length := (List.get?_eq_some.mp hget).1
    have hji : j < i := by
      by_contra hge
      push_neg at hge
      rcases Nat.eq_or_lt_of_le hge with heq | hlt
      · subst heq
        rw [hget] at hget'
        injection hget' with he
        subst he
        rw [hfence] at hnf'
        cases hnf'
      · -- j > i: parity at j would be true
        have hsplit : (splitLines body).take j =
            (splitLines body).take (i + 1) ++
              ((splitLines body).drop (i + 1)).take (j - (i + 1)) := by
          rw [← List.take_add]
          congr 1
          omega
        have hget2 : (splitLines body)[i]? = some li := by
          rw [← List.get?_eq_getElem?]
          exact hget
        have htake : (splitLines body).take (i + 1) = (splitLines body).take i ++ [li] := by
          rw [List.take_succ, hget2]
          rfl
        have hmidfree : ∀ l ∈ ((splitLines body).drop (i + 1)).take (j - (i + 1)),
            isFenceLine l = false := fun l hl => hafter l (List.mem_of_mem_take hl)
        rw [hsplit, fenceTgl_append, htake, fenceTgl_append, htgl] at htgl'
        rw [fenceTgl_of_no_fences _ _ hmidfree,
          show fenceTgl [li] false = true by simp [fenceTgl, hfence]] at htgl'
        cases htgl'
    rw [hidx']
    exact lineOffset_lt_of_lt (splitLines body) j i hji (by omega)
  exact ⟨key "## ".data true (by rfl), key "### ".data false (by rfl)⟩

/-- Witness for C10 on `"## a\n```\n## b"`: the unclosed fence at line 1
suppresses the later heading; the one detected section starts before
offset 5. -/
theorem C10_unclosed_fence_suppresses_witness :
    (Sec.mk "a".data 0 "## a".data).index <
      lineOffset (splitLines ("## a\n```\n## b".data)) 1 :=
  (C10_unclosed_fence_suppresses ("## a\n```\n## b".data) 1 "```".data
    (by decide) (by decide) (by decide) (by decide)).1 _ (by decide)

/-! ## Claim C6: input without a leading frontmatter delimiter -/

/-- C6 counterexample: for the input `hello` (whose first line is not
`---`) the parsed guidance is empty, not the entire input, because no
`## claude_md` section exists. -/
theorem C6_no_delimiter_counterexample :
    (parseTemplateContent "hello".data).meta = [] ∧
    (parseTemplateContent "hello".data).claude_md = [] ∧
    "hello".data ≠ ([] : Str) := by
  refine ⟨by rfl, by rfl, by decide⟩

/-- C6 as amended: when the first line is not the `---` delimiter, the
document has empty metadata and its sections are extracted from the
entire input as body; the input text itself is carried into `claude_md`
only via a `## claude_md` section (so in particular it is empty when
the input has no such section). -/
theorem C6_no_delimiter_amended (content l0 : Str) (rest : List Str)
    (hsplit : splitLines content = l0 :: rest)
    (hne : trimL l0 ≠ "---".data) :
    parseTemplateContentE content = some
      { meta := []
        claude_md := (extractSections content).claude_md
        hooks := (extractSections content).hooks
        skills := (extractSections content).skills
        agents := (extractSections content).agents
        mcp_servers := (extractSections content).mcp_servers
        external_skills := (extractSections content).external_skills } := by
  have hfm : extractFrontmatter content = ([], content) := by
    unfold extractFrontmatter
    rw [hsplit]
    dsimp only
    rw [if_pos hne]
  unfold parseTemplateContentE
  rw [hfm]
  rfl

/-- Witness for C6 at the input `hello`. -/
theorem C6_no_delimiter_amended_witness :
    parseTemplateContentE "hello".data = some
      { meta := []
        claude_md := (extractSections "hello".data).claude_md
        hooks := (extractSections "hello".data).hooks
        skills := (extractSections "hello".data).skills
        agents := (extractSections "hello".data).agents
        mcp_servers := (extractSections "hello".data).mcp_servers
        external_skills := (extractSections "hello".data).external_skills } :=
  C6_no_delimiter_amended "hello".data "hello".data [] (by decide) (by decide)

/-! ## Claim C7: malformed JSON block is local to its section -/

theorem applySection_hooks_of_name (acc : Sections) (p : Str × Str)
    (hp : p.1 = "hooks".data) : (applySection acc p).hooks = jsonOrEmpty p.2 := by
  unfold applySection
  rw [if_neg (by rw [hp]; decide), if_pos hp]

theorem applySection_hooks_of_ne (acc : Sections) (p : Str × Str)
    (hp : p.1 ≠ "hooks".data) : (applySection acc p).hooks = acc.hooks := by
  unfold applySection
  split_ifs <;> first | rfl | exact absurd ‹_› hp

theorem applySection_skills_of_name (acc : Sections) (p : Str × Str)
    (hp : p.1 = "skills".data) :
    (applySection acc p).skills = extractNamedSubsections p.2 := by
  unfold applySection
  rw [if_neg (by rw [hp]; decide), if_neg (by rw [hp]; decide), if_pos hp]

theorem applySection_skills_of_ne (acc : Sections) (p : Str × Str)
    (hp : p.1 ≠ "skills".data) : (applySection acc p).skills = acc.skills := by
  unfold applySection
  split_ifs <;> first | rfl | exact absurd ‹_› hp

theorem foldl_applySection_hooks :
    ∀ (spans : List (Str × Str)) (acc : Sections),
      (spans.foldl applySection acc).hooks =
        ((spans.filter (fun p => p.1 == "hooks".data)).getLast?).elim acc.hooks
          (fun p => jsonOrEmpty p.2) := by
  intro spans
  induction spans with
  | nil => intro acc; rfl
  | cons p rest ih =>
    intro acc
    rw [List.foldl_cons, List.filter_cons]
    by_cases hp : p.1 = "hooks".data
    · rw [if_pos (by simp [hp]), ih (applySection acc p),
        applySection_hooks_of_name acc p hp]
      cases hl : (rest.filter (fun q => q.1 == "hooks".data)).getLast? with
      | none =>
        have hnil : rest.filter (fun q => q.1 == "hooks".data) = [] :=
          List.getLast?_eq_none_iff.mp hl
        rw [hnil]
        rfl
      | some q =>
        have : (p :: rest.filter (fun q => q.1 == "hooks".data)).getLast? = some q := by
          cases hfr : rest.filter (fun q => q.1 == "hooks".data) with
          | nil => rw [hfr] at hl; cases hl
          | cons a as =>
            rw [List.getLast?_cons_cons, ← hfr, hl]
        rw [this]
        rfl
    · rw [if_neg (by simp [hp]), ih (applySection acc p),
        applySection_hooks_of_ne acc p hp]

theorem foldl_applySection_skills :
    ∀ (spans : List (Str × Str)) (acc : Sections),
      (spans.foldl applySection acc).skills =
        ((spans.filter (fun p => p.1 == "skills".data)).getLast?).elim acc.skills
          (fun p => extractNamedSubsections p.2) := by
  intro spans
  induction spans with
  | nil => intro acc; rfl
  | cons p rest ih =>
    intro acc
    rw [List.foldl_cons, List.filter_cons]
    by_cases hp : p.1 = "skills".data
    · rw [if_pos (by simp [hp]), ih (applySection acc p),
        applySection_skills_of_name acc p hp]
      cases hl : (rest.filter (fun q => q.1 == "skills".data)).getLast? with
      | none =>
        have hnil : rest.filter (fun q => q.1 == "skills".data) = [] :=
          List.getLast?_eq_none_iff.mp hl
        rw [hnil]
        rfl
      | some q =>
        have : (p :: rest.filter (fun q => q.1 == "skills".data)).getLast? = some q := by
          cases hfr : rest.filter (fun q => q.1 == "skills".data) with
          | nil => rw [hfr] at hl; cases hl
          | cons a as =>
            rw [List.getLast?_cons_cons, ← hfr, hl]
        rw [this]
        rfl
    · rw [if_neg (by simp [hp]), ih (applySection acc p),
        applySection_skills_of_ne acc p hp]

theorem C1_roundtrip_counterexample :
    (BDoc.mk (BMeta.mk "t".data "T".data "d".data 2 none) [] [] [] [] [] []).meta.version = 2 ∧
    alGet (parseTemplateContent (buildTemplateContent
      (BDoc.mk (BMeta.mk "t".data "T".data "d".data 2 none) [] [] [] [] [] []))).meta
        "version".data = some (.scalar (.num 1)) ∧
    some (YVal.scalar (.num 1)) ≠ some (YVal.scalar (.num 2)) := by
  refine ⟨rfl, by decide, by decide⟩

theorem splitLines_single (s : Str) (h : s.contains '\n' = false) : splitLines s = [s] := by
  induction s with
  | nil => rfl
  | cons c r ih =>
    simp only [List.contains_cons, Bool.or_eq_false_iff] at h
    have hc : ¬ c = '\n' := by
      intro hc
      subst hc
      simp at h
    show splitOnCharL '\n' (c :: r) = [c :: r]
    unfold splitOnCharL
    rw [if_neg hc]
    have := ih h.2
    unfold splitLines at this
    rw [this]

theorem mem_splitOnCharL_not_contains (sep : Char) (s : Str) :
    ∀ l ∈ splitOnCharL sep s, l.contains sep = false := by
  induction s with
  | nil =>
    intro l hl
    simp only [splitOnCharL, List.mem_singleton] at hl
    subst hl
    rfl
  | cons c r ih =>
    intro l hl
    by_cases hc : c = sep
    · have heq : splitOnCharL sep (c :: r) = [] :: splitOnCharL sep r := by
        show (if c = sep then [] :: splitOnCharL sep r
          else match splitOnCharL sep r with
            | [] => [[c]]
            | l :: ls => (c :: l) :: ls) = [] :: splitOnCharL sep r
        rw [if_pos hc]
      rw [heq] at hl
      rcases List.mem_cons.mp hl with rfl | hl
      · rfl
      · exact ih l hl
    · have h2 : ∃ l0 ls, splitOnCharL sep r = l0 :: ls ∧
          splitOnCharL sep (c :: r) = (c :: l0) :: ls := by
        cases hs : splitOnCharL sep r with
        | nil => exact absurd hs (splitOnCharL_ne_nil sep r)
        | cons l0 ls =>
          refine ⟨l0, ls, rfl, ?_⟩
          show (if c = sep then [] :: splitOnCharL sep r
            else match splitOnCharL sep r with
              | [] => [[c]]
              | l :: ls => (c :: l) :: ls) = (c :: l0) :: ls
          rw [if_neg hc, hs]
      obtain ⟨l0, ls, hs, heq⟩ := h2
      rw [heq] at hl
      rcases List.mem_cons.mp hl with rfl | hl
      · have h0 : l0.contains sep = false := ih l0 (by rw [hs]; simp)
        simp only [List.contains_cons, h0, Bool.or_false, beq_eq_false_iff_ne, ne_eq]
        exact fun h => hc h.symm
      · exact ih l (by rw [hs]; simp [hl])

theorem noNl_mem_splitLines (s : Str) : ∀ l ∈ splitLines s, l.contains '\n' = false :=
  mem_splitOnCharL_not_contains '\n' s

theorem joinLines_cons (l : Str) (ls : List Str) (h : ls ≠ []) :
    joinLines (l :: ls) = l ++ '\n' :: joinLines ls := by
  cases ls with
  | nil => exact absurd rfl h
  | cons a as => rfl

theorem joinLines_append (A B : List Str) (hA : A ≠ []) (hB : B ≠ []) :
    joinLines (A ++ B) = joinLines A ++ '\n' :: joinLines B := by
  induction A with
  | nil => exact absurd rfl hA
  | cons a as ih =>
    cases as with
    | nil =>
      rw [List.singleton_append, joinLines_cons a B hB]
      rfl
    | cons a2 as2 =>
      rw [List.cons_append, joinLines_cons a ((a2 :: as2) ++ B) (by simp),
        joinLines_cons a (a2 :: as2) (by simp), ih (by simp)]
      simp

theorem splitLines_joinLines (L : List Str) (hne : L ≠ [])
    (h : ∀ l ∈ L, l.contains '\n' = false) : splitLines (joinLines L) = L := by
  induction L with
  | nil => exact absurd rfl hne
  | cons l ls ih =>
    cases ls with
    | nil => exact splitLines_single l (h l (by simp))
    | cons a as =>
      rw [joinLines_cons l (a :: as) (by simp), splitLines_append,
        splitLines_single l (h l (by simp)), ih (by simp)
          (fun x hx => h x (by simp [hx]))]
      rfl

theorem joinLines_splitLines (s : Str) : joinLines (splitLines s) = s := by
  induction s with
  | nil => rfl
  | cons c r ih =>
    by_cases hc : c = '\n'
    · subst hc
      show joinLines ([] :: splitLines r) = '\n' :: r
      rw [joinLines_cons [] (splitLines r) (splitOnCharL_ne_nil '\n' r), ih]
      rfl
    · show joinLines (splitOnCharL '\n' (c :: r)) = c :: r
      unfold splitOnCharL
      rw [if_neg hc]
      cases hs : splitOnCharL '\n' r with
      | nil => exact absurd hs (splitOnCharL_ne_nil '\n' r)
      | cons l0 ls =>
        have : joinLines (l0 :: ls) = r := by rw [← hs]; exact ih
        cases ls with
        | nil =>
          simp only [joinLines] at this ⊢
          rw [this]
        | cons l1 ls1 =>
          rw [joinLines_cons (c :: l0) (l1 :: ls1) (by simp)]
          rw [joinLines_cons l0 (l1 :: ls1) (by simp)] at this
          rw [← this]
          simp

theorem sizeLinesL_append (A B : List Str) :
    sizeLinesL (A ++ B) = sizeLinesL A + sizeLinesL B := by
  simp [sizeLinesL]

theorem sizeLinesL_eq_length (A : List Str) (h : A ≠ []) :
    sizeLinesL A = (joinLines A).length + 1 := by
  induction A with
  | nil => exact absurd rfl h
  | cons a as ih =>
    cases as with
    | nil => simp [sizeLinesL, joinLines]
    | cons a2 as2 =>
      rw [joinLines_cons a (a2 :: as2) (by simp)]
      have := ih (by simp)
      simp only [sizeLinesL, List.map_cons, List.sum_cons] at this ⊢
      simp only [List.length_append, List.length_cons]
      omega

theorem drop_append_add {a : Type} (l1 l2 : List a) (n : Nat) :
    (l1 ++ l2).drop (l1.length + n) = l2.drop n := by
  rw [List.drop_append_eq_append_drop, List.drop_of_length_le (by omega)]
  have h : l1.length + n - l1.length = n := by omega
  rw [h]
  simp

theorem take_append_add {a : Type} (l1 l2 : List a) (n : Nat) :
    (l1 ++ l2).take (l1.length + n) = l1 ++ l2.take n := by
  rw [List.take_append_eq_append_take, List.take_of_length_le (by omega)]
  have h : l1.length + n - l1.length = n := by omega
  rw [h]

theorem drop_joinLines_append (A B : List Str) (hB : B ≠ []) :
    (joinLines (A ++ B)).drop (sizeLinesL A) = joinLines B := by
  induction A with
  | nil => simp [sizeLinesL]
  | cons a as ih =>
    have hAB : as ++ B ≠ [] := by
      intro h
      exact hB (List.append_eq_nil.mp h).2
    rw [List.cons_append, joinLines_cons a (as ++ B) hAB]
    have hsz : sizeLinesL (a :: as) = (a.length + 1) + sizeLinesL as := by
      simp [sizeLinesL]
    rw [hsz]
    have hform : a ++ '\n' :: joinLines (as ++ B) =
        (a ++ ['\n']) ++ joinLines (as ++ B) := by simp
    rw [hform, show (a.length + 1) + sizeLinesL as =
      (a ++ ['\n']).length + sizeLinesL as by simp]
    rw [drop_append_add]
    exact ih

theorem take_joinLines_append (A B : List Str) (hA : A ≠ []) (hB : B ≠ []) :
    (joinLines (A ++ B)).take (sizeLinesL A) = joinLines A ++ ['\n'] := by
  rw [joinLines_append A B hA hB, sizeLinesL_eq_length A hA]
  rw [show joinLines A ++ '\n' :: joinLines B = joinLines A ++ ('\n' :: joinLines B) from rfl]
  rw [show (joinLines A).length + 1 = (joinLines A).length + 1 from rfl, take_append_add]
  rfl

theorem dropWhile_append_allWS (a s : Str) (ha : allWS a) :
    (a ++ s).dropWhile jsWhitespace = s.dropWhile jsWhitespace := by
  induction a with
  | nil => rfl
  | cons c r ih =>
    have hc : jsWhitespace c = true := ha c (by simp)
    rw [List.cons_append, List.dropWhile_cons, if_pos hc]
    exact ih (fun x hx => ha x (by simp [hx]))

theorem rdropWhile_append_allWS (s b : Str) (hb : allWS b) :
    (s ++ b).rdropWhile jsWhitespace = s.rdropWhile jsWhitespace := by
  unfold List.rdropWhile
  rw [List.reverse_append]
  rw [dropWhile_append_allWS b.reverse s.reverse
    (fun c hc => hb c (List.mem_reverse.mp hc))]

theorem trim_parts_eq_self (s : Str) (h : trimL s = s) :
    s.dropWhile jsWhitespace = s ∧ s.rdropWhile jsWhitespace = s := by
  have hlen1 : (trimL s).length ≤ (s.dropWhile jsWhitespace).length := by
    show (((s.dropWhile jsWhitespace).reverse.dropWhile jsWhitespace).reverse).length ≤ _
    rw [List.length_reverse]
    calc ((s.dropWhile jsWhitespace).reverse.dropWhile jsWhitespace).length
        ≤ (s.dropWhile jsWhitespace).reverse.length :=
          ((List.dropWhile_suffix jsWhitespace).sublist).length_le
      _ = (s.dropWhile jsWhitespace).length := List.length_reverse _
  have hlen2 : (s.dropWhile jsWhitespace).length ≤ s.length :=
    ((List.dropWhile_suffix jsWhitespace).sublist).length_le
  have hslen : (trimL s).length = s.length := by rw [h]
  have hd : s.dropWhile jsWhitespace = s :=
    (List.dropWhile_suffix jsWhitespace).eq_of_length (by omega)
  refine ⟨hd, ?_⟩
  have h2 : trimL s = s.rdropWhile jsWhitespace := by
    unfold trimL
    rw [hd]
  rw [← h2, h]

theorem trimStable_headD (s : Str) (h : trimL s = s) (hne : s ≠ []) :
    jsWhitespace (s.headD 'x') = false := by
  have hd := (trim_parts_eq_self s h).1
  cases s with
  | nil => exact absurd rfl hne
  | cons c r =>
    rw [List.headD_cons]
    cases hjs : jsWhitespace c with
    | false => rfl
    | true =>
      rw [List.dropWhile_cons, if_pos hjs] at hd
      have hle := ((List.dropWhile_suffix (l := r) jsWhitespace).sublist).length_le
      rw [hd] at hle
      simp at hle

theorem trimStable_getLastD (s : Str) (h : trimL s = s) (hne : s ≠ []) :
    jsWhitespace (s.getLastD 'x') = false := by
  have hr := (trim_parts_eq_self s h).2
  rw [List.rdropWhile_eq_self_iff] at hr
  have hgl : s.getLastD 'x' = s.getLast hne := by
    rw [List.getLastD_eq_getLast?, List.getLast?_eq_getLast s hne]
    rfl
  rw [hgl]
  cases hjs : jsWhitespace (s.getLast hne) with
  | false => rfl
  | true => exact absurd hjs (hr hne)

theorem trimL_eq_self_of_ends (s : Str) (hh : jsWhitespace (s.headD 'x') = false)
    (hl : jsWhitespace (s.getLastD 'x') = false) : trimL s = s := by
  cases s with
  | nil => rfl
  | cons c r =>
    rw [List.headD_cons] at hh
    have hd : (c :: r).dropWhile jsWhitespace = c :: r := by
      rw [List.dropWhile_cons, if_neg (by simp [hh])]
    show ((c :: r).dropWhile jsWhitespace).rdropWhile jsWhitespace = c :: r
    rw [hd, List.rdropWhile_eq_self_iff]
    intro hne
    have hgl : (c :: r).getLastD 'x' = (c :: r).getLast hne := by
      rw [List.getLastD_eq_getLast?, List.getLast?_eq_getLast _ hne]
      rfl
    rw [hgl] at hl
    simp [hl]

theorem trimL_ws_append (a s : Str) (ha : allWS a) : trimL (a ++ s) = trimL s := by
  unfold trimL
  rw [dropWhile_append_allWS a s ha]

theorem trimL_append_ws (s b : Str) (hb : allWS b) : trimL (s ++ b) = trimL s := by
  unfold trimL
  rw [List.dropWhile_append]
  cases hds : (s.dropWhile jsWhitespace).isEmpty with
  | true =>
    have hbnil : b.dropWhile jsWhitespace = [] := by
      rw [List.dropWhile_eq_nil_iff]
      exact fun x hx => hb x hx
    rw [if_pos rfl, hbnil, List.isEmpty_iff.mp hds]
  | false =>
    rw [if_neg (by simp)]
    exact rdropWhile_append_allWS _ b hb

theorem trimL_wrap (a s b : Str) (ha : allWS a) (hb : allWS b) :
    trimL (a ++ s ++ b) = trimL s := by
  rw [show a ++ s ++ b = a ++ (s ++ b) by simp, trimL_ws_append _ _ ha,
    trimL_append_ws _ _ hb]

theorem allWS_nl : allWS ['\n'] := by
  intro c hc
  simp only [List.mem_singleton] at hc
  subst hc
  rfl

theorem trimL_cons_nl (s : Str) : trimL ('\n' :: s) = trimL s :=
  trimL_ws_append ['\n'] s allWS_nl

theorem trimL_snoc_nl (s : Str) : trimL (s ++ ['\n']) = trimL s :=
  trimL_append_ws s ['\n'] allWS_nl

theorem startsW_self_append (p s : Str) : startsW p (p ++ s) = true := by
  induction p with
  | nil => rfl
  | cons c ps ih => simp [startsW, ih]

theorem getLastD_append_right {α : Type} (a b : List α) (d : α) (hb : b ≠ []) :
    (a ++ b).getLastD d = b.getLastD d := by
  rw [List.getLastD_eq_getLast?, List.getLastD_eq_getLast?,
    List.getLast?_append_of_ne_nil a hb]

theorem headD_append_left {α : Type} (a b : List α) (d : α) (ha : a ≠ []) :
    (a ++ b).headD d = a.headD d := by
  cases a with
  | nil => exact absurd rfl ha
  | cons x xs => rfl

theorem startsW_headD (p s : Str) (hp : p ≠ []) (h : startsW p s = true) :
    s.headD 'x' = p.headD 'x' := by
  cases p with
  | nil => exact absurd rfl hp
  | cons a ps =>
    cases s with
    | nil => simp [startsW] at h
    | cons c cs =>
      simp only [startsW, Bool.and_eq_true, beq_iff_eq] at h
      simp [h.1.symm]

theorem startsW_fence_not_marker (m t : Str) (hm : m.headD 'x' = '#')
    (h : startsW "```".data t = true) : startsW m t = false := by
  cases hsw : startsW m t with
  | false => rfl
  | true =>
    exfalso
    have h1 := startsW_headD "```".data t (by decide) h
    cases m with
    | nil => exact absurd hm (by decide)
    | cons a ms =>
      have h2 := startsW_headD (a :: ms) t (by simp) hsw
      rw [List.headD_cons] at hm
      rw [h2] at h1
      simp only [List.headD_cons] at h1
      rw [hm] at h1
      exact absurd h1 (by decide)

theorem findHeadingsGo_cons (m : Str) (lo : Bool) (l : Str) (ls : List Str)
    (f : Bool) (p : Nat) :
    findHeadingsGo m lo (l :: ls) f p =
      (if (!(if isFenceLine l then !f else f) && startsW m (trimL l) &&
          decide (m.length < (trimL l).length)) = true then
        [⟨(if lo then toLowerL (trimL ((trimL l).drop m.length))
           else trimL ((trimL l).drop m.length)), p, l⟩]
      else []) ++
        findHeadingsGo m lo ls (if isFenceLine l then !f else f) (p + l.length + 1) := rfl

theorem findHeadingsGo_append (m : Str) (lo : Bool) (A B : List Str) :
    ∀ (f : Bool) (p : Nat),
    findHeadingsGo m lo (A ++ B) f p =
      findHeadingsGo m lo A f p ++
        findHeadingsGo m lo B (fenceTgl A f) (p + sizeLinesL A) := by
  induction A with
  | nil =>
    intro f p
    simp [findHeadingsGo, fenceTgl, sizeLinesL]
  | cons l ls ih =>
    intro f p
    have htgl : fenceTgl (l :: ls) f = fenceTgl ls (if isFenceLine l then !f else f) := rfl
    have hsz : p + sizeLinesL (l :: ls) = p + l.length + 1 + sizeLinesL ls := by
      simp only [sizeLinesL, List.map_cons, List.sum_cons]
      omega
    rw [List.cons_append, findHeadingsGo_cons, findHeadingsGo_cons, htgl, hsz,
      ih, List.append_assoc]

theorem findHeadingsGo_nil_in_fence (m : Str) (lo : Bool) :
    ∀ (L : List Str), (∀ l ∈ L, isFenceLine l = false) →
    ∀ p, findHeadingsGo m lo L true p = [] := by
  intro L
  induction L with
  | nil => intro _ p; rfl
  | cons l ls ih =>
    intro h p
    rw [findHeadingsGo_cons, h l (by simp)]
    simp only [Bool.false_eq_true, if_false, Bool.not_true, Bool.false_and,
      List.nil_append]
    exact ih (fun x hx => h x (by simp [hx])) _

theorem findHeadingsGo_nil_inert (m : Str) (lo : Bool) :
    ∀ (L : List Str), (∀ l ∈ L, isFenceLine l = false ∧ isHeadingLine m l = false) →
    ∀ p, findHeadingsGo m lo L false p = [] := by
  intro L
  induction L with
  | nil => intro _ p; rfl
  | cons l ls ih =>
    intro h p
    have hf : isFenceLine l = false := (h l (by simp)).1
    have hcond : (!(if isFenceLine l then !false else false) && startsW m (trimL l) &&
        decide (m.length < (trimL l).length)) = false := by
      rw [hf]
      simpa [isHeadingLine] using (h l (by simp)).2
    rw [findHeadingsGo_cons, hcond, hf]
    simp only [Bool.false_eq_true, if_false, List.nil_append]
    exact ih (fun x hx => h x (by simp [hx])) _

theorem findHeadingsGo_fenced (m : Str) (lo : Bool) (hm : m.headD 'x' = '#')
    (lopen lclose : Str) (body : List Str) (ho : isFenceLine lopen = true)
    (hc : isFenceLine lclose = true) (hb : ∀ l ∈ body, isFenceLine l = false) :
    (∀ p, findHeadingsGo m lo (lopen :: body ++ [lclose]) false p = []) ∧
      fenceTgl (lopen :: body ++ [lclose]) false = false := by
  have hclose : ∀ p, findHeadingsGo m lo [lclose] true p = [] := by
    intro p
    rw [findHeadingsGo_cons, hc]
    have hsw : startsW m (trimL lclose) = false :=
      startsW_fence_not_marker m (trimL lclose) hm hc
    rw [hsw]
    simp [findHeadingsGo]
  constructor
  · intro p
    rw [show lopen :: body ++ [lclose] = lopen :: (body ++ [lclose]) from rfl,
      findHeadingsGo_cons, ho]
    simp only [if_true, Bool.not_false, Bool.not_true, Bool.false_and,
      Bool.false_eq_true, if_false, List.nil_append]
    rw [findHeadingsGo_append, findHeadingsGo_nil_in_fence m lo body hb,
      fenceTgl_of_no_fences body true hb, List.nil_append]
    exact hclose _
  · rw [show lopen :: body ++ [lclose] = lopen :: (body ++ [lclose]) from rfl,
      fenceTgl_cons, ho]
    simp only [if_true]
    rw [fenceTgl_append, fenceTgl_of_no_fences body _ hb, fenceTgl_cons, hc]
    rfl

theorem findHeadingsGo_cons_heading (m : Str) (lo : Bool) (hm : m.headD 'x' = '#')
    (hmne : m ≠ []) (nm : Str) (rest : List Str) (p : Nat)
    (hne : nm ≠ []) (ht : trimL nm = nm) :
    findHeadingsGo m lo ((m ++ nm) :: rest) false p =
      ⟨(if lo then toLowerL nm else nm), p, m ++ nm⟩ ::
        findHeadingsGo m lo rest false (p + (m ++ nm).length + 1) := by
  have htrim : trimL (m ++ nm) = m ++ nm := by
    apply trimL_eq_self_of_ends
    · rw [headD_append_left _ _ _ hmne, hm]
      decide
    · rw [getLastD_append_right _ _ _ hne]
      exact trimStable_getLastD nm ht hne
  have hfence : isFenceLine (m ++ nm) = false := by
    unfold isFenceLine
    rw [htrim]
    cases hsw : startsW "```".data (m ++ nm) with
    | false => rfl
    | true =>
      have h1 := startsW_headD "```".data _ (by decide) hsw
      rw [headD_append_left _ _ _ hmne, hm] at h1
      exact absurd h1 (by decide)
  have hsw : startsW m (m ++ nm) = true := startsW_self_append m nm
  have hlen : decide (m.length < (m ++ nm).length) = true := by
    have : 0 < nm.length := by
      cases nm with
      | nil => exact absurd rfl hne
      | cons a l => simp
    simp only [List.length_append, decide_eq_true_eq]
    omega
  have hdrop : (m ++ nm).drop m.length = nm := List.drop_left m nm
  rw [findHeadingsGo_cons, hfence, htrim, hsw, hlen, hdrop, ht]
  simp

theorem findHeadingsGo_blocks (m : Str) (lo : Bool) (hm : m.headD 'x' = '#')
    (hmne : m ≠ []) :
    ∀ (bs : List (Str × List Str)), (∀ b ∈ bs, BlockOK m b) →
    ∀ (p : Nat),
      findHeadingsGo m lo (bs.flatMap (blockLines m)) false p = secListB m lo bs p := by
  intro bs
  induction bs with
  | nil => intro _ p; rfl
  | cons b rest ih =>
    intro h p
    obtain ⟨ht, hne, hnl, hscan, htgl, hlines⟩ := h b (by simp)
    rw [List.flatMap_cons,
      show blockLines m b ++ rest.flatMap (blockLines m) =
        (m ++ b.1) :: (b.2 ++ rest.flatMap (blockLines m)) from rfl,
      findHeadingsGo_cons_heading m lo hm hmne b.1 _ p hne ht,
      findHeadingsGo_append, hscan lo _, htgl, List.nil_append,
      ih (fun x hx => h x (by simp [hx]))]
    show _ = secListB m lo (b :: rest) p
    have harith : p + (m ++ b.1).length + 1 + sizeLinesL b.2 =
        p + ((m ++ b.1).length + 1 + sizeLinesL b.2) := by omega
    rw [harith]
    rfl

theorem spansRec_aux (body : Str) :
    ∀ (ss SS : List Sec) (k : Nat),
      (∀ i, SS.get? (k + i) = ss.get? i) →
      (ss.mapIdx fun i sec => (sec.name, spanContent body SS (k + i) sec)) =
        spansRec body ss := by
  intro ss
  induction ss with
  | nil => intro SS k _; rfl
  | cons s rest ih =>
    intro SS k h
    rw [List.mapIdx_cons]
    have hspan : spanContent body SS (k + 0) s =
        trimL (sliceL body (s.index + s.fullMatch.length)
          (match SS.get? (k + 1) with
           | some nxt => nxt.index
           | none => body.length)) := rfl
    cases rest with
    | nil =>
      have h1 : SS.get? (k + 1) = none := h 1
      rw [hspan, h1]
      rfl
    | cons s2 rest2 =>
      have h1 : SS.get? (k + 1) = some s2 := h 1
      rw [hspan, h1]
      have htail : (List.mapIdx (fun i sec =>
            (sec.name, spanContent body SS (k + (i + 1)) sec)) (s2 :: rest2)) =
          spansRec body (s2 :: rest2) := by
        have hfun : (fun i (sec : Sec) => (sec.name, spanContent body SS (k + (i + 1)) sec)) =
            (fun i (sec : Sec) => (sec.name, spanContent body SS (k + 1 + i) sec)) := by
          funext i sec
          rw [show k + (i + 1) = k + 1 + i by omega]
        rw [hfun]
        exact ih SS (k + 1) (fun i => by
          rw [show k + 1 + i = k + (i + 1) by omega]
          exact h (i + 1))
      rw [htail]
      rfl

theorem mapIdx_spanContent (body : Str) (SS : List Sec) :
    (SS.mapIdx fun i sec => (sec.name, spanContent body SS i sec)) = spansRec body SS := by
  have h := spansRec_aux body SS SS 0 (fun i => by rw [Nat.zero_add])
  simp only [Nat.zero_add] at h
  exact h

theorem secListB_cons (m : Str) (lo : Bool) (b : Str × List Str)
    (bs : List (Str × List Str)) (p : Nat) :
    secListB m lo (b :: bs) p =
      ⟨(if lo then toLowerL b.1 else b.1), p, m ++ b.1⟩ ::
        secListB m lo bs (p + ((m ++ b.1).length + 1 + sizeLinesL b.2)) := rfl

theorem spansRec_single (body : Str) (s : Sec) :
    spansRec body [s] =
      [(s.name, trimL (sliceL body (s.index + s.fullMatch.length) body.length))] := rfl

theorem spansRec_cons2 (body : Str) (s s2 : Sec) (rest : List Sec) :
    spansRec body (s :: s2 :: rest) =
      (s.name, trimL (sliceL body (s.index + s.fullMatch.length) s2.index)) ::
        spansRec body (s2 :: rest) := rfl

theorem drop_body_at_content (pre : List Str) (hl : Str) (B : List Str) (hB : B ≠ []) :
    (joinLines ((pre ++ [hl]) ++ B)).drop (sizeLinesL pre + hl.length) =
      '\n' :: joinLines B := by
  rw [joinLines_append (pre ++ [hl]) B (by simp) hB]
  have h1 := sizeLinesL_eq_length (pre ++ [hl]) (by simp)
  rw [sizeLinesL_append] at h1
  have h2 : sizeLinesL [hl] = hl.length + 1 := by simp [sizeLinesL]
  have hX : (joinLines (pre ++ [hl])).length = sizeLinesL pre + hl.length := by omega
  rw [show sizeLinesL pre + hl.length = (joinLines (pre ++ [hl])).length + 0 by omega,
    drop_append_add]
  rfl

theorem slice_last_span (pre : List Str) (hl : Str) (B : List Str) (hB : B ≠ []) :
    sliceL (joinLines ((pre ++ [hl]) ++ B)) (sizeLinesL pre + hl.length)
        (joinLines ((pre ++ [hl]) ++ B)).length = '\n' :: joinLines B := by
  unfold sliceL
  rw [drop_body_at_content pre hl B hB]
  have hd := congrArg List.length (drop_body_at_content pre hl B hB)
  rw [List.length_drop] at hd
  rw [hd, List.take_length]

theorem slice_mid_span (pre : List Str) (hl : Str) (B C : List Str)
    (hB : B ≠ []) (hC : C ≠ []) :
    sliceL (joinLines ((pre ++ [hl]) ++ (B ++ C))) (sizeLinesL pre + hl.length)
        (sizeLinesL pre + hl.length + 1 + sizeLinesL B) =
      '\n' :: (joinLines B ++ ['\n']) := by
  unfold sliceL
  rw [drop_body_at_content pre hl (B ++ C) (by simp [hB])]
  rw [show sizeLinesL pre + hl.length + 1 + sizeLinesL B - (sizeLinesL pre + hl.length) =
    sizeLinesL B + 1 by omega]
  rw [List.take_succ_cons, take_joinLines_append B C hB hC]

theorem spansRec_secListB (m : Str) (lo : Bool) :
    ∀ (bs : List (Str × List Str)) (pre : List Str),
      (∀ b ∈ bs, b.2 ≠ []) →
      spansRec (joinLines (pre ++ bs.flatMap (blockLines m)))
          (secListB m lo bs (sizeLinesL pre)) =
        bs.map (fun b => ((if lo then toLowerL b.1 else b.1), trimL (joinLines b.2))) := by
  intro bs
  induction bs with
  | nil => intro pre _; rfl
  | cons b rest ih =>
    intro pre h
    have hb2 : b.2 ≠ [] := h b (by simp)
    have hlist : pre ++ ((b :: rest).flatMap (blockLines m)) =
        (pre ++ [m ++ b.1]) ++ (b.2 ++ rest.flatMap (blockLines m)) := by
      simp [blockLines]
    rw [secListB_cons]
    cases rest with
    | nil =>
      rw [show secListB m lo []
          (sizeLinesL pre + ((m ++ b.1).length + 1 + sizeLinesL b.2)) = [] from rfl,
        spansRec_single]
      dsimp only
      rw [hlist]
      simp only [List.flatMap_nil, List.append_nil]
      rw [slice_last_span pre (m ++ b.1) b.2 hb2, trimL_cons_nl]
      rfl
    | cons r1 rest2 =>
      have htail := ih (pre ++ blockLines m b) (fun x hx => h x (by simp [hx]))
      have hlist2 : (pre ++ blockLines m b) ++ (r1 :: rest2).flatMap (blockLines m) =
          pre ++ ((b :: r1 :: rest2).flatMap (blockLines m)) := by
        simp [blockLines]
      have hsz : sizeLinesL (pre ++ blockLines m b) =
          sizeLinesL pre + ((m ++ b.1).length + 1 + sizeLinesL b.2) := by
        rw [sizeLinesL_append]
        simp only [blockLines, sizeLinesL, List.map_cons, List.sum_cons]
      rw [hlist2, hsz] at htail
      rw [secListB_cons m lo r1 rest2, spansRec_cons2]
      dsimp only
      rw [← secListB_cons m lo r1 rest2, htail, List.map_cons]
      congr 1
      rw [hlist,
        show sizeLinesL pre + ((m ++ b.1).length + 1 + sizeLinesL b.2) =
          sizeLinesL pre + (m ++ b.1).length + 1 + sizeLinesL b.2 by omega,
        slice_mid_span pre (m ++ b.1) b.2 ((r1 :: rest2).flatMap (blockLines m)) hb2
          (by simp [blockLines]),
        trimL_cons_nl, trimL_snoc_nl]

theorem digitChar_spec (k : Nat) (hk : k < 10) :
    (Char.ofNat ('0'.toNat + k)).isDigit = true ∧
      (Char.ofNat ('0'.toNat + k)).toNat = '0'.toNat + k ∧
      jsonWsChar (Char.ofNat ('0'.toNat + k)) = false ∧
      jsWhitespace (Char.ofNat ('0'.toNat + k)) = false ∧
      Char.ofNat ('0'.toNat + k) ≠ '`' ∧ Char.ofNat ('0'.toNat + k) ≠ ']' ∧
      Char.ofNat ('0'.toNat + k) ≠ '-' := by
  interval_cases k <;>
    exact ⟨by decide, by decide, by decide, by decide, by decide, by decide, by decide⟩

theorem natToStr_spec (n : Nat) :
    natToStr n ≠ [] ∧ (∀ c ∈ natToStr n, c.isDigit = true) := by
  induction n using Nat.strong_induction_on with
  | _ n ih =>
    by_cases h : n < 10
    · unfold natToStr
      rw [dif_pos h]
      refine ⟨by simp, ?_⟩
      intro c hc
      simp only [List.mem_singleton] at hc
      subst hc
      exact (digitChar_spec n h).1
    · unfold natToStr
      rw [dif_neg h]
      have ihd := ih (n / 10) (Nat.div_lt_self (by omega) (by omega))
      refine ⟨by simp, ?_⟩
      intro c hc
      rw [List.mem_append] at hc
      rcases hc with hc | hc
      · exact ihd.2 c hc
      · simp only [List.mem_singleton] at hc
        subst hc
        exact (digitChar_spec (n % 10) (Nat.mod_lt _ (by omega))).1

theorem parseIntDec_append (a : Str) (c : Char) :
    parseIntDec (a ++ [c]) = parseIntDec a * 10 + (c.toNat - '0'.toNat) := by
  unfold parseIntDec
  rw [List.foldl_append]
  rfl

theorem parseIntDec_natToStr (n : Nat) : parseIntDec (natToStr n) = n := by
  induction n using Nat.strong_induction_on with
  | _ n ih =>
    by_cases h : n < 10
    · unfold natToStr
      rw [dif_pos h]
      have hd := (digitChar_spec n h).2.1
      have h0 : parseIntDec [Char.ofNat ('0'.toNat + n)] =
          0 * 10 + ((Char.ofNat ('0'.toNat + n)).toNat - '0'.toNat) := rfl
      rw [h0, hd]
      omega
    · unfold natToStr
      rw [dif_neg h]
      rw [parseIntDec_append, ih (n / 10) (Nat.div_lt_self (by omega) (by omega))]
      have hd := (digitChar_spec (n % 10) (Nat.mod_lt _ (by omega))).2.1
      rw [hd]
      omega

theorem natToStr_head_ne_zero (n : Nat) (h1 : 1 ≤ n) :
    (natToStr n).headD 'x' ≠ '0' := by
  induction n using Nat.strong_induction_on with
  | _ n ih =>
    by_cases h : n < 10
    · unfold natToStr
      rw [dif_pos h]
      interval_cases n <;> decide
    · unfold natToStr
      rw [dif_neg h]
      rw [headD_append_left _ _ _ (natToStr_spec (n / 10)).1]
      exact ih (n / 10) (Nat.div_lt_self (by omega) (by omega)) (by omega)

theorem skipWs_ws_append (w t : Str) (hw : ∀ c ∈ w, jsonWsChar c = true) :
    skipWs (w ++ t) = skipWs t := by
  unfold skipWs
  induction w with
  | nil => rfl
  | cons c r ih =>
    rw [List.cons_append, List.dropWhile_cons, if_pos (hw c (by simp))]
    exact ih (fun x hx => hw x (by simp [hx]))

theorem skipWs_cons_nonws (c : Char) (t : Str) (hc : jsonWsChar c = false) :
    skipWs (c :: t) = c :: t := by
  unfold skipWs
  rw [List.dropWhile_cons, if_neg (by simp [hc])]

theorem escapeJChar_plain (c : Char) (h : plainJChar c = true) : escapeJChar c = [c] := by
  unfold plainJChar at h
  simp only [Bool.and_eq_true, bne_iff_ne, ne_eq, decide_eq_true_eq] at h
  obtain ⟨⟨⟨h1, h2⟩, h0⟩, h3⟩ := h
  unfold escapeJChar
  rw [if_neg h1, if_neg h2,
    if_neg (fun hc => by subst hc; exact absurd h3 (by decide)),
    if_neg (fun hc => by subst hc; exact absurd h3 (by decide)),
    if_neg (fun hc => by subst hc; exact absurd h3 (by decide)),
    if_neg (fun hc => by subst hc; exact absurd h3 (by decide)),
    if_neg (fun hc => by subst hc; exact absurd h3 (by decide)),
    if_neg (by omega)]

theorem escapeJ_plain (s : Str) (h : plainJStr s = true) : escapeJ s = s := by
  induction s with
  | nil => rfl
  | cons c r ih =>
    unfold plainJStr at h
    rw [List.all_cons, Bool.and_eq_true] at h
    show escapeJChar c ++ escapeJ r = c :: r
    rw [escapeJChar_plain c h.1, ih h.2]
    rfl

theorem parseJStr_cons_plain (c : Char) (t : Str) (h1 : ¬ c = '"') (h2 : ¬ c = '\\')
    (h3 : 32 ≤ c.toNat) :
    parseJStr (c :: t) = (parseJStr t).map fun p => (c :: p.1, p.2) := by
  rw [parseJStr.eq_def]
  split
  · rename_i heq
    exact absurd heq (by simp)
  · rename_i r heq
    injection heq with hc _
    exact absurd hc h1
  · rename_i a b d e r heq
    injection heq with hc _
    exact absurd hc h2
  · rename_i e r heq
    injection heq with hc _
    exact absurd hc h2
  · rename_i heq2
    injection heq2 with hc ht
    subst hc
    subst ht
    rw [if_neg (by omega)]

theorem parseJStr_plain (s : Str) (hs : plainJStr s = true) (rest : Str) :
    parseJStr (s ++ '"' :: rest) = some (s, rest) := by
  induction s with
  | nil => rfl
  | cons c r ih =>
    unfold plainJStr at hs
    rw [List.all_cons, Bool.and_eq_true] at hs
    obtain ⟨hc, hr⟩ := hs
    unfold plainJChar at hc
    simp only [Bool.and_eq_true, bne_iff_ne, ne_eq, decide_eq_true_eq] at hc
    obtain ⟨⟨⟨h1, h2⟩, h0⟩, h3⟩ := hc
    rw [List.cons_append, parseJStr_cons_plain c _ h1 h2 h3, ih hr]
    rfl

theorem natToStr_zero : natToStr 0 = ['0'] := by
  unfold natToStr
  rw [dif_pos (by omega)]
  decide

theorem parseDigits_natToStr (m : Nat) (rest : Str)
    (h1 : (rest.headD 'x').isDigit = false) :
    parseDigits (natToStr m ++ rest) = some (m, rest) := by
  have htail : rest.takeWhile (fun c => c.isDigit) = [] ∧
      rest.dropWhile (fun c => c.isDigit) = rest := by
    cases rest with
    | nil => exact ⟨rfl, rfl⟩
    | cons c t =>
      rw [List.headD_cons] at h1
      exact ⟨List.takeWhile_cons_of_neg (by simp [h1]),
        List.dropWhile_cons_of_neg (by simp [h1])⟩
  by_cases hm : m = 0
  · subst hm
    rw [natToStr_zero]
    rfl
  · obtain ⟨d, ds, hds⟩ : ∃ d ds, natToStr m = d :: ds := by
      cases hn : natToStr m with
      | nil => exact absurd hn (natToStr_spec m).1
      | cons a l => exact ⟨a, l, rfl⟩
    have hdig : d.isDigit = true := (natToStr_spec m).2 d (by rw [hds]; simp)
    have hd0 : d ≠ '0' := by
      have := natToStr_head_ne_zero m (by omega)
      rw [hds, List.headD_cons] at this
      exact this
    have halldig : ∀ c ∈ natToStr m, (fun c => c.isDigit) c = true :=
      fun c hc => (natToStr_spec m).2 c hc
    rw [hds, List.cons_append, parseDigits.eq_def]
    split
    · rename_i heq
      injection heq with hc _
      exact absurd hc hd0
    · rename_i heq2
      injection heq2 with hc ht
      subst hc
      rw [if_pos hdig, ← List.cons_append, ← hds,
        List.takeWhile_append_of_pos halldig, htail.1,
        List.dropWhile_append_of_pos halldig, htail.2, List.append_nil,
        parseIntDec_natToStr]
    · rename_i heq
      exact absurd heq (by simp)

theorem parseSigned_natToStr (m : Nat) (rest : Str)
    (h1 : (rest.headD 'x').isDigit = false) :
    parseSigned (natToStr m ++ rest) = some ((m : Int), rest) := by
  obtain ⟨d, ds, hds⟩ : ∃ d ds, natToStr m = d :: ds := by
    cases hn : natToStr m with
    | nil => exact absurd hn (natToStr_spec m).1
    | cons a l => exact ⟨a, l, rfl⟩
  have hdig : d.isDigit = true := (natToStr_spec m).2 d (by rw [hds]; simp)
  have hdm : d ≠ '-' := by
    intro h
    rw [h] at hdig
    exact absurd hdig (by decide)
  rw [hds, List.cons_append, parseSigned.eq_def]
  split
  · rename_i heq
    injection heq with hc _
    exact absurd hc hdm
  · rename_i heq2
    rw [← List.cons_append, ← hds, parseDigits_natToStr m rest h1]
    rfl

theorem parseJNum_intToStr (n : Int) (rest : Str)
    (h1 : (rest.headD 'x').isDigit = false) (h2 : rest.headD 'x' ≠ '.')
    (h3 : rest.headD 'x' ≠ 'e') (h4 : rest.headD 'x' ≠ 'E') :
    parseJNum (intToStr n ++ rest) = some (n, rest) := by
  by_cases hn : n < 0
  · have hs : intToStr n = '-' :: natToStr n.natAbs := by
      unfold intToStr
      rw [if_pos hn]
    rw [hs, List.cons_append]
    unfold parseJNum
    have hsg : parseSigned ('-' :: (natToStr n.natAbs ++ rest)) =
        some (-(n.natAbs : Int), rest) := by
      show (parseDigits (natToStr n.natAbs ++ rest)).map
        (fun p => (-(p.1 : Int), p.2)) = _
      rw [parseDigits_natToStr _ rest h1]
      rfl
    rw [hsg]
    have hval : -(n.natAbs : Int) = n := by omega
    rw [hval]
    cases rest with
    | nil => rfl
    | cons c t =>
      rw [List.headD_cons] at h2 h3 h4
      show (if c = '.' ∨ c = 'e' ∨ c = 'E' then none else some (n, c :: t)) =
        some (n, c :: t)
      rw [if_neg (by tauto)]
  · have hs : intToStr n = natToStr n.natAbs := by
      unfold intToStr
      rw [if_neg hn]
    rw [hs]
    unfold parseJNum
    rw [parseSigned_natToStr _ rest h1]
    have hval : ((n.natAbs : Int)) = n := by omega
    rw [hval]
    cases rest with
    | nil => rfl
    | cons c t =>
      rw [List.headD_cons] at h2 h3 h4
      show (if c = '.' ∨ c = 'e' ∨ c = 'E' then none else some (n, c :: t)) =
        some (n, c :: t)
      rw [if_neg (by tauto)]

theorem digit_char_props (d : Char) (h : d.isDigit = true) :
    jsonWsChar d = false ∧ jsWhitespace d = false ∧ d ≠ ']' ∧ d ≠ '}' ∧ d ≠ '`' ∧
      d ≠ 'n' ∧ d ≠ 't' ∧ d ≠ 'f' ∧ d ≠ '"' ∧ d ≠ '[' ∧ d ≠ '{' ∧ d ≠ '-' := by
  have hn : ∀ c : Char, c.isDigit = false → d ≠ c := by
    intro c hc he
    subst he
    rw [h] at hc
    exact absurd hc (by decide)
  refine ⟨?_, ?_, hn _ (by decide), hn _ (by decide), hn _ (by decide), hn _ (by decide),
    hn _ (by decide), hn _ (by decide), hn _ (by decide), hn _ (by decide),
    hn _ (by decide), hn _ (by decide)⟩
  · cases hw : jsonWsChar d with
    | false => rfl
    | true =>
      exfalso
      unfold jsonWsChar at hw
      simp only [Bool.or_eq_true, beq_iff_eq] at hw
      rcases hw with ((rfl | rfl) | rfl) | rfl <;> exact absurd h (by decide)
  · cases hw : jsWhitespace d with
    | false => rfl
    | true =>
      exfalso
      unfold jsWhitespace at hw
      simp only [Bool.or_eq_true, beq_iff_eq] at hw
      rcases hw with ((((rfl | rfl) | rfl) | rfl) | rfl) | rfl <;>
        exact absurd h (by decide)

theorem jstringify_head (ind : Nat) (v : Json) :
    ∃ c t, jstringify ind v = c :: t ∧ jsonWsChar c = false ∧ jsWhitespace c = false ∧
      c ≠ ']' ∧ c ≠ '}' ∧ c ≠ '`' := by
  cases v with
  | null =>
    refine ⟨'n', "ull".data, ?_, by decide, by decide, by decide, by decide, by decide⟩
    simp only [jstringify]
  | bool b =>
    cases b with
    | true =>
      refine ⟨'t', "rue".data, ?_, by decide, by decide, by decide, by decide, by decide⟩
      simp only [jstringify]
    | false =>
      refine ⟨'f', "alse".data, ?_, by decide, by decide, by decide, by decide, by decide⟩
      simp only [jstringify]
  | num n =>
    by_cases hn : n < 0
    · refine ⟨'-', natToStr n.natAbs, ?_, by decide, by decide, by decide, by decide, by decide⟩
      simp only [jstringify]
      unfold intToStr
      rw [if_pos hn]
    · obtain ⟨d, ds, hds⟩ : ∃ d ds, natToStr n.natAbs = d :: ds := by
        cases hx : natToStr n.natAbs with
        | nil => exact absurd hx (natToStr_spec n.natAbs).1
        | cons a l => exact ⟨a, l, rfl⟩
      have hdig : d.isDigit = true := (natToStr_spec n.natAbs).2 d (by rw [hds]; simp)
      obtain ⟨p1, p2, p3, p4, p5, _⟩ := digit_char_props d hdig
      refine ⟨d, ds, ?_, p1, p2, p3, p4, p5⟩
      simp only [jstringify]
      unfold intToStr
      rw [if_neg hn, hds]
  | str s =>
    refine ⟨'"', escapeJ s ++ ['"'], ?_, by decide, by decide,
      by decide, by decide, by decide⟩
    simp only [jstringify]
    simp
  | arr es =>
    cases es with
    | nil =>
      refine ⟨'[', [']'], ?_, by decide, by decide, by decide, by decide, by decide⟩
      simp only [jstringify]
    | cons x xs =>
      refine ⟨'[', '\n' :: (jstringifyElems (ind + 2) x xs ++
        '\n' :: (spacesL ind ++ "]".data)), ?_, by decide, by decide, by decide,
        by decide, by decide⟩
      simp only [jstringify]
      simp
  | obj fs =>
    cases fs with
    | nil =>
      refine ⟨'{', ['}'], ?_, by decide, by decide, by decide, by decide, by decide⟩
      simp only [jstringify]
    | cons f fs' =>
      refine ⟨'{', '\n' :: (jstringifyFields (ind + 2) f fs' ++
        '\n' :: (spacesL ind ++ "\x7d".data)), ?_, by decide, by decide, by decide,
        by decide, by decide⟩
      simp only [jstringify]
      simp

theorem parseJVal_ws (fuel : Nat) (w t : Str) (hw : ∀ c ∈ w, jsonWsChar c = true) :
    parseJVal fuel (w ++ t) = parseJVal fuel t := by
  cases fuel with
  | zero => rfl
  | succ f =>
    rw [parseJVal.eq_def, parseJVal.eq_def]
    dsimp only
    rw [skipWs_ws_append w t hw]

theorem parseJVal_succ_null (f : Nat) (rest : Str) :
    parseJVal (f + 1) ("null".data ++ rest) = some (.null, rest) := rfl

theorem parseJVal_succ_true (f : Nat) (rest : Str) :
    parseJVal (f + 1) ("true".data ++ rest) = some (.bool true, rest) := rfl

theorem parseJVal_succ_false (f : Nat) (rest : Str) :
    parseJVal (f + 1) ("false".data ++ rest) = some (.bool false, rest) := rfl

theorem parseJVal_succ_quote (f : Nat) (t : Str) :
    parseJVal (f + 1) ('"' :: t) = (parseJStr t).map fun p => (.str p.1, p.2) := rfl

theorem parseJVal_succ_lbracket (f : Nat) (r : Str) :
    parseJVal (f + 1) ('[' :: r) =
      (match skipWs r with
       | ']' :: r2 => some (.arr [], r2)
       | _ => (parseJElems f r).map fun p => (.arr p.1, p.2)) := rfl

theorem parseJVal_succ_lbrace (f : Nat) (r : Str) :
    parseJVal (f + 1) ('{' :: r) =
      (match skipWs r with
       | '}' :: r2 => some (.obj [], r2)
       | _ => (parseJFields f r).map fun p => (.obj p.1, p.2)) := rfl

theorem parseJVal_succ_num (f : Nat) (d : Char) (t : Str)
    (hws : jsonWsChar d = false)
    (h : d = '-' ∨ d.isDigit = true) :
    parseJVal (f + 1) (d :: t) = (parseJNum (d :: t)).map fun p => (.num p.1, p.2) := by
  have hne : d ≠ 'n' ∧ d ≠ 't' ∧ d ≠ 'f' ∧ d ≠ '"' ∧ d ≠ '[' ∧ d ≠ '{' := by
    rcases h with rfl | h
    · exact ⟨by decide, by decide, by decide, by decide, by decide, by decide⟩
    · obtain ⟨_, _, _, _, _, p6, p7, p8, p9, p10, p11, _⟩ := digit_char_props d h
      exact ⟨p6, p7, p8, p9, p10, p11⟩
  rw [parseJVal.eq_def]
  dsimp only
  rw [skipWs_cons_nonws d t hws]
  split
  · rename_i heq
    injection heq with hc _
    exact absurd hc hne.1
  · rename_i heq
    injection heq with hc _
    exact absurd hc hne.2.1
  · rename_i heq
    injection heq with hc _
    exact absurd hc hne.2.2.1
  · rename_i heq
    injection heq with hc _
    exact absurd hc hne.2.2.2.1
  · rename_i heq
    injection heq with hc _
    exact absurd hc hne.2.2.2.2.1
  · rename_i heq
    injection heq with hc _
    exact absurd hc hne.2.2.2.2.2
  · rfl

theorem parseJElems_succ (f : Nat) (s : Str) :
    parseJElems (f + 1) s =
      (parseJVal f s).bind fun p =>
        match skipWs p.2 with
        | ',' :: r2 => (parseJElems f r2).map fun q => (p.1 :: q.1, q.2)
        | ']' :: r2 => some ([p.1], r2)
        | _ => none := rfl

theorem parseJFields_succ (f : Nat) (s : Str) :
    parseJFields (f + 1) s =
      (match skipWs s with
       | '"' :: r =>
         (parseJStr r).bind fun pk =>
           match skipWs pk.2 with
           | ':' :: r3 =>
             (parseJVal f r3).bind fun pv =>
               match skipWs pv.2 with
               | ',' :: r5 => (parseJFields f r5).map fun q => ((pk.1, pv.1) :: q.1, q.2)
               | '}' :: r5 => some ([(pk.1, pv.1)], r5)
               | _ => none
           | _ => none
       | _ => none) := rfl

theorem jsize_pos (v : Json) : 1 ≤ jsize v := by
  cases v <;> simp only [jsize] <;> omega

theorem allWsJson_spaces (k : Nat) : ∀ c ∈ spacesL k, jsonWsChar c = true := by
  intro c hc
  have := List.eq_of_mem_replicate hc
  subst this
  rfl

theorem allWsJson_nl_spaces (k : Nat) : ∀ c ∈ '\n' :: spacesL k, jsonWsChar c = true := by
  intro c hc
  rcases List.mem_cons.mp hc with rfl | hc
  · rfl
  · exact allWsJson_spaces k c hc

theorem allWsJson_nl : ∀ c ∈ ['\n'], jsonWsChar c = true := by
  intro c hc
  simp only [List.mem_singleton] at hc
  subst hc
  rfl

theorem allWsJson_space : ∀ c ∈ [' '], jsonWsChar c = true := by
  intro c hc
  simp only [List.mem_singleton] at hc
  subst hc
  rfl

theorem headOK_wsClose (w2 rest' : Str) (b : Char)
    (hw2 : ∀ c ∈ w2, jsonWsChar c = true)
    (hb : b.isDigit = false ∧ b ≠ '.' ∧ b ≠ 'e' ∧ b ≠ 'E') :
    ((w2 ++ b :: rest').headD 'x').isDigit = false ∧
      (w2 ++ b :: rest').headD 'x' ≠ '.' ∧
      (w2 ++ b :: rest').headD 'x' ≠ 'e' ∧
      (w2 ++ b :: rest').headD 'x' ≠ 'E' := by
  cases w2 with
  | nil =>
    rw [List.nil_append, List.headD_cons]
    exact hb
  | cons c t =>
    rw [List.cons_append, List.headD_cons]
    have hcw : jsonWsChar c = true := hw2 c (by simp)
    unfold jsonWsChar at hcw
    simp only [Bool.or_eq_true, beq_iff_eq] at hcw
    rcases hcw with ((rfl | rfl) | rfl) | rfl <;>
      exact ⟨by decide, by decide, by decide, by decide⟩

theorem jstringifyElems_split (ind : Nat) (x : Json) (xs : List Json) :
    ∃ T, jstringifyElems ind x xs = spacesL ind ++ (jstringify ind x ++ T) := by
  cases xs with
  | nil =>
    refine ⟨[], ?_⟩
    simp only [jstringifyElems]
    simp
  | cons y ys =>
    refine ⟨",\n".data ++ jstringifyElems ind y ys, ?_⟩
    simp only [jstringifyElems]
    simp

theorem parse_jstringify (fuel : Nat) :
    (∀ (v : Json) (ind : Nat) (rest : Str), jsize v < fuel → plainJson v = true →
      (rest.headD 'x').isDigit = false → rest.headD 'x' ≠ '.' →
      rest.headD 'x' ≠ 'e' → rest.headD 'x' ≠ 'E' →
      parseJVal fuel (jstringify ind v ++ rest) = some (v, rest)) ∧
    (∀ (x : Json) (xs : List Json) (ind : Nat) (w w2 rest : Str),
      jsizeList (x :: xs) < fuel → plainJson x = true → plainJsonList xs = true →
      (∀ c ∈ w, jsonWsChar c = true) → (∀ c ∈ w2, jsonWsChar c = true) →
      parseJElems fuel (w ++ (jstringifyElems ind x xs ++ (w2 ++ ']' :: rest))) =
        some (x :: xs, rest)) ∧
    (∀ (k : Str) (v : Json) (fs : List (Str × Json)) (ind : Nat) (w w2 rest : Str),
      jsizeFields ((k, v) :: fs) < fuel → plainJStr k = true → plainJson v = true →
      plainJsonFields fs = true →
      (∀ c ∈ w, jsonWsChar c = true) → (∀ c ∈ w2, jsonWsChar c = true) →
      parseJFields fuel (w ++ (jstringifyFields ind (k, v) fs ++ (w2 ++ '}' :: rest))) =
        some ((k, v) :: fs, rest)) := by
  induction fuel with
  | zero =>
    exact ⟨fun v _ _ hsz _ _ _ _ _ => absurd hsz (by omega),
      fun _ _ _ _ _ _ hsz _ _ _ _ => absurd hsz (by omega),
      fun _ _ _ _ _ _ _ hsz _ _ _ _ _ => absurd hsz (by omega)⟩
  | succ f ih =>
    obtain ⟨ihV, ihE, ihF⟩ := ih
    refine ⟨?_, ?_, ?_⟩
    · intro v ind rest hsz hpl h1 h2 h3 h4
      cases v with
      | null =>
        simp only [jstringify]
        exact parseJVal_succ_null f rest
      | bool b =>
        cases b with
        | true =>
          simp only [jstringify]
          exact parseJVal_succ_true f rest
        | false =>
          simp only [jstringify]
          exact parseJVal_succ_false f rest
      | num n =>
        simp only [jstringify]
        by_cases hneg : n < 0
        · have hform : intToStr n ++ rest = '-' :: (natToStr n.natAbs ++ rest) := by
            unfold intToStr
            rw [if_pos hneg]
            rfl
          rw [hform, parseJVal_succ_num f '-' _ (by decide) (Or.inl rfl), ← hform,
            parseJNum_intToStr n rest h1 h2 h3 h4]
          rfl
        · obtain ⟨d, ds, hds⟩ : ∃ d ds, natToStr n.natAbs = d :: ds := by
            cases hx : natToStr n.natAbs with
            | nil => exact absurd hx (natToStr_spec n.natAbs).1
            | cons a l => exact ⟨a, l, rfl⟩
          have hdig : d.isDigit = true := (natToStr_spec n.natAbs).2 d (by rw [hds]; simp)
          have hform : intToStr n ++ rest = d :: (ds ++ rest) := by
            unfold intToStr
            rw [if_neg hneg, hds]
            rfl
          rw [hform, parseJVal_succ_num f d _ (digit_char_props d hdig).1 (Or.inr hdig),
            ← hform, parseJNum_intToStr n rest h1 h2 h3 h4]
          rfl
      | str s =>
        simp only [plainJson] at hpl
        simp only [jstringify]
        have hform : (('"' :: escapeJ s ++ ['"']) : Str) ++ rest =
            '"' :: (escapeJ s ++ '"' :: rest) := by simp
        rw [hform, parseJVal_succ_quote, escapeJ_plain s hpl, parseJStr_plain s hpl rest]
        rfl
      | arr es =>
        cases es with
        | nil =>
          simp only [jstringify]
          rw [show ("[]".data : Str) ++ rest = '[' :: (']' :: rest) from rfl,
            parseJVal_succ_lbracket, skipWs_cons_nonws ']' rest (by decide)]
          rfl
        | cons x xs =>
          simp only [jsize] at hsz
          simp only [plainJson, plainJsonList] at hpl
          rw [Bool.and_eq_true] at hpl
          obtain ⟨hpx, hpxs⟩ := hpl
          have hform : jstringify ind (.arr (x :: xs)) ++ rest =
              '[' :: (['\n'] ++ (jstringifyElems (ind + 2) x xs ++
                (('\n' :: spacesL ind) ++ (']' :: rest)))) := by
            simp only [jstringify]
            simp
          rw [hform, parseJVal_succ_lbracket]
          obtain ⟨c, t, hct, hcws, _, hcrb, _, _⟩ := jstringify_head (ind + 2) x
          obtain ⟨T, hT⟩ := jstringifyElems_split (ind + 2) x xs
          have hskipr : skipWs (['\n'] ++ (jstringifyElems (ind + 2) x xs ++
              (('\n' :: spacesL ind) ++ (']' :: rest)))) =
              c :: (t ++ (T ++ (('\n' :: spacesL ind) ++ (']' :: rest)))) := by
            rw [skipWs_ws_append ['\n'] _ allWsJson_nl, hT, List.append_assoc,
              skipWs_ws_append _ _ (allWsJson_spaces (ind + 2)), List.append_assoc,
              hct, List.cons_append]
            exact skipWs_cons_nonws c _ hcws
          rw [hskipr]
          split
          · rename_i heq
            injection heq with hc _
            exact absurd hc hcrb
          · rw [ihE x xs (ind + 2) ['\n'] ('\n' :: spacesL ind) rest (by omega) hpx hpxs
              allWsJson_nl (allWsJson_nl_spaces ind)]
            rfl
      | obj fs =>
        cases fs with
        | nil =>
          simp only [jstringify]
          rw [show ("\x7b\x7d".data : Str) ++ rest = '{' :: ('}' :: rest) from rfl,
            parseJVal_succ_lbrace, skipWs_cons_nonws '}' rest (by decide)]
          rfl
        | cons g fs' =>
          obtain ⟨k, v⟩ := g
          simp only [jsize] at hsz
          simp only [plainJson] at hpl
          rw [Bool.and_eq_true] at hpl
          obtain ⟨hpf, _⟩ := hpl
          simp only [plainJsonFields] at hpf
          rw [Bool.and_eq_true, Bool.and_eq_true] at hpf
          obtain ⟨⟨hpk, hpv⟩, hpfs⟩ := hpf
          have hform : jstringify ind (.obj ((k, v) :: fs')) ++ rest =
              '{' :: (['\n'] ++ (jstringifyFields (ind + 2) (k, v) fs' ++
                (('\n' :: spacesL ind) ++ ('}' :: rest)))) := by
            simp only [jstringify]
            simp
          rw [hform, parseJVal_succ_lbrace]
          have hsplitF : ∃ T, jstringifyFields (ind + 2) (k, v) fs' =
              spacesL (ind + 2) ++ ('"' :: (escapeJ k ++ T)) := by
            cases fs' with
            | nil =>
              refine ⟨"\": ".data ++ jstringify (ind + 2) v, ?_⟩
              simp only [jstringifyFields]
              simp
            | cons g2 fs2 =>
              refine ⟨"\": ".data ++ jstringify (ind + 2) v ++ ",\n".data ++
                jstringifyFields (ind + 2) g2 fs2, ?_⟩
              simp only [jstringifyFields]
              simp
          obtain ⟨T, hT⟩ := hsplitF
          have hskipr : skipWs (['\n'] ++ (jstringifyFields (ind + 2) (k, v) fs' ++
              (('\n' :: spacesL ind) ++ ('}' :: rest)))) =
              '"' :: ((escapeJ k ++ T) ++ (('\n' :: spacesL ind) ++ ('}' :: rest))) := by
            rw [skipWs_ws_append ['\n'] _ allWsJson_nl, hT, List.append_assoc,
              skipWs_ws_append _ _ (allWsJson_spaces (ind + 2)), List.cons_append]
            exact skipWs_cons_nonws '"' _ (by decide)
          rw [hskipr]
          split
          · rename_i heq
            injection heq with hc _
            exact absurd hc (by decide)
          · rw [ihF k v fs' (ind + 2) ['\n'] ('\n' :: spacesL ind) rest (by omega) hpk hpv
              hpfs allWsJson_nl (allWsJson_nl_spaces ind)]
            rfl
    · intro x xs ind w w2 rest hsz hpx hpxs hw hw2
      simp only [jsizeList] at hsz
      have hszx : jsize x < f := by omega
      rw [parseJElems_succ]
      cases xs with
      | nil =>
        have hform : w ++ (jstringifyElems ind x [] ++ (w2 ++ ']' :: rest)) =
            (w ++ spacesL ind) ++ (jstringify ind x ++ (w2 ++ ']' :: rest)) := by
          simp only [jstringifyElems]
          simp
        have hwsp : ∀ c ∈ w ++ spacesL ind, jsonWsChar c = true := by
          intro c hc
          rcases List.mem_append.mp hc with hc | hc
          · exact hw c hc
          · exact allWsJson_spaces ind c hc
        have hOK := headOK_wsClose w2 rest ']' hw2 ⟨by decide, by decide, by decide, by decide⟩
        rw [hform, parseJVal_ws f _ _ hwsp,
          ihV x ind (w2 ++ ']' :: rest) hszx hpx hOK.1 hOK.2.1 hOK.2.2.1 hOK.2.2.2]
        have hs2 : skipWs (w2 ++ ']' :: rest) = ']' :: rest := by
          rw [skipWs_ws_append w2 _ hw2]
          exact skipWs_cons_nonws ']' rest (by decide)
        show (match skipWs (w2 ++ ']' :: rest) with
          | ',' :: r2 => (parseJElems f r2).map fun q => ((x :: q.1 : List Json), q.2)
          | ']' :: r2 => some ([x], r2)
          | _ => none) = some ([x], rest)
        rw [hs2]
        rfl
      | cons y ys =>
        simp only [plainJsonList] at hpxs
        rw [Bool.and_eq_true] at hpxs
        obtain ⟨hpy, hpys⟩ := hpxs
        have hform : w ++ (jstringifyElems ind x (y :: ys) ++ (w2 ++ ']' :: rest)) =
            (w ++ spacesL ind) ++ (jstringify ind x ++ (',' :: ('\n' ::
              (jstringifyElems ind y ys ++ (w2 ++ ']' :: rest))))) := by
          simp only [jstringifyElems]
          simp
        have hwsp : ∀ c ∈ w ++ spacesL ind, jsonWsChar c = true := by
          intro c hc
          rcases List.mem_append.mp hc with hc | hc
          · exact hw c hc
          · exact allWsJson_spaces ind c hc
        rw [hform, parseJVal_ws f _ _ hwsp,
          ihV x ind (',' :: ('\n' :: (jstringifyElems ind y ys ++ (w2 ++ ']' :: rest))))
            hszx hpx (by rw [List.headD_cons]; decide) (by rw [List.headD_cons]; decide)
            (by rw [List.headD_cons]; decide) (by rw [List.headD_cons]; decide)]
        have hs2 : skipWs (',' :: ('\n' :: (jstringifyElems ind y ys ++
            (w2 ++ ']' :: rest)))) = ',' :: ('\n' :: (jstringifyElems ind y ys ++
            (w2 ++ ']' :: rest))) := skipWs_cons_nonws ',' _ (by decide)
        show (match skipWs (',' :: ('\n' :: (jstringifyElems ind y ys ++
            (w2 ++ ']' :: rest)))) with
          | ',' :: r2 => (parseJElems f r2).map fun q => ((x :: q.1 : List Json), q.2)
          | ']' :: r2 => some ([x], r2)
          | _ => none) = some (x :: y :: ys, rest)
        rw [hs2]
        show (parseJElems f ('\n' :: (jstringifyElems ind y ys ++
          (w2 ++ ']' :: rest)))).map (fun q => ((x :: q.1 : List Json), q.2)) =
          some (x :: y :: ys, rest)
        rw [show ('\n' :: (jstringifyElems ind y ys ++ (w2 ++ ']' :: rest)) : Str) =
          ['\n'] ++ (jstringifyElems ind y ys ++ (w2 ++ ']' :: rest)) from rfl,
          ihE y ys ind ['\n'] w2 rest (by have := jsize_pos x; omega) hpy hpys
            allWsJson_nl hw2]
        rfl
    · intro k v fs ind w w2 rest hsz hpk hpv hpfs hw hw2
      simp only [jsizeFields] at hsz
      have hszv : jsize v < f := by omega
      rw [parseJFields_succ]
      have hwsp : ∀ c ∈ w ++ spacesL ind, jsonWsChar c = true := by
        intro c hc
        rcases List.mem_append.mp hc with hc | hc
        · exact hw c hc
        · exact allWsJson_spaces ind c hc
      cases fs with
      | nil =>
        have hform : w ++ (jstringifyFields ind (k, v) [] ++ (w2 ++ '}' :: rest)) =
            (w ++ spacesL ind) ++ ('"' :: (escapeJ k ++ ('"' :: (':' :: (' ' ::
              (jstringify ind v ++ (w2 ++ '}' :: rest))))))) := by
          simp only [jstringifyFields]
          simp
        have hskips : skipWs (w ++ (jstringifyFields ind (k, v) [] ++
            (w2 ++ '}' :: rest))) =
            '"' :: (escapeJ k ++ ('"' :: (':' :: (' ' ::
              (jstringify ind v ++ (w2 ++ '}' :: rest)))))) := by
          rw [hform, skipWs_ws_append _ _ hwsp]
          exact skipWs_cons_nonws '"' _ (by decide)
        rw [hskips]
        show ((parseJStr (escapeJ k ++ ('"' :: (':' :: (' ' ::
            (jstringify ind v ++ (w2 ++ '}' :: rest))))))).bind fun pk =>
          match skipWs pk.2 with
          | ':' :: r3 =>
            (parseJVal f r3).bind fun pv =>
              match skipWs pv.2 with
              | ',' :: r5 => (parseJFields f r5).map fun q => ((pk.1, pv.1) :: q.1, q.2)
              | '}' :: r5 => some ([(pk.1, pv.1)], r5)
              | _ => none
          | _ => none) = some ([(k, v)], rest)
        rw [escapeJ_plain k hpk, parseJStr_plain k hpk _]
        show ((parseJVal f (' ' :: (jstringify ind v ++ (w2 ++ '}' :: rest)))).bind
          fun pv =>
          match skipWs pv.2 with
          | ',' :: r5 => (parseJFields f r5).map fun q =>
              (((k, pv.1) : Str × Json) :: q.1, q.2)
          | '}' :: r5 => some ([(k, pv.1)], r5)
          | _ => none) = some ([(k, v)], rest)
        have hOK := headOK_wsClose w2 rest '}' hw2 ⟨by decide, by decide, by decide, by decide⟩
        rw [show (' ' :: (jstringify ind v ++ (w2 ++ '}' :: rest)) : Str) =
            [' '] ++ (jstringify ind v ++ (w2 ++ '}' :: rest)) from rfl,
          parseJVal_ws f [' '] _ allWsJson_space,
          ihV v ind (w2 ++ '}' :: rest) hszv hpv hOK.1 hOK.2.1 hOK.2.2.1 hOK.2.2.2]
        show (match skipWs (w2 ++ '}' :: rest) with
          | ',' :: r5 => (parseJFields f r5).map fun q =>
              (((k, v) : Str × Json) :: q.1, q.2)
          | '}' :: r5 => some ([(k, v)], r5)
          | _ => none) = some ([(k, v)], rest)
        have hs3 : skipWs (w2 ++ '}' :: rest) = '}' :: rest := by
          rw [skipWs_ws_append w2 _ hw2]
          exact skipWs_cons_nonws '}' rest (by decide)
        rw [hs3]
        rfl
      | cons g2 fs2 =>
        obtain ⟨k2, v2⟩ := g2
        simp only [plainJsonFields] at hpfs
        rw [Bool.and_eq_true, Bool.and_eq_true] at hpfs
        obtain ⟨⟨hpk2, hpv2⟩, hpfs2⟩ := hpfs
        have hform : w ++ (jstringifyFields ind (k, v) ((k2, v2) :: fs2) ++
            (w2 ++ '}' :: rest)) =
            (w ++ spacesL ind) ++ ('"' :: (escapeJ k ++ ('"' :: (':' :: (' ' ::
              (jstringify ind v ++ (',' :: ('\n' ::
                (jstringifyFields ind (k2, v2) fs2 ++ (w2 ++ '}' :: rest)))))))))) := by
          simp only [jstringifyFields]
          simp
        have hskips : skipWs (w ++ (jstringifyFields ind (k, v) ((k2, v2) :: fs2) ++
            (w2 ++ '}' :: rest))) =
            '"' :: (escapeJ k ++ ('"' :: (':' :: (' ' ::
              (jstringify ind v ++ (',' :: ('\n' ::
                (jstringifyFields ind (k2, v2) fs2 ++ (w2 ++ '}' :: rest))))))))) := by
          rw [hform, skipWs_ws_append _ _ hwsp]
          exact skipWs_cons_nonws '"' _ (by decide)
        rw [hskips]
        show ((parseJStr (escapeJ k ++ ('"' :: (':' :: (' ' ::
            (jstringify ind v ++ (',' :: ('\n' ::
              (jstringifyFields ind (k2, v2) fs2 ++ (w2 ++ '}' :: rest)))))))))).bind
          fun pk =>
          match skipWs pk.2 with
          | ':' :: r3 =>
            (parseJVal f r3).bind fun pv =>
              match skipWs pv.2 with
              | ',' :: r5 => (parseJFields f r5).map fun q => ((pk.1, pv.1) :: q.1, q.2)
              | '}' :: r5 => some ([(pk.1, pv.1)], r5)
              | _ => none
          | _ => none) = some ((k, v) :: (k2, v2) :: fs2, rest)
        rw [escapeJ_plain k hpk, parseJStr_plain k hpk _]
        show ((parseJVal f (' ' :: (jstringify ind v ++ (',' :: ('\n' ::
            (jstringifyFields ind (k2, v2) fs2 ++ (w2 ++ '}' :: rest))))))).bind
          fun pv =>
          match skipWs pv.2 with
          | ',' :: r5 => (parseJFields f r5).map fun q =>
              (((k, pv.1) : Str × Json) :: q.1, q.2)
          | '}' :: r5 => some ([(k, pv.1)], r5)
          | _ => none) = some ((k, v) :: (k2, v2) :: fs2, rest)
        rw [show (' ' :: (jstringify ind v ++ (',' :: ('\n' ::
            (jstringifyFields ind (k2, v2) fs2 ++ (w2 ++ '}' :: rest))))) : Str) =
            [' '] ++ (jstringify ind v ++ (',' :: ('\n' ::
            (jstringifyFields ind (k2, v2) fs2 ++ (w2 ++ '}' :: rest))))) from rfl,
          parseJVal_ws f [' '] _ allWsJson_space,
          ihV v ind (',' :: ('\n' :: (jstringifyFields ind (k2, v2) fs2 ++
            (w2 ++ '}' :: rest)))) hszv hpv (by rw [List.headD_cons]; decide)
            (by rw [List.headD_cons]; decide) (by rw [List.headD_cons]; decide)
            (by rw [List.headD_cons]; decide)]
        show (match skipWs (',' :: ('\n' ::
            (jstringifyFields ind (k2, v2) fs2 ++ (w2 ++ '}' :: rest)))) with
          | ',' :: r5 => (parseJFields f r5).map fun q =>
              (((k, v) : Str × Json) :: q.1, q.2)
          | '}' :: r5 => some ([(k, v)], r5)
          | _ => none) = some ((k, v) :: (k2, v2) :: fs2, rest)
        rw [skipWs_cons_nonws ',' _ (by decide)]
        show (parseJFields f ('\n' ::
            (jstringifyFields ind (k2, v2) fs2 ++ (w2 ++ '}' :: rest)))).map
          (fun q => (((k, v) : Str × Json) :: q.1, q.2)) =
          some ((k, v) :: (k2, v2) :: fs2, rest)
        rw [show ('\n' :: (jstringifyFields ind (k2, v2) fs2 ++ (w2 ++ '}' :: rest)) : Str) =
            ['\n'] ++ (jstringifyFields ind (k2, v2) fs2 ++ (w2 ++ '}' :: rest)) from rfl,
          ihF k2 v2 fs2 ind ['\n'] w2 rest (by have := jsize_pos v; omega) hpk2 hpv2
            hpfs2 allWsJson_nl hw2]
        rfl

theorem jsize_mem_le (u : Json) : ∀ xs : List Json, u ∈ xs → jsize u ≤ jsizeList xs := by
  intro xs
  induction xs with
  | nil => intro h; simp at h
  | cons x r ih =>
    intro h
    simp only [jsizeList]
    rcases List.mem_cons.mp h with rfl | h
    · omega
    · have := ih h
      omega

theorem jsize_mem_le_fields (u : Json) :
    ∀ fs : List (Str × Json), ∀ k, (k, u) ∈ fs → jsize u ≤ jsizeFields fs := by
  intro fs
  induction fs with
  | nil => intro k h; simp at h
  | cons g r ih =>
    intro k h
    obtain ⟨k1, v1⟩ := g
    simp only [jsizeFields]
    rcases List.mem_cons.mp h with heq | h
    · injection heq with _ hv
      subst hv
      omega
    · have := ih k h
      omega

theorem elems_len_aux : ∀ (xs : List Json) (x : Json) (ind : Nat),
    (∀ u ∈ x :: xs, ∀ ind' : Nat, jsize u ≤ (jstringify ind' u).length) → 1 ≤ ind →
    jsizeList (x :: xs) ≤ (jstringifyElems ind x xs).length := by
  intro xs
  induction xs with
  | nil =>
    intro x ind hA hind
    simp only [jstringifyElems, jsizeList, jsizeList.eq_1]
    have := hA x (by simp) ind
    simp only [List.length_append, spacesL, List.length_replicate]
    omega
  | cons y ys ih =>
    intro x ind hA hind
    simp only [jstringifyElems, jsizeList]
    have h1 := hA x (by simp) ind
    have h2 := ih y ind (fun u hu ind' => hA u (by
      rcases List.mem_cons.mp hu with rfl | hu
      · simp
      · simp [hu]) ind') hind
    simp only [jsizeList] at h2
    simp only [List.length_append, spacesL, List.length_replicate]
    have hc : (",\n".data : Str).length = 2 := rfl
    omega

theorem fields_len_aux : ∀ (fs : List (Str × Json)) (k : Str) (v : Json) (ind : Nat),
    (∀ u k', (k', u) ∈ (k, v) :: fs → ∀ ind' : Nat, jsize u ≤ (jstringify ind' u).length) →
    jsizeFields ((k, v) :: fs) ≤ (jstringifyFields ind (k, v) fs).length := by
  intro fs
  induction fs with
  | nil =>
    intro k v ind hA
    simp only [jstringifyFields, jsizeFields, jsizeFields.eq_1]
    have := hA v k (by simp) ind
    simp only [List.length_append, List.length_cons, spacesL, List.length_replicate]
    omega
  | cons g fs2 ih =>
    intro k v ind hA
    obtain ⟨k2, v2⟩ := g
    simp only [jstringifyFields, jsizeFields]
    have h1 := hA v k (by simp) ind
    have h2 := ih k2 v2 ind (fun u k' hu ind' => hA u k' (by
      rcases List.mem_cons.mp hu with heq | hu
      · simp [heq]
      · simp [hu]) ind')
    simp only [jsizeFields] at h2
    simp only [List.length_append, List.length_cons, spacesL, List.length_replicate]
    have hc : (",\n".data : Str).length = 2 := rfl
    omega

theorem jsize_le_length (v : Json) (ind : Nat) : jsize v ≤ (jstringify ind v).length := by
  have H : ∀ N : Nat, ∀ v : Json, ∀ ind : Nat, jsize v ≤ N →
      jsize v ≤ (jstringify ind v).length := by
    intro N
    induction N with
    | zero =>
      intro v ind h
      have := jsize_pos v
      omega
    | succ N ihN =>
      intro v ind h
      cases v with
      | null =>
        simp only [jstringify, jsize]
        decide
      | bool b =>
        cases b with
        | true =>
          simp only [jstringify, jsize]
          decide
        | false =>
          simp only [jstringify, jsize]
          decide
      | num n =>
        simp only [jstringify, jsize]
        have h1 : natToStr n.natAbs ≠ [] := (natToStr_spec _).1
        have h2 : 0 < (natToStr n.natAbs).length := List.length_pos.mpr h1
        unfold intToStr
        by_cases hs : n < 0
        · rw [if_pos hs]
          simp only [List.length_cons]
          omega
        · rw [if_neg hs]
          omega
      | str s =>
        simp only [jstringify, jsize]
        simp only [List.length_append, List.length_cons]
        omega
      | arr es =>
        cases es with
        | nil =>
          simp only [jstringify, jsize, jsizeList]
          decide
        | cons x xs =>
          simp only [jstringify, jsize] at h ⊢
          have hel := elems_len_aux xs x (ind + 2) (fun u hu ind' => ihN u ind' (by
            have := jsize_mem_le u (x :: xs) hu
            omega)) (by omega)
          simp only [List.length_append, List.length_cons, spacesL, List.length_replicate]
          have hc : ("[\n".data : Str).length = 2 := rfl
          have hd : ("]".data : Str).length = 1 := rfl
          omega
      | obj fs =>
        cases fs with
        | nil =>
          simp only [jstringify, jsize, jsizeFields]
          decide
        | cons g fs' =>
          obtain ⟨k, v2⟩ := g
          simp only [jstringify, jsize] at h ⊢
          have hfl := fields_len_aux fs' k v2 (ind + 2) (fun u k' hu ind' => ihN u ind' (by
            have := jsize_mem_le_fields u ((k, v2) :: fs') k' hu
            omega))
          simp only [List.length_append, List.length_cons, spacesL, List.length_replicate]
          have hc : ("\x7b\n".data : Str).length = 2 := rfl
          have hd : ("\x7d".data : Str).length = 1 := rfl
          omega
  exact H (jsize v) v ind (le_refl _)

theorem jsonParse_jstringify (v : Json) (h : plainJson v = true) :
    jsonParse (jstringify 0 v) = some v := by
  unfold jsonParse
  have hP := (parse_jstringify ((jstringify 0 v).length + 1)).1 v 0 []
    (by have := jsize_le_length v 0; omega) h (by decide) (by decide) (by decide) (by decide)
  rw [List.append_nil] at hP
  rw [hP]
  rfl

theorem startsW_append_nl (p : Str) (hp : ∀ c ∈ p, c ≠ '\n') :
    ∀ (a b : Str), startsW p (a ++ '\n' :: b) = true → startsW p a = true := by
  induction p with
  | nil => intro a b _; rfl
  | cons q ps ih =>
    intro a b h
    cases a with
    | nil =>
      rw [List.nil_append] at h
      simp only [startsW, Bool.and_eq_true, beq_iff_eq] at h
      exact absurd h.1 (hp q (by simp))
    | cons c a' =>
      rw [List.cons_append] at h
      simp only [startsW, Bool.and_eq_true] at h ⊢
      exact ⟨h.1, ih (fun x hx => hp x (by simp [hx])) a' b h.2⟩

theorem findSub_nl_skip (p' : Str) :
    ∀ (l rest : Str), l.contains '\n' = false → startsW p' rest = false →
    findSub ('\n' :: p') (l ++ '\n' :: rest) =
      (findSub ('\n' :: p') rest).map (· + (l.length + 1)) := by
  intro l
  induction l with
  | nil =>
    intro rest _ hr
    show (if startsW ('\n' :: p') ('\n' :: rest) then some 0
      else (findSub ('\n' :: p') rest).map (· + 1)) = _
    have hsw : startsW ('\n' :: p') ('\n' :: rest) = false := by
      simp [startsW, hr]
    rw [hsw]
    simp only [Bool.false_eq_true, if_false]
    cases hf : findSub ('\n' :: p') rest with
    | none => rfl
    | some k => rfl
  | cons c l' ih =>
    intro rest hl hr
    simp only [List.contains_cons, Bool.or_eq_false_iff] at hl
    have hc : c ≠ '\n' := by
      intro hcc
      subst hcc
      simp at hl
    show (if startsW ('\n' :: p') ((c :: l') ++ '\n' :: rest) then some 0
      else (findSub ('\n' :: p') (l' ++ '\n' :: rest)).map (· + 1)) = _
    have hsw : startsW ('\n' :: p') ((c :: l') ++ '\n' :: rest) = false := by
      rw [List.cons_append]
      show (('\n' : Char) == c && startsW p' (l' ++ '\n' :: rest)) = false
      have hb : (('\n' : Char) == c) = false := by
        simp only [beq_eq_false_iff_ne, ne_eq]
        exact fun h => hc h.symm
      rw [hb, Bool.false_and]
    rw [hsw]
    simp only [Bool.false_eq_true, if_false]
    rw [ih rest hl.2 hr]
    cases hf : findSub ('\n' :: p') rest with
    | none => rfl
    | some k =>
      simp only [Option.map_some']
      have : k + (l'.length + 1) + 1 = k + ((c :: l').length + 1) := by
        simp only [List.length_cons]
        omega
      rw [this]

theorem findSub_nl_hit (p' : Str) :
    ∀ (l rest : Str), l.contains '\n' = false → startsW p' rest = true →
    findSub ('\n' :: p') (l ++ '\n' :: rest) = some l.length := by
  intro l
  induction l with
  | nil =>
    intro rest _ hr
    show (if startsW ('\n' :: p') ('\n' :: rest) then some 0
      else (findSub ('\n' :: p') rest).map (· + 1)) = _
    have hsw : startsW ('\n' :: p') ('\n' :: rest) = true := by
      simp [startsW, hr]
    rw [hsw]
    rfl
  | cons c l' ih =>
    intro rest hl hr
    simp only [List.contains_cons, Bool.or_eq_false_iff] at hl
    have hc : c ≠ '\n' := by
      intro hcc
      subst hcc
      simp at hl
    show (if startsW ('\n' :: p') ((c :: l') ++ '\n' :: rest) then some 0
      else (findSub ('\n' :: p') (l' ++ '\n' :: rest)).map (· + 1)) = _
    have hsw : startsW ('\n' :: p') ((c :: l') ++ '\n' :: rest) = false := by
      rw [List.cons_append]
      show (('\n' : Char) == c && startsW p' (l' ++ '\n' :: rest)) = false
      have hb : (('\n' : Char) == c) = false := by
        simp only [beq_eq_false_iff_ne, ne_eq]
        exact fun h => hc h.symm
      rw [hb, Bool.false_and]
    rw [hsw]
    simp only [Bool.false_eq_true, if_false]
    rw [ih rest hl.2 hr]
    simp

theorem findSub_fence_lines :
    ∀ (L : List Str), (∀ l ∈ L, l.contains '\n' = false) →
    (∀ l ∈ L, startsW "```".data l = false) → L ≠ [] →
    findSub "\n```".data (joinLines L ++ "\n```".data) = some (joinLines L).length := by
  intro L
  induction L with
  | nil => intro _ _ h; exact absurd rfl h
  | cons l ls ih =>
    intro hnl hfr _
    cases ls with
    | nil =>
      show findSub ('\n' :: "```".data) (l ++ '\n' :: "```".data) = _
      rw [findSub_nl_hit "```".data l "```".data (hnl l (by simp)) (by decide)]
      rfl
    | cons l2 ls' =>
      have hJ : joinLines (l :: l2 :: ls') ++ "\n```".data =
          l ++ '\n' :: (joinLines (l2 :: ls') ++ "\n```".data) := by
        rw [joinLines_cons l (l2 :: ls') (by simp)]
        simp
      rw [hJ]
      have hrfalse : startsW "```".data (joinLines (l2 :: ls') ++ "\n```".data) = false := by
        have hshape : ∃ X, joinLines (l2 :: ls') ++ "\n```".data = l2 ++ '\n' :: X := by
          cases ls' with
          | nil => exact ⟨"```".data, rfl⟩
          | cons l3 ls'' =>
            refine ⟨joinLines (l3 :: ls'') ++ "\n```".data, ?_⟩
            rw [joinLines_cons l2 (l3 :: ls'') (by simp)]
            simp
        obtain ⟨X, hX⟩ := hshape
        rw [hX]
        cases hsw : startsW "```".data (l2 ++ '\n' :: X) with
        | false => rfl
        | true =>
          have := startsW_append_nl "```".data (by decide) l2 X hsw
          exact absurd this (by simp [hfr l2 (by simp)])
      show findSub ('\n' :: "```".data) (l ++ '\n' :: (joinLines (l2 :: ls') ++ "\n```".data)) = _
      rw [findSub_nl_skip "```".data l _ (hnl l (by simp)) hrfalse,
        ih (fun x hx => hnl x (by simp [hx])) (fun x hx => hfr x (by simp [hx])) (by simp)]
      simp only [Option.map_some']
      have : (joinLines (l2 :: ls')).length + (l.length + 1) =
          (joinLines (l :: l2 :: ls')).length := by
        rw [joinLines_cons l (l2 :: ls') (by simp)]
        simp only [List.length_append, List.length_cons]
        omega
      rw [this]

theorem rdropWhile_append_left (a t : Str) (hane : a ≠ [])
    (ha : jsWhitespace (a.getLastD 'x') = false) :
    (a ++ t).rdropWhile jsWhitespace = a ++ t.rdropWhile jsWhitespace := by
  obtain ⟨x, xs, hrev⟩ : ∃ x xs, a.reverse = x :: xs := by
    cases hr : a.reverse with
    | nil =>
      have h2 := congrArg List.reverse hr
      simp at h2
      exact absurd h2 hane
    | cons x xs => exact ⟨x, xs, rfl⟩
  have hx : x = a.getLastD 'x' := by
    have h1 : a.getLast? = some x := by
      rw [← List.head?_reverse, hrev]
      rfl
    rw [List.getLastD_eq_getLast?, h1]
    rfl
  have hxws : jsWhitespace x = false := by
    rw [hx]
    exact ha
  unfold List.rdropWhile
  rw [List.reverse_append, List.dropWhile_append]
  cases hds : (t.reverse.dropWhile jsWhitespace).isEmpty with
  | true =>
    rw [if_pos rfl, hrev, List.dropWhile_cons, if_neg (by simp [hxws]), ← hrev,
      List.reverse_reverse, List.isEmpty_iff.mp hds]
    simp
  | false =>
    rw [if_neg (by simp), List.reverse_append, List.reverse_reverse]

theorem startsW_fence_trim (l : Str) (h : startsW "```".data l = true) :
    startsW "```".data (trimL l) = true := by
  obtain ⟨t, ht⟩ : ∃ t, l = "```".data ++ t := by
    cases l with
    | nil => simp [startsW] at h
    | cons c1 r1 =>
      cases r1 with
      | nil => simp [startsW] at h
      | cons c2 r2 =>
        cases r2 with
        | nil => simp [startsW] at h
        | cons c3 r3 =>
          simp only [startsW, Bool.and_eq_true, beq_iff_eq] at h
          obtain ⟨h1, h2, h3, _⟩ := h
          subst h1
          subst h2
          subst h3
          exact ⟨r3, rfl⟩
  subst ht
  unfold trimL
  have hd : (("```".data : Str) ++ t).dropWhile jsWhitespace = "```".data ++ t := by
    rw [show ("```".data : Str) ++ t = '`' :: ("``".data ++ t) from rfl,
      List.dropWhile_cons, if_neg (by decide)]
  rw [hd, rdropWhile_append_left "```".data t (by decide) (by decide)]
  exact startsW_self_append _ _

theorem mem_of_mem_splitOnCharL (sep : Char) :
    ∀ (s : Str) (l : Str), l ∈ splitOnCharL sep s → ∀ c ∈ l, c ∈ s := by
  intro s
  induction s with
  | nil =>
    intro l hl c hc
    simp only [splitOnCharL, List.mem_singleton] at hl
    subst hl
    simp at hc
  | cons a r ih =>
    intro l hl c hc
    by_cases ha : a = sep
    · have heq : splitOnCharL sep (a :: r) = [] :: splitOnCharL sep r := by
        show (if a = sep then [] :: splitOnCharL sep r
          else match splitOnCharL sep r with
            | [] => [[a]]
            | l :: ls => (a :: l) :: ls) = [] :: splitOnCharL sep r
        rw [if_pos ha]
      rw [heq] at hl
      rcases List.mem_cons.mp hl with rfl | hl
      · simp at hc
      · exact List.mem_cons_of_mem a (ih l hl c hc)
    · obtain ⟨l0, ls, hs, heq⟩ : ∃ l0 ls, splitOnCharL sep r = l0 :: ls ∧
          splitOnCharL sep (a :: r) = (a :: l0) :: ls := by
        cases hs : splitOnCharL sep r with
        | nil => exact absurd hs (splitOnCharL_ne_nil sep r)
        | cons l0 ls =>
          refine ⟨l0, ls, rfl, ?_⟩
          show (if a = sep then [] :: splitOnCharL sep r
            else match splitOnCharL sep r with
              | [] => [[a]]
              | l :: ls => (a :: l) :: ls) = (a :: l0) :: ls
          rw [if_neg ha, hs]
      rw [heq] at hl
      rcases List.mem_cons.mp hl with rfl | hl
      · rcases List.mem_cons.mp hc with rfl | hc
        · simp
        · exact List.mem_cons_of_mem a (ih l0 (by rw [hs]; simp) c hc)
      · exact List.mem_cons_of_mem a (ih l (by rw [hs]; simp [hl]) c hc)

theorem mem_of_mem_trimL (l : Str) (c : Char) (h : c ∈ trimL l) : c ∈ l := by
  unfold trimL at h
  have h1 : c ∈ l.dropWhile jsWhitespace :=
    ( List.rdropWhile_prefix jsWhitespace (l.dropWhile jsWhitespace)).subset h
  exact (List.dropWhile_suffix jsWhitespace).subset h1

theorem startsW_fence_bt_mem (t : Str) (h : startsW "```".data t = true) : '`' ∈ t := by
  cases t with
  | nil => simp [startsW] at h
  | cons c r =>
    simp only [startsW, Bool.and_eq_true, beq_iff_eq] at h
    rw [← h.1]
    simp

theorem plainJsonList_mem : ∀ (xs : List Json), plainJsonList xs = true →
    ∀ u ∈ xs, plainJson u = true := by
  intro xs
  induction xs with
  | nil => intro _ u hu; simp at hu
  | cons x r ih =>
    intro h u hu
    simp only [plainJsonList] at h
    rw [Bool.and_eq_true] at h
    rcases List.mem_cons.mp hu with rfl | hu
    · exact h.1
    · exact ih h.2 u hu

theorem plainJsonFields_mem : ∀ (fs : List (Str × Json)), plainJsonFields fs = true →
    ∀ p ∈ fs, plainJStr p.1 = true ∧ plainJson p.2 = true := by
  intro fs
  induction fs with
  | nil => intro _ p hp; simp at hp
  | cons g r ih =>
    intro h p hp
    obtain ⟨k, v⟩ := g
    simp only [plainJsonFields] at h
    rw [Bool.and_eq_true, Bool.and_eq_true] at h
    rcases List.mem_cons.mp hp with rfl | hp
    · exact ⟨h.1.1, h.1.2⟩
    · exact ih h.2 p hp

theorem bt_not_mem_natToStr (n : Nat) : '`' ∉ natToStr n := by
  intro h
  have := (natToStr_spec n).2 '`' h
  exact absurd this (by decide)

theorem bt_not_mem_intToStr (n : Int) : '`' ∉ intToStr n := by
  intro h
  unfold intToStr at h
  by_cases hs : n < 0
  · rw [if_pos hs] at h
    rcases List.mem_cons.mp h with h | h
    · exact absurd h (by decide)
    · exact bt_not_mem_natToStr _ h
  · rw [if_neg hs] at h
    exact bt_not_mem_natToStr _ h

theorem bt_not_mem_plainJStr (s : Str) (h : plainJStr s = true) : '`' ∉ s := by
  intro hm
  have := List.all_eq_true.mp h '`' hm
  unfold plainJChar at this
  simp at this

theorem not_mem_app {c : Char} {a b : Str} (ha : c ∉ a) (hb : c ∉ b) : c ∉ a ++ b :=
  fun hm => (List.mem_append.mp hm).elim ha hb

theorem not_mem_cons {c d : Char} {b : Str} (hc : d ≠ c) (hb : c ∉ b) : c ∉ d :: b :=
  fun hm => (List.mem_cons.mp hm).elim (fun h => hc h.symm) hb

theorem bt_not_mem_spaces (k : Nat) : '`' ∉ spacesL k := fun hm =>
  absurd (List.eq_of_mem_replicate hm) (by decide)

theorem bt_elems_aux : ∀ (xs : List Json) (x : Json) (ind : Nat),
    (∀ u ∈ x :: xs, ∀ ind' : Nat, '`' ∉ jstringify ind' u) →
    '`' ∉ jstringifyElems ind x xs := by
  intro xs
  induction xs with
  | nil =>
    intro x ind hA
    simp only [jstringifyElems]
    exact not_mem_app (bt_not_mem_spaces ind) (hA x (by simp) ind)
  | cons y ys ih =>
    intro x ind hA
    simp only [jstringifyElems]
    exact not_mem_app (not_mem_app (not_mem_app (bt_not_mem_spaces ind)
      (hA x (by simp) ind)) (by decide))
      (ih y ind (fun u hu ind' => hA u (by
        rcases List.mem_cons.mp hu with rfl | hu
        · simp
        · simp [hu]) ind'))

theorem bt_fields_aux : ∀ (fs : List (Str × Json)) (k : Str) (v : Json) (ind : Nat),
    (∀ p ∈ (k, v) :: fs, plainJStr p.1 = true) →
    (∀ u k', (k', u) ∈ (k, v) :: fs → ∀ ind' : Nat, '`' ∉ jstringify ind' u) →
    '`' ∉ jstringifyFields ind (k, v) fs := by
  intro fs
  induction fs with
  | nil =>
    intro k v ind hK hA
    simp only [jstringifyFields]
    rw [escapeJ_plain k (hK (k, v) (by simp))]
    have h1 := bt_not_mem_spaces ind
    have h2 := bt_not_mem_plainJStr k (hK (k, v) (by simp))
    have h3 := hA v k (by simp) ind
    simp [List.mem_append, List.mem_cons, h1, h2, h3]
  | cons g fs2 ih =>
    intro k v ind hK hA
    obtain ⟨k2, v2⟩ := g
    simp only [jstringifyFields]
    rw [escapeJ_plain k (hK (k, v) (by simp))]
    have h1 := bt_not_mem_spaces ind
    have h2 := bt_not_mem_plainJStr k (hK (k, v) (by simp))
    have h3 := hA v k (by simp) ind
    have h4 := ih k2 v2 ind (fun p hp => hK p (by simp [List.mem_cons.mp hp]))
      (fun u k' hu ind' => hA u k' (by
        rcases List.mem_cons.mp hu with heq | hu
        · simp [heq]
        · simp [hu]) ind')
    simp [List.mem_append, List.mem_cons, h1, h2, h3, h4]

theorem bt_not_mem_jstringify (v : Json) (ind : Nat) (hpl : plainJson v = true) :
    '`' ∉ jstringify ind v := by
  have H : ∀ N : Nat, ∀ v : Json, ∀ ind : Nat, jsize v ≤ N → plainJson v = true →
      '`' ∉ jstringify ind v := by
    intro N
    induction N with
    | zero =>
      intro v ind h _
      have := jsize_pos v
      omega
    | succ N ihN =>
      intro v ind h hpl
      cases v with
      | null =>
        simp only [jstringify]
        decide
      | bool b =>
        cases b with
        | true => simp only [jstringify]; decide
        | false => simp only [jstringify]; decide
      | num n =>
        simp only [jstringify]
        exact bt_not_mem_intToStr n
      | str s =>
        simp only [plainJson] at hpl
        simp only [jstringify]
        rw [escapeJ_plain s hpl]
        exact not_mem_app (not_mem_cons (by decide) (bt_not_mem_plainJStr s hpl))
          (by decide)
      | arr es =>
        cases es with
        | nil => simp only [jstringify]; decide
        | cons x xs =>
          simp only [jsize] at h
          simp only [plainJson] at hpl
          simp only [jstringify]
          have h1 := bt_elems_aux xs x (ind + 2) (fun u hu ind' => ihN u ind' (by
            have := jsize_mem_le u (x :: xs) hu
            omega) (plainJsonList_mem (x :: xs) hpl u hu))
          have h2 := bt_not_mem_spaces ind
          simp [List.mem_append, List.mem_cons, h1, h2]
      | obj fs =>
        cases fs with
        | nil => simp only [jstringify]; decide
        | cons g fs' =>
          obtain ⟨k, v2⟩ := g
          simp only [jsize] at h
          simp only [plainJson] at hpl
          rw [Bool.and_eq_true] at hpl
          simp only [jstringify]
          have h1 := bt_fields_aux fs' k v2 (ind + 2)
            (fun p hp => (plainJsonFields_mem _ hpl.1 p hp).1)
            (fun u k' hu ind' => ihN u ind' (by
              have := jsize_mem_le_fields u ((k, v2) :: fs') k' hu
              omega) (plainJsonFields_mem _ hpl.1 (k', u) hu).2)
          have h2 := bt_not_mem_spaces ind
          simp [List.mem_append, List.mem_cons, h1, h2]
  exact H (jsize v) v ind (le_refl _) hpl

theorem matchTagHere_block (tag S : Str) (hS : S ≠ [])
    (hhead : jsWhitespace (S.headD 'x') = false)
    (hfind : findSub "\n```".data (S ++ "\n```".data) = some S.length) :
    matchTagHere tag (tag ++ ('\n' :: (S ++ "\n```".data))) = some S := by
  obtain ⟨c0, S', hS0⟩ : ∃ c0 S', S = c0 :: S' := by
    cases S with
    | nil => exact absurd rfl hS
    | cons a l => exact ⟨a, l, rfl⟩
  have hc0 : jsWhitespace c0 = false := by
    rw [hS0, List.headD_cons] at hhead
    exact hhead
  unfold matchTagHere
  rw [if_pos (startsW_self_append tag _)]
  dsimp only
  rw [List.drop_left]
  have hw : ('\n' :: (S ++ "\n```".data)).takeWhile jsWhitespace = ['\n'] := by
    rw [List.takeWhile_cons_of_pos (by decide), hS0, List.cons_append,
      List.takeWhile_cons_of_neg (by simp [hc0])]
  rw [hw]
  rw [show (List.range (['\n'] : Str).length).reverse = [0] from rfl]
  have hdrop : ('\n' :: (S ++ "\n```".data)).drop (0 + 1) = S ++ "\n```".data := rfl
  have hfindv : List.find? (fun k => ('\n' :: (S ++ "\n```".data)).getD k ' ' == '\n' &&
      (findSub "\n```".data (('\n' :: (S ++ "\n```".data)).drop (k + 1))).isSome) [0] =
      some 0 := by
    rw [List.find?_cons]
    dsimp only
    rw [hdrop, hfind]
    rfl
  rw [hfindv]
  show (match findSub "\n```".data (('\n' :: (S ++ "\n```".data)).drop (0 + 1)) with
    | some m => some ((('\n' :: (S ++ "\n```".data)).drop (0 + 1)).take m)
    | none => none) = some S
  rw [hdrop, hfind]
  show some ((S ++ "\n```".data).take S.length) = some S
  rw [List.take_left]

theorem matchTagHere_block_empty (tag : Str) :
    matchTagHere tag (tag ++ ('\n' :: "\n```".data)) = some [] := by
  unfold matchTagHere
  rw [if_pos (startsW_self_append tag _)]
  dsimp only
  rw [List.drop_left]
  rfl

theorem matchTaggedBlock_here (tag s b : Str) (h : matchTagHere tag s = some b) :
    matchTaggedBlock tag s = some b := by
  cases s with
  | nil => exact h
  | cons c r =>
    show (match matchTagHere tag (c :: r) with
      | some b => some b
      | none => matchTaggedBlock tag r) = some b
    rw [h]

theorem applySection_claude_md_of_name (acc : Sections) (p : Str × Str)
    (hp : p.1 = "claude_md".data) : (applySection acc p).claude_md = p.2 := by
  unfold applySection
  rw [if_pos hp]

theorem applySection_claude_md_of_ne (acc : Sections) (p : Str × Str)
    (hp : p.1 ≠ "claude_md".data) : (applySection acc p).claude_md = acc.claude_md := by
  unfold applySection
  split_ifs <;> first | rfl | exact absurd ‹_› hp

theorem foldl_applySection_claude_md :
    ∀ (spans : List (Str × Str)) (acc : Sections),
      (spans.foldl applySection acc).claude_md =
        ((spans.filter (fun p => p.1 == "claude_md".data)).getLast?).elim acc.claude_md
          (fun p => p.2) := by
  intro spans
  induction spans with
  | nil => intro acc; rfl
  | cons p rest ih =>
    intro acc
    rw [List.foldl_cons, List.filter_cons]
    by_cases hp : p.1 = "claude_md".data
    · rw [if_pos (by simp [hp]), ih (applySection acc p),
        applySection_claude_md_of_name acc p hp]
      cases hl : (rest.filter (fun q => q.1 == "claude_md".data)).getLast? with
      | none =>
        have hnil : rest.filter (fun q => q.1 == "claude_md".data) = [] :=
          List.getLast?_eq_none_iff.mp hl
        rw [hnil]
        rfl
      | some q =>
        have hx : (p :: rest.filter (fun q => q.1 == "claude_md".data)).getLast? = some q := by
          cases hfr : rest.filter (fun q => q.1 == "claude_md".data) with
          | nil => rw [hfr] at hl; cases hl
          | cons a as =>
            rw [List.getLast?_cons_cons, ← hfr, hl]
        rw [hx]
        rfl
    · rw [if_neg (by simp [hp]), ih (applySection acc p),
        applySection_claude_md_of_ne acc p hp]

theorem applySection_agents_of_name (acc : Sections) (p : Str × Str)
    (hp : p.1 = "agents".data) : (applySection acc p).agents = extractNamedSubsections p.2 := by
  unfold applySection
  rw [if_neg (by rw [hp]; decide), if_neg (by rw [hp]; decide), if_neg (by rw [hp]; decide), if_pos hp]

theorem applySection_agents_of_ne (acc : Sections) (p : Str × Str)
    (hp : p.1 ≠ "agents".data) : (applySection acc p).agents = acc.agents := by
  unfold applySection
  split_ifs <;> first | rfl | exact absurd ‹_› hp

theorem foldl_applySection_agents :
    ∀ (spans : List (Str × Str)) (acc : Sections),
      (spans.foldl applySection acc).agents =
        ((spans.filter (fun p => p.1 == "agents".data)).getLast?).elim acc.agents
          (fun p => extractNamedSubsections p.2) := by
  intro spans
  induction spans with
  | nil => intro acc; rfl
  | cons p rest ih =>
    intro acc
    rw [List.foldl_cons, List.filter_cons]
    by_cases hp : p.1 = "agents".data
    · rw [if_pos (by simp [hp]), ih (applySection acc p),
        applySection_agents_of_name acc p hp]
      cases hl : (rest.filter (fun q => q.1 == "agents".data)).getLast? with
      | none =>
        have hnil : rest.filter (fun q => q.1 == "agents".data) = [] :=
          List.getLast?_eq_none_iff.mp hl
        rw [hnil]
        rfl
      | some q =>
        have hx : (p :: rest.filter (fun q => q.1 == "agents".data)).getLast? = some q := by
          cases hfr : rest.filter (fun q => q.1 == "agents".data) with
          | nil => rw [hfr] at hl; cases hl
          | cons a as =>
            rw [List.getLast?_cons_cons, ← hfr, hl]
        rw [hx]
        rfl
    · rw [if_neg (by simp [hp]), ih (applySection acc p),
        applySection_agents_of_ne acc p hp]

theorem applySection_mcp_servers_of_name (acc : Sections) (p : Str × Str)
    (hp : p.1 = "mcp_servers".data) : (applySection acc p).mcp_servers = jsonOrEmpty p.2 := by
  unfold applySection
  rw [if_neg (by rw [hp]; decide), if_neg (by rw [hp]; decide), if_neg (by rw [hp]; decide), if_neg (by rw [hp]; decide), if_pos hp]

theorem applySection_mcp_servers_of_ne (acc : Sections) (p : Str × Str)
    (hp : p.1 ≠ "mcp_servers".data) : (applySection acc p).mcp_servers = acc.mcp_servers := by
  unfold applySection
  split_ifs <;> first | rfl | exact absurd ‹_› hp

theorem foldl_applySection_mcp_servers :
    ∀ (spans : List (Str × Str)) (acc : Sections),
      (spans.foldl applySection acc).mcp_servers =
        ((spans.filter (fun p => p.1 == "mcp_servers".data)).getLast?).elim acc.mcp_servers
          (fun p => jsonOrEmpty p.2) := by
  intro spans
  induction spans with
  | nil => intro acc; rfl
  | cons p rest ih =>
    intro acc
    rw [List.foldl_cons, List.filter_cons]
    by_cases hp : p.1 = "mcp_servers".data
    · rw [if_pos (by simp [hp]), ih (applySection acc p),
        applySection_mcp_servers_of_name acc p hp]
      cases hl : (rest.filter (fun q => q.1 == "mcp_servers".data)).getLast? with
      | none =>
        have hnil : rest.filter (fun q => q.1 == "mcp_servers".data) = [] :=
          List.getLast?_eq_none_iff.mp hl
        rw [hnil]
        rfl
      | some q =>
        have hx : (p :: rest.filter (fun q => q.1 == "mcp_servers".data)).getLast? = some q := by
          cases hfr : rest.filter (fun q => q.1 == "mcp_servers".data) with
          | nil => rw [hfr] at hl; cases hl
          | cons a as =>
            rw [List.getLast?_cons_cons, ← hfr, hl]
        rw [hx]
        rfl
    · rw [if_neg (by simp [hp]), ih (applySection acc p),
        applySection_mcp_servers_of_ne acc p hp]

theorem applySection_external_skills_of_name (acc : Sections) (p : Str × Str)
    (hp : p.1 = "external_skills".data) : (applySection acc p).external_skills = parseExternalSkillsTable p.2 := by
  unfold applySection
  rw [if_neg (by rw [hp]; decide), if_neg (by rw [hp]; decide), if_neg (by rw [hp]; decide), if_neg (by rw [hp]; decide), if_neg (by rw [hp]; decide), if_pos hp]

theorem applySection_external_skills_of_ne (acc : Sections) (p : Str × Str)
    (hp : p.1 ≠ "external_skills".data) : (applySection acc p).external_skills = acc.external_skills := by
  unfold applySection
  split_ifs <;> first | rfl | exact absurd ‹_› hp

theorem foldl_applySection_external_skills :
    ∀ (spans : List (Str × Str)) (acc : Sections),
      (spans.foldl applySection acc).external_skills =
        ((spans.filter (fun p => p.1 == "external_skills".data)).getLast?).elim acc.external_skills
          (fun p => parseExternalSkillsTable p.2) := by
  intro spans
  induction spans with
  | nil => intro acc; rfl
  | cons p rest ih =>
    intro acc
    rw [List.foldl_cons, List.filter_cons]
    by_cases hp : p.1 = "external_skills".data
    · rw [if_pos (by simp [hp]), ih (applySection acc p),
        applySection_external_skills_of_name acc p hp]
      cases hl : (rest.filter (fun q => q.1 == "external_skills".data)).getLast? with
      | none =>
        have hnil : rest.filter (fun q => q.1 == "external_skills".data) = [] :=
          List.getLast?_eq_none_iff.mp hl
        rw [hnil]
        rfl
      | some q =>
        have hx : (p :: rest.filter (fun q => q.1 == "external_skills".data)).getLast? = some q := by
          cases hfr : rest.filter (fun q => q.1 == "external_skills".data) with
          | nil => rw [hfr] at hl; cases hl
          | cons a as =>
            rw [List.getLast?_cons_cons, ← hfr, hl]
        rw [hx]
        rfl
    · rw [if_neg (by simp [hp]), ih (applySection acc p),
        applySection_external_skills_of_ne acc p hp]

theorem isFenceLine_nil : isFenceLine [] = false := rfl

theorem isHeadingLine_nil (m : Str) : isHeadingLine m [] = false := by
  unfold isHeadingLine
  have h1 : trimL [] = [] := rfl
  rw [h1]
  simp

theorem scan_fenced_block (m : Str) (hm : m.headD 'x' = '#') (lopen lclose : Str)
    (body : List Str) (ho : isFenceLine lopen = true) (hc : isFenceLine lclose = true)
    (hb : ∀ l ∈ body, isFenceLine l = false) :
    (∀ (lo : Bool) (p : Nat),
      findHeadingsGo m lo (lopen :: body ++ [lclose, []]) false p = []) ∧
      fenceTgl (lopen :: body ++ [lclose, []]) false = false := by
  have hsplit : lopen :: body ++ [lclose, []] = (lopen :: body ++ [lclose]) ++ [[]] := by
    simp
  constructor
  · intro lo p
    obtain ⟨hscan, htgl⟩ := findHeadingsGo_fenced m lo hm lopen lclose body ho hc hb
    rw [hsplit, findHeadingsGo_append, hscan p, htgl, List.nil_append]
    apply findHeadingsGo_nil_inert
    intro l hl
    simp only [List.mem_singleton] at hl
    subst hl
    exact ⟨isFenceLine_nil, isHeadingLine_nil m⟩
  · obtain ⟨_, htgl⟩ := findHeadingsGo_fenced m true hm lopen lclose body ho hc hb
    rw [hsplit, fenceTgl_append, htgl, fenceTgl_cons, isFenceLine_nil]
    rfl

theorem lines_noBt (s : Str) (h : '`' ∉ s) :
    ∀ l ∈ splitLines s, isFenceLine l = false ∧ startsW "```".data l = false := by
  intro l hl
  have hls : ∀ c ∈ l, c ∈ s := mem_of_mem_splitOnCharL '\n' s l hl
  constructor
  · cases hsw : isFenceLine l with
    | false => rfl
    | true =>
      exfalso
      unfold isFenceLine at hsw
      exact h (hls '`' (mem_of_mem_trimL l '`' (startsW_fence_bt_mem _ hsw)))
  · cases hsw : startsW "```".data l with
    | false => rfl
    | true => exact absurd (hls '`' (startsW_fence_bt_mem _ hsw)) h

theorem lines_fenceFree_raw (s : Str) (hf : fenceFreeLines s = true) :
    ∀ l ∈ splitLines s, startsW "```".data l = false := by
  intro l hl
  unfold fenceFreeLines at hf
  have h1 := List.all_eq_true.mp hf l hl
  cases hsw : startsW "```".data l with
  | false => rfl
  | true =>
    have h2 := startsW_fence_trim l hsw
    rw [h2] at h1
    simp at h1

theorem lines_fenceFree_isFence (s : Str) (hf : fenceFreeLines s = true) :
    ∀ l ∈ splitLines s, isFenceLine l = false := by
  intro l hl
  unfold fenceFreeLines at hf
  have h1 := List.all_eq_true.mp hf l hl
  unfold isFenceLine
  cases hsw : startsW "```".data (trimL l) with
  | false => rfl
  | true =>
    rw [hsw] at h1
    simp at h1

theorem jsonOrEmpty_block (fields : List (Str × Json))
    (hpl : plainJson (.obj fields) = true) :
    jsonOrEmpty (trimL (joinLines ("```json".data ::
      splitLines (jstringify 0 (.obj fields)) ++ ["```".data, []]))) = .obj fields := by
  obtain ⟨c, t, hct, hcws, hcws2, _, _, _⟩ := jstringify_head 0 (.obj fields)
  have hSne : jstringify 0 (.obj fields) ≠ [] := by
    rw [hct]
    simp
  have hT : joinLines ("```json".data ::
      splitLines (jstringify 0 (.obj fields)) ++ ["```".data, []]) =
      ("```json".data ++ ('\n' :: (jstringify 0 (.obj fields) ++ "\n```".data))) ++ ['\n'] := by
    rw [List.cons_append, joinLines_cons _ _ (by simp),
      joinLines_append (splitLines (jstringify 0 (.obj fields))) ["```".data, []]
        (splitOnCharL_ne_nil '\n' _) (by simp),
      joinLines_splitLines]
    show "```json".data ++ '\n' :: (jstringify 0 (.obj fields) ++
      '\n' :: ("```".data ++ '\n' :: [])) = _
    simp
  rw [hT, trimL_snoc_nl]
  have hfind : findSub "\n```".data
      (jstringify 0 (.obj fields) ++ "\n```".data) =
      some (jstringify 0 (.obj fields)).length := by
    have hbt : '`' ∉ jstringify 0 (.obj fields) := bt_not_mem_jstringify _ 0 hpl
    have h1 := findSub_fence_lines (splitLines (jstringify 0 (.obj fields)))
      (noNl_mem_splitLines _)
      (fun l hl => (lines_noBt _ hbt l hl).2)
      (splitOnCharL_ne_nil '\n' _)
    rw [joinLines_splitLines] at h1
    exact h1
  have htr : trimL ("```json".data ++
      ('\n' :: (jstringify 0 (.obj fields) ++ "\n```".data))) =
      "```json".data ++ ('\n' :: (jstringify 0 (.obj fields) ++ "\n```".data)) := by
    apply trimL_eq_self_of_ends
    · rw [headD_append_left _ _ _ (by decide)]
      decide
    · rw [getLastD_append_right _ _ _ (by simp), List.getLastD_cons,
        getLastD_append_right _ _ _ (by decide)]
      decide
  rw [htr]
  unfold jsonOrEmpty extractJsonBlock
  rw [matchTaggedBlock_here _ _ _ (matchTagHere_block "```json".data _ hSne
    (by rw [hct]; rw [List.headD_cons]; exact hcws2) hfind), Option.some_bind,
    jsonParse_jstringify _ hpl]
  rfl

theorem contains_eq_false_of_not_mem {c : Char} {l : Str} (h : c ∉ l) :
    l.contains c = false := by
  simpa using h

theorem not_mem_of_contains_eq_false {c : Char} {l : Str} (h : l.contains c = false) :
    c ∉ l := by
  simpa using h

theorem dropWhile_headD_ws (l : Str) :
    jsWhitespace ((l.dropWhile jsWhitespace).headD 'x') = false := by
  induction l with
  | nil => decide
  | cons c r ih =>
    cases hc : jsWhitespace c with
    | true =>
      rw [List.dropWhile_cons, hc, if_pos rfl]
      exact ih
    | false =>
      rw [List.dropWhile_cons, hc, if_neg (by simp), List.headD_cons]
      exact hc

theorem getLastD_reverse_headD (l : Str) (d : Char) :
    (l.reverse).getLastD d = l.headD d := by
  rw [List.getLastD_eq_getLast?, List.getLast?_reverse]
  cases l <;> rfl

theorem trimL_headD_ws (s : Str) : jsWhitespace ((trimL s).headD 'x') = false := by
  cases hts : trimL s with
  | nil => decide
  | cons c t =>
    have hpre : trimL s <+: s.dropWhile jsWhitespace := by
      unfold trimL
      exact ( List.rdropWhile_prefix jsWhitespace (s.dropWhile jsWhitespace))
    obtain ⟨u, hu⟩ := hpre
    have hD := dropWhile_headD_ws s
    rw [← hu, hts, List.cons_append, List.headD_cons] at hD
    rw [List.headD_cons]
    exact hD

theorem trimL_getLastD_ws (s : Str) : jsWhitespace ((trimL s).getLastD 'x') = false := by
  show jsWhitespace
    (((s.dropWhile jsWhitespace).rdropWhile jsWhitespace).getLastD 'x') = false
  unfold List.rdropWhile
  rw [getLastD_reverse_headD]
  exact dropWhile_headD_ws _

theorem trimL_idem (s : Str) : trimL (trimL s) = trimL s :=
  trimL_eq_self_of_ends _ (trimL_headD_ws s) (trimL_getLastD_ws s)

theorem headD_joinLines (y : Str) (ys : List Str) (hy : y ≠ []) (d : Char) :
    (joinLines (y :: ys)).headD d = y.headD d := by
  cases ys with
  | nil => rfl
  | cons a as =>
    rw [joinLines_cons y (a :: as) (by simp), headD_append_left _ _ _ hy]

theorem joinLines_getLast :
    ∀ (L : List Str) (last : Str), L.getLast? = some last → last ≠ [] →
      joinLines L ≠ [] ∧ ∀ d, (joinLines L).getLastD d = last.getLastD d := by
  intro L
  induction L with
  | nil => intro last h _; simp at h
  | cons y ys ih =>
    intro last h hlast
    cases ys with
    | nil =>
      have hy : y = last := by simpa using h
      subst hy
      exact ⟨hlast, fun d => rfl⟩
    | cons a as =>
      rw [List.getLast?_cons_cons] at h
      obtain ⟨hne, hd⟩ := ih last h hlast
      constructor
      · rw [joinLines_cons y (a :: as) (by simp)]
        simp
      · intro d
        rw [joinLines_cons y (a :: as) (by simp),
          getLastD_append_right y _ d (by simp),
          show ('\n' :: joinLines (a :: as)) = ['\n'] ++ joinLines (a :: as) from rfl,
          getLastD_append_right _ _ d hne]
        exact hd d

theorem flatMap_blockLines_cons (m : Str) (b : Str × List Str)
    (bs : List (Str × List Str)) :
    (b :: bs).flatMap (blockLines m) = (m ++ b.1) :: (b.2 ++ bs.flatMap (blockLines m)) := by
  rw [List.flatMap_cons]
  rfl

theorem flatMap_blockLines_ne_nil (m : Str) (bs : List (Str × List Str)) (h : bs ≠ []) :
    bs.flatMap (blockLines m) ≠ [] := by
  cases bs with
  | nil => exact absurd rfl h
  | cons b t =>
    rw [flatMap_blockLines_cons]
    simp

theorem subBlocksTrim_ne_nil (ps : List (Str × Str)) (h : ps ≠ []) :
    subBlocksTrim ps ≠ [] := by
  cases ps with
  | nil => exact absurd rfl h
  | cons p rest =>
    cases rest with
    | nil => exact List.cons_ne_nil _ _
    | cons q r => exact List.cons_ne_nil _ _

theorem subBlocksTrim_snd_ne :
    ∀ (ps : List (Str × Str)), ∀ b ∈ subBlocksTrim ps, b.2 ≠ [] := by
  intro ps
  induction ps with
  | nil =>
    intro b hb
    rw [show subBlocksTrim ([] : List (Str × Str)) = [] from rfl] at hb
    simp at hb
  | cons p rest ih =>
    intro b hb
    cases rest with
    | nil =>
      rw [show subBlocksTrim [p] =
        [(p.1, "```markdown".data :: splitLines (trimL p.2) ++ ["```".data])] from rfl] at hb
      simp only [List.mem_singleton] at hb
      subst hb
      simp
    | cons q r =>
      rw [show subBlocksTrim (p :: q :: r) =
        (p.1, mdLines p) :: subBlocksTrim (q :: r) from rfl] at hb
      rcases List.mem_cons.mp hb with rfl | hb
      · simp [mdLines]
      · exact ih b hb

theorem joinLines_subChunks :
    ∀ (ps : List (Str × Str)), ps ≠ [] →
      joinLines (ps.flatMap fun p => blockLines "### ".data (p.1, mdLines p)) =
        joinLines ((subBlocksTrim ps).flatMap (blockLines "### ".data)) ++ ['\n'] := by
  intro ps
  induction ps with
  | nil => intro h; exact absurd rfl h
  | cons p rest ih =>
    intro _
    cases rest with
    | nil =>
      rw [show ([p].flatMap fun x => blockLines "### ".data (x.1, mdLines x)) =
          blockLines "### ".data (p.1, mdLines p) from by simp]
      rw [show (subBlocksTrim [p]).flatMap (blockLines "### ".data) =
          blockLines "### ".data (p.1, "```markdown".data :: splitLines (trimL p.2) ++
            ["```".data]) from by
        rw [show subBlocksTrim [p] =
          [(p.1, "```markdown".data :: splitLines (trimL p.2) ++ ["```".data])] from rfl]
        simp]
      rw [show blockLines "### ".data (p.1, mdLines p) =
          blockLines "### ".data (p.1, "```markdown".data :: splitLines (trimL p.2) ++
            ["```".data]) ++ [[]] from by simp [blockLines, mdLines]]
      rw [joinLines_append _ [[]] (by simp [blockLines]) (by simp)]
      rfl
    | cons q r =>
      have ihr := ih (by simp)
      rw [show ((p :: q :: r).flatMap fun x => blockLines "### ".data (x.1, mdLines x)) =
          blockLines "### ".data (p.1, mdLines p) ++
            ((q :: r).flatMap fun x => blockLines "### ".data (x.1, mdLines x)) from by
        rw [List.flatMap_cons]]
      rw [joinLines_append _ _ (by simp [blockLines])
        (by rw [List.flatMap_cons]; simp [blockLines])]
      rw [ihr]
      rw [show subBlocksTrim (p :: q :: r) =
          (p.1, mdLines p) :: subBlocksTrim (q :: r) from rfl,
        flatMap_blockLines_cons]
      rw [show (("### ".data ++ p.1) :: (mdLines p ++
            (subBlocksTrim (q :: r)).flatMap (blockLines "### ".data))) =
          blockLines "### ".data (p.1, mdLines p) ++
            (subBlocksTrim (q :: r)).flatMap (blockLines "### ".data) from by
        simp [blockLines]]
      rw [joinLines_append _ _ (by simp [blockLines])
        (flatMap_blockLines_ne_nil _ _ (subBlocksTrim_ne_nil (q :: r) (by simp)))]
      simp

theorem subBlocksTrim_getLast :
    ∀ (ps : List (Str × Str)), ps ≠ [] →
      ((subBlocksTrim ps).flatMap (blockLines "### ".data)).getLast? =
        some "```".data := by
  intro ps
  induction ps with
  | nil => intro h; exact absurd rfl h
  | cons p rest ih =>
    intro _
    cases rest with
    | nil =>
      rw [show (subBlocksTrim [p]).flatMap (blockLines "### ".data) =
          (("### ".data ++ p.1) :: ("```markdown".data :: splitLines (trimL p.2))) ++
            ["```".data] from by
        rw [show subBlocksTrim [p] =
          [(p.1, "```markdown".data :: splitLines (trimL p.2) ++ ["```".data])] from rfl]
        simp [blockLines]]
      rw [List.getLast?_concat]
    | cons q r =>
      rw [show subBlocksTrim (p :: q :: r) =
          (p.1, mdLines p) :: subBlocksTrim (q :: r) from rfl,
        flatMap_blockLines_cons,
        show ("### ".data ++ p.1) :: (mdLines p ++
            (subBlocksTrim (q :: r)).flatMap (blockLines "### ".data)) =
          (("### ".data ++ p.1) :: mdLines p) ++
            (subBlocksTrim (q :: r)).flatMap (blockLines "### ".data) from by simp,
        List.getLast?_append_of_ne_nil _
          (flatMap_blockLines_ne_nil _ _ (subBlocksTrim_ne_nil (q :: r) (by simp)))]
      exact ih (by simp)

theorem trimL_joinLines_subChunks (ps : List (Str × Str)) (hne : ps ≠ []) :
    trimL (joinLines (ps.flatMap fun p => blockLines "### ".data (p.1, mdLines p))) =
      joinLines ((subBlocksTrim ps).flatMap (blockLines "### ".data)) := by
  rw [joinLines_subChunks ps hne, trimL_snoc_nl]
  apply trimL_eq_self_of_ends
  · obtain ⟨p, rest, rfl⟩ : ∃ p rest, ps = p :: rest := by
      cases ps with
      | nil => exact absurd rfl hne
      | cons a l => exact ⟨a, l, rfl⟩
    cases rest with
    | nil =>
      rw [show (subBlocksTrim [p]).flatMap (blockLines "### ".data) =
          ("### ".data ++ p.1) ::
            ("```markdown".data :: splitLines (trimL p.2) ++ ["```".data]) from by
        rw [show subBlocksTrim [p] =
          [(p.1, "```markdown".data :: splitLines (trimL p.2) ++ ["```".data])] from rfl]
        simp [blockLines]]
      rw [headD_joinLines _ _ (by simp), headD_append_left _ _ _ (by decide)]
      decide
    | cons q r =>
      rw [show subBlocksTrim (p :: q :: r) =
          (p.1, mdLines p) :: subBlocksTrim (q :: r) from rfl,
        flatMap_blockLines_cons,
        headD_joinLines _ _ (by simp), headD_append_left _ _ _ (by decide)]
      decide
  · obtain ⟨_, hd⟩ := joinLines_getLast _ _ (subBlocksTrim_getLast ps hne) (by decide)
    rw [hd 'x']
    decide

theorem plainSubName_spec (s : Str) (h : plainSubName s = true) :
    s ≠ [] ∧ s.contains '\n' = false ∧ trimL s = s := by
  simp only [plainSubName, noNl, trimStable, Bool.and_eq_true, Bool.not_eq_true',
    beq_iff_eq] at h
  refine ⟨?_, h.1.2, h.2⟩
  intro hc
  subst hc
  simp at h

theorem plainFenceFree_spec (s : Str) (h : plainFenceFree s = true) :
    trimL s = s ∧ fenceFreeLines s = true := by
  simp only [plainFenceFree, trimStable, Bool.and_eq_true, beq_iff_eq] at h
  exact h

theorem mdLines_noNl (p : Str × Str) : ∀ l ∈ mdLines p, l.contains '\n' = false := by
  intro l hl
  rw [show mdLines p = ("```markdown".data :: splitLines (trimL p.2)) ++
    ["```".data, []] from rfl] at hl
  rcases List.mem_append.mp hl with hl | hl
  · rcases List.mem_cons.mp hl with rfl | hl
    · decide
    · exact noNl_mem_splitLines _ l hl
  · rcases List.mem_cons.mp hl with rfl | hl
    · decide
    · rcases List.mem_cons.mp hl with rfl | hl
      · decide
      · simp at hl

theorem mdBlockOK_mid (p : Str × Str) (h1 : plainSubName p.1 = true)
    (h2 : plainFenceFree p.2 = true) : BlockOK "### ".data (p.1, mdLines p) := by
  obtain ⟨hne, hnl, ht⟩ := plainSubName_spec p.1 h1
  obtain ⟨ht2, hff⟩ := plainFenceFree_spec p.2 h2
  have hbody : ∀ l ∈ splitLines (trimL p.2), isFenceLine l = false := by
    rw [ht2]
    exact lines_fenceFree_isFence p.2 hff
  have hfb := scan_fenced_block "### ".data (by decide) "```markdown".data "```".data
    (splitLines (trimL p.2)) (by decide) (by decide) hbody
  exact ⟨ht, hne, by simp only [noNl, hnl]; rfl, hfb.1, hfb.2, mdLines_noNl p⟩

theorem mdBlockOK_last (p : Str × Str) (h1 : plainSubName p.1 = true)
    (h2 : plainFenceFree p.2 = true) :
    BlockOK "### ".data (p.1, "```markdown".data :: splitLines (trimL p.2) ++
      ["```".data]) := by
  obtain ⟨hne, hnl, ht⟩ := plainSubName_spec p.1 h1
  obtain ⟨ht2, hff⟩ := plainFenceFree_spec p.2 h2
  have hbody : ∀ l ∈ splitLines (trimL p.2), isFenceLine l = false := by
    rw [ht2]
    exact lines_fenceFree_isFence p.2 hff
  refine ⟨ht, hne, by simp only [noNl, hnl]; rfl, ?_, ?_, ?_⟩
  · intro lo p'
    exact (findHeadingsGo_fenced "### ".data lo (by decide) "```markdown".data "```".data
      (splitLines (trimL p.2)) (by decide) (by decide) hbody).1 p'
  · exact (findHeadingsGo_fenced "### ".data true (by decide) "```markdown".data "```".data
      (splitLines (trimL p.2)) (by decide) (by decide) hbody).2
  · intro l hl
    rcases List.mem_append.mp hl with hl | hl
    · rcases List.mem_cons.mp hl with rfl | hl
      · decide
      · exact noNl_mem_splitLines _ l hl
    · rcases List.mem_cons.mp hl with rfl | hl
      · decide
      · simp at hl

theorem subBlocksTrim_blockOK :
    ∀ (ps : List (Str × Str)),
      (∀ p ∈ ps, plainSubName p.1 = true ∧ plainFenceFree p.2 = true) →
      ∀ b ∈ subBlocksTrim ps, BlockOK "### ".data b := by
  intro ps
  induction ps with
  | nil =>
    intro _ b hb
    rw [show subBlocksTrim ([] : List (Str × Str)) = [] from rfl] at hb
    simp at hb
  | cons p rest ih =>
    intro h b hb
    cases rest with
    | nil =>
      rw [show subBlocksTrim [p] =
        [(p.1, "```markdown".data :: splitLines (trimL p.2) ++ ["```".data])] from rfl] at hb
      simp only [List.mem_singleton] at hb
      subst hb
      exact mdBlockOK_last p (h p (by simp)).1 (h p (by simp)).2
    | cons q r =>
      rw [show subBlocksTrim (p :: q :: r) =
        (p.1, mdLines p) :: subBlocksTrim (q :: r) from rfl] at hb
      rcases List.mem_cons.mp hb with rfl | hb
      · exact mdBlockOK_mid p (h p (by simp)).1 (h p (by simp)).2
      · exact ih (fun x hx => h x (by simp [hx])) b hb

theorem subChunks_noNl (ps : List (Str × Str))
    (h : ∀ p ∈ ps, plainSubName p.1 = true ∧ plainFenceFree p.2 = true) :
    ∀ l ∈ (subBlocksTrim ps).flatMap (blockLines "### ".data),
      l.contains '\n' = false := by
  intro l hl
  rw [List.mem_flatMap] at hl
  obtain ⟨b, hb, hlb⟩ := hl
  obtain ⟨_, _, hnl, _, _, hlines⟩ := subBlocksTrim_blockOK ps h b hb
  rw [show blockLines "### ".data b = ("### ".data ++ b.1) :: b.2 from rfl] at hlb
  rcases List.mem_cons.mp hlb with rfl | hlb
  · apply contains_eq_false_of_not_mem
    apply not_mem_app (by decide)
    apply not_mem_of_contains_eq_false
    simp only [noNl, Bool.not_eq_true'] at hnl
    exact hnl
  · exact hlines l hlb

theorem trimL_mdText (p : Str × Str) : trimL (mdText p) = mdText p := by
  apply trimL_eq_self_of_ends
  · rw [show mdText p = "```markdown".data ++ ('\n' :: (trimL p.2 ++ "\n```".data))
      from rfl, headD_append_left _ _ _ (by decide)]
    decide
  · rw [show mdText p = "```markdown".data ++ ('\n' :: (trimL p.2 ++ "\n```".data))
      from rfl, getLastD_append_right _ _ _ (by simp), List.getLastD_cons,
      getLastD_append_right _ _ _ (by decide)]
    decide

theorem joinLines_mdLines (p : Str × Str) :
    joinLines (mdLines p) = mdText p ++ ['\n'] := by
  rw [show mdLines p = ("```markdown".data :: splitLines (trimL p.2)) ++
      ["```".data, []] from rfl,
    joinLines_append _ _ (by simp) (by simp),
    joinLines_cons "```markdown".data (splitLines (trimL p.2))
      (splitOnCharL_ne_nil '\n' _),
    joinLines_splitLines,
    show joinLines ["```".data, []] = "```".data ++ ['\n'] from rfl]
  simp [mdText]

theorem joinLines_mdLast (p : Str × Str) :
    joinLines ("```markdown".data :: splitLines (trimL p.2) ++ ["```".data]) =
      mdText p := by
  rw [show ("```markdown".data :: splitLines (trimL p.2) ++ ["```".data]) =
      ("```markdown".data :: splitLines (trimL p.2)) ++ ["```".data] from rfl,
    joinLines_append _ _ (by simp) (by simp),
    joinLines_cons "```markdown".data (splitLines (trimL p.2))
      (splitOnCharL_ne_nil '\n' _),
    joinLines_splitLines,
    show joinLines ["```".data] = "```".data from rfl]
  simp [mdText]

theorem subBlocksTrim_spans :
    ∀ (ps : List (Str × Str)),
      (subBlocksTrim ps).map (fun b => (b.1, trimL (joinLines b.2))) =
        ps.map (fun p => (p.1, mdText p)) := by
  intro ps
  induction ps with
  | nil => rfl
  | cons p rest ih =>
    cases rest with
    | nil =>
      rw [show subBlocksTrim [p] =
        [(p.1, "```markdown".data :: splitLines (trimL p.2) ++ ["```".data])] from rfl,
        List.map_cons, List.map_cons]
      dsimp only
      rw [joinLines_mdLast, trimL_mdText]
      rfl
    | cons q r =>
      rw [show subBlocksTrim (p :: q :: r) =
          (p.1, mdLines p) :: subBlocksTrim (q :: r) from rfl,
        List.map_cons, List.map_cons]
      dsimp only
      rw [joinLines_mdLines, trimL_snoc_nl, trimL_mdText, ih]

theorem matchTaggedBlock_mdText (p : Str × Str) (h2 : plainFenceFree p.2 = true) :
    matchTaggedBlock "```markdown".data (mdText p) = some p.2 := by
  obtain ⟨ht2, hff⟩ := plainFenceFree_spec p.2 h2
  apply matchTaggedBlock_here
  rw [show mdText p = "```markdown".data ++ ('\n' :: (trimL p.2 ++ "\n```".data)) from rfl,
    ht2]
  cases hp : p.2 with
  | nil =>
    rw [List.nil_append]
    exact matchTagHere_block_empty _
  | cons c t =>
    apply matchTagHere_block
    · simp
    · rw [← hp, ← ht2]
      exact trimL_headD_ws p.2
    · rw [← hp]
      have hf := findSub_fence_lines (splitLines p.2) (noNl_mem_splitLines _)
        (lines_fenceFree_raw p.2 hff) (splitOnCharL_ne_nil '\n' _)
      rw [joinLines_splitLines] at hf
      exact hf

theorem alSet_fresh {κ α : Type} [DecidableEq κ] :
    ∀ (m : List (κ × α)) (k : κ) (v : α), (∀ q ∈ m, q.1 ≠ k) →
      alSet m k v = m ++ [(k, v)] := by
  intro m
  induction m with
  | nil => intro k v _; rfl
  | cons q r ih =>
    intro k v h
    obtain ⟨qk, qv⟩ := q
    rw [show alSet ((qk, qv) :: r) k v =
      (if qk = k then (k, v) :: r else (qk, qv) :: alSet r k v) from rfl,
      if_neg (h (qk, qv) (by simp)),
      ih k v (fun x hx => h x (by simp [hx]))]
    rfl

theorem foldl_alSet_abs (F : List (Str × Str) → (Str × Str) → List (Str × Str)) :
    ∀ (ps : List (Str × Str)) (acc : List (Str × Str)),
      (∀ (a : List (Str × Str)), ∀ p ∈ ps, F a (p.1, mdText p) = alSet a p.1 p.2) →
      (ps.map Prod.fst).Nodup →
      (∀ p ∈ ps, ∀ q ∈ acc, q.1 ≠ p.1) →
      (ps.map fun p => (p.1, mdText p)).foldl F acc = acc ++ ps := by
  intro ps
  induction ps with
  | nil => intro acc _ _ _; simp
  | cons p rest ih =>
    intro acc hF hnd hfresh
    rw [List.map_cons, List.foldl_cons]
    rw [hF acc p (by simp),
      alSet_fresh acc p.1 p.2 (fun q hq => hfresh p (by simp) q hq), Prod.mk.eta]
    have hnd2 : (rest.map Prod.fst).Nodup := by
      rw [List.map_cons, List.nodup_cons] at hnd
      exact hnd.2
    have hfresh2 : ∀ x ∈ rest, ∀ q ∈ acc ++ [p], q.1 ≠ x.1 := by
      intro x hx q hq
      rcases List.mem_append.mp hq with hq | hq
      · exact hfresh x (by simp [hx]) q hq
      · simp only [List.mem_singleton] at hq
        subst hq
        intro hc
        rw [List.map_cons, List.nodup_cons] at hnd
        apply hnd.1
        rw [hc]
        exact List.mem_map_of_mem Prod.fst hx
    rw [ih (acc ++ [p]) (fun a x hx => hF a x (by simp [hx])) hnd2 hfresh2]
    simp

theorem extractNamedSubsections_build (ps : List (Str × Str))
    (h : ∀ p ∈ ps, plainSubName p.1 = true ∧ plainFenceFree p.2 = true)
    (hnd : (ps.map Prod.fst).Nodup) (hne : ps ≠ []) :
    extractNamedSubsections
      (trimL (joinLines (ps.flatMap fun p => blockLines "### ".data (p.1, mdLines p)))) =
      ps := by
  rw [trimL_joinLines_subChunks ps hne]
  have hsplit : splitLines
      (joinLines ((subBlocksTrim ps).flatMap (blockLines "### ".data))) =
      (subBlocksTrim ps).flatMap (blockLines "### ".data) :=
    splitLines_joinLines _ (flatMap_blockLines_ne_nil _ _ (subBlocksTrim_ne_nil ps hne))
      (subChunks_noNl ps h)
  have hsubs : findTopLevelSubsections
      (joinLines ((subBlocksTrim ps).flatMap (blockLines "### ".data))) =
      secListB "### ".data false (subBlocksTrim ps) 0 := by
    unfold findTopLevelSubsections
    rw [hsplit]
    exact findHeadingsGo_blocks "### ".data false (by decide) (by decide)
      (subBlocksTrim ps) (subBlocksTrim_blockOK ps h) 0
  unfold extractNamedSubsections
  rw [hsubs]
  dsimp only
  rw [mapIdx_spanContent]
  have hpre : spansRec (joinLines ((subBlocksTrim ps).flatMap (blockLines "### ".data)))
      (secListB "### ".data false (subBlocksTrim ps) 0) =
      (subBlocksTrim ps).map (fun b => (b.1, trimL (joinLines b.2))) := by
    have hs := spansRec_secListB "### ".data false (subBlocksTrim ps) []
      (subBlocksTrim_snd_ne ps)
    rw [List.nil_append, show sizeLinesL ([] : List Str) = 0 from rfl] at hs
    exact hs
  rw [hpre, subBlocksTrim_spans]
  refine Eq.trans (foldl_alSet_abs _ ps [] ?_ hnd (by intro x hx q hq; simp at hq)) (by simp)
  intro a q hq
  dsimp only
  split
  · rename_i b heq
    rw [matchTaggedBlock_mdText q (h q hq).2] at heq
    injection heq with heq2
    rw [← heq2, (plainFenceFree_spec q.2 (h q hq).2).1]
  · rename_i heq
    rw [matchTaggedBlock_mdText q (h q hq).2] at heq
    simp at heq

theorem allWS_sp : allWS [' '] := by
  intro c hc
  simp only [List.mem_singleton] at hc
  subst hc
  rfl

theorem heading_line_facts (m nm : Str) (hm : m.headD 'x' = '#') (hmne : m ≠ [])
    (hne : nm ≠ []) (ht : trimL nm = nm) :
    trimL (m ++ nm) = m ++ nm ∧ isFenceLine (m ++ nm) = false := by
  have htrim : trimL (m ++ nm) = m ++ nm := by
    apply trimL_eq_self_of_ends
    · rw [headD_append_left _ _ _ hmne, hm]
      decide
    · rw [getLastD_append_right _ _ _ hne]
      exact trimStable_getLastD nm ht hne
  refine ⟨htrim, ?_⟩
  unfold isFenceLine
  rw [htrim]
  cases hsw : startsW "```".data (m ++ nm) with
  | false => rfl
  | true =>
    have h1 := startsW_headD "```".data _ (by decide) hsw
    rw [headD_append_left _ _ _ hmne, hm] at h1
    exact absurd h1 (by decide)

theorem plainGuidance_spec (g : Str) (h : plainGuidance g = true) :
    trimL g = g ∧ (∀ l ∈ splitLines g, isFenceLine l = false) ∧
      (∀ l ∈ splitLines g, isHeadingLine "## ".data l = false) := by
  simp only [plainGuidance, Bool.and_eq_true] at h
  obtain ⟨hpf, hnh⟩ := h
  obtain ⟨ht, hff⟩ := plainFenceFree_spec g hpf
  refine ⟨ht, lines_fenceFree_isFence g hff, ?_⟩
  intro l hl
  unfold noHeadingLines at hnh
  have h1 := List.all_eq_true.mp hnh l hl
  simp only [Bool.not_eq_true'] at h1
  exact h1

theorem guidanceBlockOK (g : Str) (h : plainGuidance g = true) :
    BlockOK "## ".data ("claude_md".data, splitLines (trimL g) ++ [[]]) := by
  obtain ⟨ht, hfen, hhead⟩ := plainGuidance_spec g h
  have hinert : ∀ l ∈ splitLines (trimL g) ++ [[]],
      isFenceLine l = false ∧ isHeadingLine "## ".data l = false := by
    intro l hl
    rcases List.mem_append.mp hl with hl | hl
    · rw [ht] at hl
      exact ⟨hfen l hl, hhead l hl⟩
    · simp only [List.mem_singleton] at hl
      subst hl
      exact ⟨isFenceLine_nil, isHeadingLine_nil _⟩
  refine ⟨show trimL "claude_md".data = "claude_md".data from by decide,
    show "claude_md".data ≠ [] from by decide,
    show noNl "claude_md".data = true from by decide, ?_, ?_, ?_⟩
  · intro lo p
    exact findHeadingsGo_nil_inert "## ".data lo _ hinert p
  · exact fenceTgl_of_no_fences _ false (fun l hl => (hinert l hl).1)
  · intro l hl
    rcases List.mem_append.mp hl with hl | hl
    · exact noNl_mem_splitLines _ l hl
    · simp only [List.mem_singleton] at hl
      subst hl
      decide

theorem jsonBlockOK (nm : Str) (hnm : trimL nm = nm ∧ nm ≠ [] ∧ noNl nm = true)
    (fs : List (Str × Json)) (hpl : plainJson (.obj fs) = true) :
    BlockOK "## ".data (nm,
      "```json".data :: splitLines (jstringify 0 (.obj fs)) ++ ["```".data, []]) := by
  have hbt : '`' ∉ jstringify 0 (.obj fs) := bt_not_mem_jstringify _ 0 hpl
  have hbody : ∀ l ∈ splitLines (jstringify 0 (.obj fs)), isFenceLine l = false :=
    fun l hl => (lines_noBt _ hbt l hl).1
  have hfb := scan_fenced_block "## ".data (by decide) "```json".data "```".data
    (splitLines (jstringify 0 (.obj fs))) (by decide) (by decide) hbody
  refine ⟨hnm.1, hnm.2.1, hnm.2.2, hfb.1, hfb.2, ?_⟩
  intro l hl
  rcases List.mem_append.mp hl with hl | hl
  · rcases List.mem_cons.mp hl with rfl | hl
    · decide
    · exact noNl_mem_splitLines _ l hl
  · rcases List.mem_cons.mp hl with rfl | hl
    · decide
    · rcases List.mem_cons.mp hl with rfl | hl
      · decide
      · simp at hl

theorem scan_subChunk_outer (p : Str × Str) (h1 : plainSubName p.1 = true)
    (h2 : plainFenceFree p.2 = true) :
    (∀ (lo : Bool) (pos : Nat), findHeadingsGo "## ".data lo
        (blockLines "### ".data (p.1, mdLines p)) false pos = []) ∧
      fenceTgl (blockLines "### ".data (p.1, mdLines p)) false = false := by
  obtain ⟨hne, hnl, ht⟩ := plainSubName_spec p.1 h1
  obtain ⟨ht2, hff⟩ := plainFenceFree_spec p.2 h2
  obtain ⟨htrim, hf⟩ := heading_line_facts "### ".data p.1 (by decide) (by decide) hne ht
  have hsw : startsW "## ".data ("### ".data ++ p.1) = false := rfl
  have hbody : ∀ l ∈ splitLines (trimL p.2), isFenceLine l = false := by
    rw [ht2]
    exact lines_fenceFree_isFence p.2 hff
  have hfb := scan_fenced_block "## ".data (by decide) "```markdown".data "```".data
    (splitLines (trimL p.2)) (by decide) (by decide) hbody
  constructor
  · intro lo pos
    rw [show blockLines "### ".data (p.1, mdLines p) =
        ("### ".data ++ p.1) :: mdLines p from rfl,
      findHeadingsGo_cons, hf, htrim, hsw]
    simp only [Bool.false_eq_true, if_false, Bool.not_false, Bool.true_and,
      Bool.false_and, Bool.and_false, List.nil_append]
    exact hfb.1 lo _
  · rw [show blockLines "### ".data (p.1, mdLines p) =
        ("### ".data ++ p.1) :: mdLines p from rfl,
      fenceTgl_cons, hf]
    simp only [Bool.false_eq_true, if_false]
    exact hfb.2

theorem scan_subChunks (ps : List (Str × Str))
    (h : ∀ p ∈ ps, plainSubName p.1 = true ∧ plainFenceFree p.2 = true) :
    (∀ (lo : Bool) (pos : Nat), findHeadingsGo "## ".data lo
        (ps.flatMap fun p => blockLines "### ".data (p.1, mdLines p)) false pos = []) ∧
      fenceTgl (ps.flatMap fun p => blockLines "### ".data (p.1, mdLines p)) false =
        false := by
  induction ps with
  | nil => exact ⟨fun _ _ => rfl, rfl⟩
  | cons p rest ih =>
    obtain ⟨hs1, ht1⟩ := scan_subChunk_outer p (h p (by simp)).1 (h p (by simp)).2
    obtain ⟨hs2, ht2⟩ := ih (fun x hx => h x (by simp [hx]))
    constructor
    · intro lo pos
      rw [List.flatMap_cons, findHeadingsGo_append, hs1 lo, ht1, List.nil_append]
      exact hs2 lo _
    · rw [List.flatMap_cons, fenceTgl_append, ht1]
      exact ht2

theorem subsBlockOK (nm : Str) (hnm : trimL nm = nm ∧ nm ≠ [] ∧ noNl nm = true)
    (ps : List (Str × Str))
    (h : ∀ p ∈ ps, plainSubName p.1 = true ∧ plainFenceFree p.2 = true) :
    BlockOK "## ".data (nm,
      ps.flatMap fun p => blockLines "### ".data (p.1, mdLines p)) := by
  obtain ⟨hs, htg⟩ := scan_subChunks ps h
  refine ⟨hnm.1, hnm.2.1, hnm.2.2, hs, htg, ?_⟩
  intro l hl
  rw [List.mem_flatMap] at hl
  obtain ⟨p, hp, hlp⟩ := hl
  rw [show blockLines "### ".data (p.1, mdLines p) =
    ("### ".data ++ p.1) :: mdLines p from rfl] at hlp
  rcases List.mem_cons.mp hlp with rfl | hlp
  · apply contains_eq_false_of_not_mem
    apply not_mem_app (by decide)
    apply not_mem_of_contains_eq_false
    exact (plainSubName_spec p.1 (h p hp).1).2.1
  · exact mdLines_noNl p l hlp

theorem splitOnCharL_single (sep : Char) :
    ∀ (s : Str), s.contains sep = false → splitOnCharL sep s = [s] := by
  intro s
  induction s with
  | nil => intro _; rfl
  | cons c r ih =>
    intro h
    have hmem := not_mem_of_contains_eq_false h
    have hc : ¬(c = sep) := fun hcc => hmem (by simp [hcc])
    have hr : r.contains sep = false :=
      contains_eq_false_of_not_mem (fun hx => hmem (by simp [hx]))
    show (if c = sep then [] :: splitOnCharL sep r
      else match splitOnCharL sep r with
        | [] => [[c]]
        | l :: ls => (c :: l) :: ls) = [c :: r]
    rw [if_neg hc, ih hr]

theorem plainCell_spec (s : Str) (h : plainCell s = true) :
    s ≠ [] ∧ s.contains '\n' = false ∧ trimL s = s ∧ s.contains '|' = false := by
  simp only [plainCell, noNl, trimStable, Bool.and_eq_true, Bool.not_eq_true',
    beq_iff_eq] at h
  refine ⟨?_, h.1.1.2, h.1.2, h.2⟩
  intro hc
  subst hc
  simp at h

theorem ExtRow_eta (r : ExtRow) :
    ExtRow.mk r.name r.repository r.skill r.description = r := rfl

theorem plainExtRow_spec (r : ExtRow) (h : plainExtRow r = true) :
    plainCell r.name = true ∧ plainCell r.repository = true ∧
      plainCell r.skill = true ∧ plainCell r.description = true ∧
      toLowerL r.name ≠ "name".data ∧ startsW "-".data r.name = false := by
  simp only [plainExtRow, Bool.and_eq_true, Bool.not_eq_true', bne_iff_ne, ne_eq] at h
  exact ⟨h.1.1.1.1.1, h.1.1.1.1.2, h.1.1.1.2, h.1.1.2, h.1.2, h.2⟩

theorem rowL_trim (r : ExtRow) : trimL (rowL r) = rowL r := by
  apply trimL_eq_self_of_ends
  · rw [show rowL r = "| ".data ++ (r.name ++ " | ".data ++ r.repository ++ " | ".data ++
      r.skill ++ " | ".data ++ r.description ++ " |".data) from by simp [rowL],
      headD_append_left _ _ _ (by decide)]
    decide
  · rw [show rowL r = ("| ".data ++ r.name ++ " | ".data ++ r.repository ++ " | ".data ++
      r.skill ++ " | ".data ++ r.description) ++ " |".data from by simp [rowL],
      getLastD_append_right _ _ _ (by decide)]
    decide

theorem rowL_headD (r : ExtRow) : (rowL r).headD 'x' = '|' := by
  rw [show rowL r = "| ".data ++ (r.name ++ " | ".data ++ r.repository ++ " | ".data ++
    r.skill ++ " | ".data ++ r.description ++ " |".data) from by simp [rowL],
    headD_append_left _ _ _ (by decide)]
  rfl

theorem rowL_noNl (r : ExtRow) (h : plainExtRow r = true) :
    (rowL r).contains '\n' = false := by
  obtain ⟨h1, h2, h3, h4, _, _⟩ := plainExtRow_spec r h
  apply contains_eq_false_of_not_mem
  unfold rowL
  apply not_mem_app
  apply not_mem_app
  apply not_mem_app
  apply not_mem_app
  apply not_mem_app
  apply not_mem_app
  apply not_mem_app
  · apply not_mem_app (by decide)
    exact not_mem_of_contains_eq_false (plainCell_spec _ h1).2.1
  · decide
  · exact not_mem_of_contains_eq_false (plainCell_spec _ h2).2.1
  · decide
  · exact not_mem_of_contains_eq_false (plainCell_spec _ h3).2.1
  · decide
  · exact not_mem_of_contains_eq_false (plainCell_spec _ h4).2.1
  · decide

theorem trimL_nil : trimL [] = [] := rfl

theorem isEmpty_false_of_ne_nil {α : Type} {l : List α} (h : l ≠ []) :
    l.isEmpty = false := by
  cases l with
  | nil => exact absurd rfl h
  | cons a t => rfl

theorem splitOnCharL_sep_cons (sep : Char) (s : Str) :
    splitOnCharL sep (sep :: s) = [] :: splitOnCharL sep s := by
  show (if sep = sep then [] :: splitOnCharL sep s
    else match splitOnCharL sep s with
      | [] => [[sep]]
      | l :: ls => (sep :: l) :: ls) = [] :: splitOnCharL sep s
  rw [if_pos rfl]

theorem rowL_shape (r : ExtRow) : rowL r = '|' :: ((' ' :: r.name ++ [' ']) ++ '|' ::
    ((' ' :: r.repository ++ [' ']) ++ '|' :: ((' ' :: r.skill ++ [' ']) ++ '|' ::
    ((' ' :: r.description ++ [' ']) ++ '|' :: ([] : Str))))) := by
  simp [rowL]

theorem cellsOf_rowL (r : ExtRow) (h : plainExtRow r = true) :
    cellsOf (rowL r) = [r.name, r.repository, r.skill, r.description] := by
  obtain ⟨h1, h2, h3, h4, _, _⟩ := plainExtRow_spec r h
  have hsplit : splitOnCharL '|' (rowL r) =
      [[], ' ' :: r.name ++ [' '], ' ' :: r.repository ++ [' '],
        ' ' :: r.skill ++ [' '], ' ' :: r.description ++ [' '], []] := by
    rw [rowL_shape, splitOnCharL_sep_cons,
      splitOnCharL_append, splitOnCharL_append, splitOnCharL_append, splitOnCharL_append,
      splitOnCharL_single '|' (' ' :: r.name ++ [' '])
        (contains_eq_false_of_not_mem (not_mem_cons (by decide)
          (not_mem_app (not_mem_of_contains_eq_false (plainCell_spec _ h1).2.2.2)
            (by decide)))),
      splitOnCharL_single '|' (' ' :: r.repository ++ [' '])
        (contains_eq_false_of_not_mem (not_mem_cons (by decide)
          (not_mem_app (not_mem_of_contains_eq_false (plainCell_spec _ h2).2.2.2)
            (by decide)))),
      splitOnCharL_single '|' (' ' :: r.skill ++ [' '])
        (contains_eq_false_of_not_mem (not_mem_cons (by decide)
          (not_mem_app (not_mem_of_contains_eq_false (plainCell_spec _ h3).2.2.2)
            (by decide)))),
      splitOnCharL_single '|' (' ' :: r.description ++ [' '])
        (contains_eq_false_of_not_mem (not_mem_cons (by decide)
          (not_mem_app (not_mem_of_contains_eq_false (plainCell_spec _ h4).2.2.2)
            (by decide))))]
    rfl
  have e1 : trimL (' ' :: r.name ++ [' ']) = r.name := by
    rw [show ' ' :: r.name ++ [' '] = [' '] ++ r.name ++ [' '] from rfl,
      trimL_wrap _ _ _ allWS_sp allWS_sp, (plainCell_spec _ h1).2.2.1]
  have e2 : trimL (' ' :: r.repository ++ [' ']) = r.repository := by
    rw [show ' ' :: r.repository ++ [' '] = [' '] ++ r.repository ++ [' '] from rfl,
      trimL_wrap _ _ _ allWS_sp allWS_sp, (plainCell_spec _ h2).2.2.1]
  have e3 : trimL (' ' :: r.skill ++ [' ']) = r.skill := by
    rw [show ' ' :: r.skill ++ [' '] = [' '] ++ r.skill ++ [' '] from rfl,
      trimL_wrap _ _ _ allWS_sp allWS_sp, (plainCell_spec _ h3).2.2.1]
  have e4 : trimL (' ' :: r.description ++ [' ']) = r.description := by
    rw [show ' ' :: r.description ++ [' '] = [' '] ++ r.description ++ [' '] from rfl,
      trimL_wrap _ _ _ allWS_sp allWS_sp, (plainCell_spec _ h4).2.2.1]
  unfold cellsOf
  rw [hsplit]
  simp only [List.map_cons, List.map_nil, e1, e2, e3, e4, trimL_nil]
  simp [List.filter_cons, isEmpty_false_of_ne_nil (plainCell_spec _ h1).1,
    isEmpty_false_of_ne_nil (plainCell_spec _ h2).1,
    isEmpty_false_of_ne_nil (plainCell_spec _ h3).1,
    isEmpty_false_of_ne_nil (plainCell_spec _ h4).1]

theorem startsW_pipe_rowL (r : ExtRow) : startsW "|".data (rowL r) = true := by
  rw [rowL_shape]
  rfl

theorem rowCells_rowL (r : ExtRow) (h : plainExtRow r = true) :
    rowCells? "name".data (rowL r) =
      some (r.name, r.repository, r.skill, r.description) := by
  obtain ⟨h1, h2, h3, h4, h5, h6⟩ := plainExtRow_spec r h
  unfold rowCells?
  dsimp only
  rw [rowL_trim, startsW_pipe_rowL]
  show (match cellsOf (rowL r) with
    | c0 :: c1 :: c2 :: c3 :: _ =>
      if toLowerL c0 = "name".data then none
      else if startsW "-".data c0 then none
      else some (c0, c1, c2, c3)
    | _ => none) = _
  rw [cellsOf_rowL r h]
  show (if toLowerL r.name = "name".data then none
    else if startsW "-".data r.name then none
    else some (r.name, r.repository, r.skill, r.description)) = _
  rw [if_neg h5, h6]
  rfl

theorem rowL_inert (r : ExtRow) :
    isFenceLine (rowL r) = false ∧ isHeadingLine "## ".data (rowL r) = false := by
  have hsw : startsW "```".data (rowL r) = false := by
    rw [rowL_shape]
    rfl
  have hsw2 : startsW "## ".data (rowL r) = false := by
    rw [rowL_shape]
    rfl
  constructor
  · unfold isFenceLine
    rw [rowL_trim, hsw]
  · unfold isHeadingLine
    rw [rowL_trim, hsw2]
    rfl

theorem tableBlockOK (rows : List ExtRow) (h : ∀ r ∈ rows, plainExtRow r = true) :
    BlockOK "## ".data ("external_skills".data,
      "| Name | Repository | Skill | Description |".data ::
        "|------|-----------|-------|-------------|".data ::
        rows.map rowL ++ [[]]) := by
  have hinert : ∀ l ∈ "| Name | Repository | Skill | Description |".data ::
      "|------|-----------|-------|-------------|".data :: rows.map rowL ++ [[]],
      isFenceLine l = false ∧ isHeadingLine "## ".data l = false := by
    intro l hl
    rcases List.mem_cons.mp hl with rfl | hl
    · exact ⟨by decide, by decide⟩
    · rcases List.mem_cons.mp hl with rfl | hl
      · exact ⟨by decide, by decide⟩
      · rcases List.mem_append.mp hl with hl | hl
        · rw [List.mem_map] at hl
          obtain ⟨r, _, rfl⟩ := hl
          exact rowL_inert r
        · simp only [List.mem_singleton] at hl
          subst hl
          exact ⟨isFenceLine_nil, isHeadingLine_nil _⟩
  refine ⟨show trimL "external_skills".data = "external_skills".data from by decide,
    show "external_skills".data ≠ [] from by decide,
    show noNl "external_skills".data = true from by decide, ?_, ?_, ?_⟩
  · intro lo p
    exact findHeadingsGo_nil_inert "## ".data lo _ hinert p
  · exact fenceTgl_of_no_fences _ false (fun l hl => (hinert l hl).1)
  · intro l hl
    rcases List.mem_cons.mp hl with rfl | hl
    · decide
    · rcases List.mem_cons.mp hl with rfl | hl
      · decide
      · rcases List.mem_append.mp hl with hl | hl
        · rw [List.mem_map] at hl
          obtain ⟨r, hr, rfl⟩ := hl
          exact rowL_noNl r (h r hr)
        · simp only [List.mem_singleton] at hl
          subst hl
          decide

theorem filterMap_rows (rows : List ExtRow) (h : ∀ r ∈ rows, plainExtRow r = true) :
    (rows.map rowL).filterMap
      (fun l => (rowCells? "name".data l).map
        (fun c => ExtRow.mk c.1 c.2.1 c.2.2.1 c.2.2.2)) = rows := by
  induction rows with
  | nil => rfl
  | cons r rest ih =>
    rw [List.map_cons, List.filterMap_cons, rowCells_rowL r (h r (by simp))]
    show (ExtRow.mk r.name r.repository r.skill r.description) ::
      (rest.map rowL).filterMap _ = r :: rest
    rw [ExtRow_eta, ih (fun x hx => h x (by simp [hx]))]

theorem rows_lines_noNl (rows : List ExtRow) (h : ∀ r ∈ rows, plainExtRow r = true) :
    ∀ l ∈ "| Name | Repository | Skill | Description |".data ::
      "|------|-----------|-------|-------------|".data :: rows.map rowL,
      l.contains '\n' = false := by
  intro l hl
  rcases List.mem_cons.mp hl with rfl | hl
  · decide
  · rcases List.mem_cons.mp hl with rfl | hl
    · decide
    · rw [List.mem_map] at hl
      obtain ⟨r, hr, rfl⟩ := hl
      exact rowL_noNl r (h r hr)

theorem getLast?_cons_of_ne_nil {α : Type} (a : α) (l : List α) (h : l ≠ []) :
    (a :: l).getLast? = l.getLast? := by
  rw [show a :: l = [a] ++ l from rfl, List.getLast?_append_of_ne_nil _ h]

theorem getLast?_map_rowL :
    ∀ (rows : List ExtRow), (rows.map rowL).getLast? = rows.getLast?.map rowL := by
  intro rows
  induction rows with
  | nil => rfl
  | cons r rest ih =>
    cases rest with
    | nil => rfl
    | cons r2 rest2 =>
      rw [List.map_cons, getLast?_cons_of_ne_nil _ _ (by simp), ih,
        List.getLast?_cons_cons]

theorem rowL_ne_nil (r : ExtRow) : rowL r ≠ [] := by
  rw [rowL_shape]
  simp

theorem rowL_getLastD (r : ExtRow) : (rowL r).getLastD 'x' = '|' := by
  rw [show rowL r = ("| ".data ++ r.name ++ " | ".data ++ r.repository ++ " | ".data ++
    r.skill ++ " | ".data ++ r.description) ++ " |".data from by simp [rowL],
    getLastD_append_right _ _ _ (by decide)]
  rfl

theorem parseExternalSkillsTable_build (rows : List ExtRow)
    (h : ∀ r ∈ rows, plainExtRow r = true) (hne : rows ≠ []) :
    parseExternalSkillsTable
      (trimL (joinLines ("| Name | Repository | Skill | Description |".data ::
        "|------|-----------|-------|-------------|".data ::
        rows.map rowL ++ [[]]))) = rows := by
  obtain ⟨rlast, hrlast⟩ : ∃ rl, rows.getLast? = some rl := by
    cases hg : rows.getLast? with
    | none => exact absurd (List.getLast?_eq_none_iff.mp hg) hne
    | some rl => exact ⟨rl, rfl⟩
  have hmne : rows.map rowL ≠ [] := by
    cases rows with
    | nil => exact absurd rfl hne
    | cons a l => simp
  have hlast : ("| Name | Repository | Skill | Description |".data ::
      "|------|-----------|-------|-------------|".data ::
      rows.map rowL).getLast? = some (rowL rlast) := by
    rw [List.getLast?_cons_cons, getLast?_cons_of_ne_nil _ _ hmne, getLast?_map_rowL,
      hrlast]
    rfl
  have hX : ("| Name | Repository | Skill | Description |".data ::
      "|------|-----------|-------|-------------|".data :: rows.map rowL ++ [[]]) =
      ("| Name | Repository | Skill | Description |".data ::
        "|------|-----------|-------|-------------|".data :: rows.map rowL) ++ [[]] := by
    simp
  rw [hX, joinLines_append _ [[]] (by simp) (by simp),
    show joinLines [[]] = [] from rfl, trimL_snoc_nl]
  have htr : trimL (joinLines ("| Name | Repository | Skill | Description |".data ::
      "|------|-----------|-------|-------------|".data :: rows.map rowL)) =
      joinLines ("| Name | Repository | Skill | Description |".data ::
        "|------|-----------|-------|-------------|".data :: rows.map rowL) := by
    apply trimL_eq_self_of_ends
    · rw [headD_joinLines _ _ (by decide)]
      decide
    · obtain ⟨_, hd⟩ := joinLines_getLast _ _ hlast (rowL_ne_nil rlast)
      rw [hd 'x', rowL_getLastD]
      decide
  rw [htr]
  unfold parseExternalSkillsTable
  rw [splitLines_joinLines _ (by simp) (rows_lines_noNl rows h)]
  rw [List.foldl_cons,
    tableStep_header "name".data ExtRow.mk [] false _ (by decide),
    tableFold_true]
  dsimp only
  rw [List.filterMap_cons,
    show rowCells? "name".data "|------|-----------|-------|-------------|".data =
      none from by decide]
  simp only [Option.map_none', List.nil_append]
  exact filterMap_rows rows h

theorem plainScalarStr_spec (s : Str) (h : plainScalarStr s = true) :
    s ≠ [] ∧ s.contains '\n' = false ∧ trimL s = s ∧
      isQuoteChar (s.headD 'x') = false ∧ isQuoteChar (s.getLastD 'x') = false ∧
      s.all (·.isDigit) = false ∧ s ≠ "[]".data := by
  simp only [plainScalarStr, noNl, trimStable, Bool.and_eq_true, Bool.not_eq_true',
    beq_iff_eq, bne_iff_ne, ne_eq] at h
  refine ⟨?_, h.1.1.1.1.1.2, h.1.1.1.1.2, h.1.1.1.2, h.1.1.2, h.1.2, h.2⟩
  intro hc
  subst hc
  simp at h

theorem goodMeta_spec (m : BMeta) (h : goodMeta m = true) :
    plainScalarStr m.id = true ∧ plainScalarStr m.name = true ∧
      plainScalarStr m.description = true ∧ m.version = 1 ∧
      (∀ groups, m.detection = some groups →
        (∀ g ∈ groups, plainDetKey g.1 = true ∧ g.2 ≠ [] ∧ ∀ v ∈ g.2, noNl v = true) ∧
          (groups.map Prod.fst).Nodup) := by
  simp only [goodMeta, Bool.and_eq_true, beq_iff_eq] at h
  refine ⟨h.1.1.1.1, h.1.1.1.2, h.1.1.2, h.1.2, ?_⟩
  intro groups hg
  rw [hg] at h
  have h2 := h.2
  simp only [Bool.and_eq_true, List.all_eq_true, decide_eq_true_eq] at h2
  refine ⟨?_, h2.2⟩
  intro g hgm
  have h3 := h2.1 g hgm
  simp only [Bool.and_eq_true, Bool.not_eq_true', List.all_eq_true] at h3
  refine ⟨h3.1.1, ?_, h3.2⟩
  intro hc
  rw [hc] at h3
  simp at h3

theorem goodDoc_spec (d : BDoc) (h : goodDoc d = true) :
    goodMeta d.meta = true ∧ plainGuidance d.claudeMd = true ∧
      plainJson (.obj d.hooks) = true ∧ plainJson (.obj d.mcpServers) = true ∧
      (∀ p ∈ d.skills, plainSubName p.1 = true ∧ plainFenceFree p.2 = true) ∧
      (d.skills.map Prod.fst).Nodup ∧
      (∀ p ∈ d.agents, plainSubName p.1 = true ∧ plainFenceFree p.2 = true) ∧
      (d.agents.map Prod.fst).Nodup ∧
      (∀ r ∈ d.externalSkills, plainExtRow r = true) := by
  simp only [goodDoc, Bool.and_eq_true, List.all_eq_true, decide_eq_true_eq] at h
  refine ⟨h.1.1.1.1.1.1.1.1.1.1, h.1.1.1.1.1.1.1.1.1.2, ?_, ?_, ?_, h.1.1.1.2, ?_,
    h.1.2, h.2⟩
  · simp only [plainJson]
    simp only [Bool.and_eq_true, decide_eq_true_eq]
    exact ⟨h.1.1.1.1.1.1.1.1.2, h.1.1.1.1.1.1.1.2⟩
  · simp only [plainJson]
    simp only [Bool.and_eq_true, decide_eq_true_eq]
    exact ⟨h.1.1.1.1.1.1.2, h.1.1.1.1.1.2⟩
  · intro p hp
    have h4 := h.1.1.1.1.2 p hp
    simp only [Bool.and_eq_true] at h4
    exact h4
  · intro p hp
    have h4 := h.1.1.2 p hp
    simp only [Bool.and_eq_true] at h4
    exact h4

theorem buildBlocks_ok (d : BDoc) (h : goodDoc d = true) :
    ∀ b ∈ buildBlocks d, BlockOK "## ".data b := by
  obtain ⟨hm, hg, hh, hmc, hsk, _, hag, _, hex⟩ := goodDoc_spec d h
  intro b hb
  unfold buildBlocks at hb
  simp only [List.mem_append] at hb
  rcases hb with (((((hb | hb) | hb) | hb) | hb) | hb)
  · by_cases hc : (!d.claudeMd.isEmpty) = true
    · rw [if_pos hc] at hb
      simp only [List.mem_singleton] at hb
      subst hb
      exact guidanceBlockOK d.claudeMd hg
    · rw [if_neg hc] at hb
      simp at hb
  · by_cases hc : (!d.hooks.isEmpty) = true
    · rw [if_pos hc] at hb
      simp only [List.mem_singleton] at hb
      subst hb
      exact jsonBlockOK "hooks".data ⟨by decide, by decide, by decide⟩ d.hooks hh
    · rw [if_neg hc] at hb
      simp at hb
  · by_cases hc : (!d.skills.isEmpty) = true
    · rw [if_pos hc] at hb
      simp only [List.mem_singleton] at hb
      subst hb
      exact subsBlockOK "skills".data ⟨by decide, by decide, by decide⟩ d.skills hsk
    · rw [if_neg hc] at hb
      simp at hb
  · by_cases hc : (!d.agents.isEmpty) = true
    · rw [if_pos hc] at hb
      simp only [List.mem_singleton] at hb
      subst hb
      exact subsBlockOK "agents".data ⟨by decide, by decide, by decide⟩ d.agents hag
    · rw [if_neg hc] at hb
      simp at hb
  · by_cases hc : (!d.mcpServers.isEmpty) = true
    · rw [if_pos hc] at hb
      simp only [List.mem_singleton] at hb
      subst hb
      exact jsonBlockOK "mcp_servers".data ⟨by decide, by decide, by decide⟩
        d.mcpServers hmc
    · rw [if_neg hc] at hb
      simp at hb
  · by_cases hc : (!d.externalSkills.isEmpty) = true
    · rw [if_pos hc] at hb
      simp only [List.mem_singleton] at hb
      subst hb
      exact tableBlockOK d.externalSkills hex
    · rw [if_neg hc] at hb
      simp at hb

theorem blocks_noNl (bs : List (Str × List Str))
    (h : ∀ b ∈ bs, BlockOK "## ".data b) :
    ∀ l ∈ bs.flatMap (blockLines "## ".data), l.contains '\n' = false := by
  intro l hl
  rw [List.mem_flatMap] at hl
  obtain ⟨b, hb, hlb⟩ := hl
  obtain ⟨_, _, hnl, _, _, hlines⟩ := h b hb
  rw [show blockLines "## ".data b = ("## ".data ++ b.1) :: b.2 from rfl] at hlb
  rcases List.mem_cons.mp hlb with rfl | hlb
  · apply contains_eq_false_of_not_mem
    apply not_mem_app (by decide)
    apply not_mem_of_contains_eq_false
    simp only [noNl, Bool.not_eq_true'] at hnl
    exact hnl
  · exact hlines l hlb

theorem flatMap_subChunk_ne_nil (ps : List (Str × Str)) (hne : ps ≠ []) :
    (ps.flatMap fun p => blockLines "### ".data (p.1, mdLines p)) ≠ [] := by
  cases ps with
  | nil => exact absurd rfl hne
  | cons p rest =>
    rw [List.flatMap_cons]
    simp [blockLines]

theorem ne_nil_of_isEmpty_false {α : Type} {l : List α} (h : (!l.isEmpty) = true) :
    l ≠ [] := by
  intro hc
  subst hc
  simp at h

theorem blocks_snd_ne (d : BDoc) : ∀ b ∈ buildBlocks d, b.2 ≠ [] := by
  intro b hb
  unfold buildBlocks at hb
  simp only [List.mem_append] at hb
  rcases hb with (((((hb | hb) | hb) | hb) | hb) | hb)
  · by_cases hc : (!d.claudeMd.isEmpty) = true
    · rw [if_pos hc] at hb
      simp only [List.mem_singleton] at hb
      subst hb
      simp
    · rw [if_neg hc] at hb
      simp at hb
  · by_cases hc : (!d.hooks.isEmpty) = true
    · rw [if_pos hc] at hb
      simp only [List.mem_singleton] at hb
      subst hb
      simp
    · rw [if_neg hc] at hb
      simp at hb
  · by_cases hc : (!d.skills.isEmpty) = true
    · rw [if_pos hc] at hb
      simp only [List.mem_singleton] at hb
      subst hb
      exact flatMap_subChunk_ne_nil d.skills (ne_nil_of_isEmpty_false hc)
    · rw [if_neg hc] at hb
      simp at hb
  · by_cases hc : (!d.agents.isEmpty) = true
    · rw [if_pos hc] at hb
      simp only [List.mem_singleton] at hb
      subst hb
      exact flatMap_subChunk_ne_nil d.agents (ne_nil_of_isEmpty_false hc)
    · rw [if_neg hc] at hb
      simp at hb
  · by_cases hc : (!d.mcpServers.isEmpty) = true
    · rw [if_pos hc] at hb
      simp only [List.mem_singleton] at hb
      subst hb
      simp
    · rw [if_neg hc] at hb
      simp at hb
  · by_cases hc : (!d.externalSkills.isEmpty) = true
    · rw [if_pos hc] at hb
      simp only [List.mem_singleton] at hb
      subst hb
      simp
    · rw [if_neg hc] at hb
      simp at hb

theorem pre_inert (nm : Str) (hne : nm ≠ []) (ht : trimL nm = nm) :
    ∀ l ∈ [([] : Str), "# ".data ++ nm, []],
      isFenceLine l = false ∧ isHeadingLine "## ".data l = false := by
  intro l hl
  rcases List.mem_cons.mp hl with rfl | hl
  · exact ⟨isFenceLine_nil, isHeadingLine_nil _⟩
  · rcases List.mem_cons.mp hl with rfl | hl
    · obtain ⟨htrim, hf⟩ := heading_line_facts "# ".data nm (by decide) (by decide) hne ht
      refine ⟨hf, ?_⟩
      unfold isHeadingLine
      rw [htrim, show startsW "## ".data ("# ".data ++ nm) = false from rfl]
      rfl
    · rcases List.mem_cons.mp hl with rfl | hl
      · exact ⟨isFenceLine_nil, isHeadingLine_nil _⟩
      · simp at hl

theorem sectionSpans_build (d : BDoc) (h : goodDoc d = true) :
    sectionSpans (joinLines (([[], "# ".data ++ d.meta.name, []] : List Str) ++
      (buildBlocks d).flatMap (blockLines "## ".data))) =
      (buildBlocks d).map (fun b => (toLowerL b.1, trimL (joinLines b.2))) := by
  obtain ⟨hm, _, _, _, _, _, _, _, _⟩ := goodDoc_spec d h
  obtain ⟨_, hname, _, _, _⟩ := goodMeta_spec d.meta hm
  obtain ⟨hnne, hnnl, hnt, _, _, _, _⟩ := plainScalarStr_spec d.meta.name hname
  have hOK := buildBlocks_ok d h
  have hinert := pre_inert d.meta.name hnne hnt
  have hsplit : splitLines (joinLines
      (([[], "# ".data ++ d.meta.name, []] : List Str) ++
        (buildBlocks d).flatMap (blockLines "## ".data))) =
      ([[], "# ".data ++ d.meta.name, []] : List Str) ++
        (buildBlocks d).flatMap (blockLines "## ".data) := by
    apply splitLines_joinLines _ (by simp)
    intro l hl
    rcases List.mem_append.mp hl with hl | hl
    · rcases List.mem_cons.mp hl with rfl | hl
      · decide
      · rcases List.mem_cons.mp hl with rfl | hl
        · exact contains_eq_false_of_not_mem
            (not_mem_app (by decide) (not_mem_of_contains_eq_false hnnl))
        · rcases List.mem_cons.mp hl with rfl | hl
          · decide
          · simp at hl
    · exact blocks_noNl _ hOK l hl
  have hsecs : findTopLevelSections (joinLines
      (([[], "# ".data ++ d.meta.name, []] : List Str) ++
        (buildBlocks d).flatMap (blockLines "## ".data))) =
      secListB "## ".data true (buildBlocks d)
        (sizeLinesL ([[], "# ".data ++ d.meta.name, []] : List Str)) := by
    unfold findTopLevelSections
    rw [hsplit, findHeadingsGo_append,
      findHeadingsGo_nil_inert "## ".data true _ hinert 0,
      fenceTgl_of_no_fences _ false (fun l hl => (hinert l hl).1),
      List.nil_append, Nat.zero_add]
    exact findHeadingsGo_blocks "## ".data true (by decide) (by decide) _ hOK _
  unfold sectionSpans
  rw [hsecs]
  dsimp only
  rw [mapIdx_spanContent,
    spansRec_secListB "## ".data true (buildBlocks d) _ (blocks_snd_ne d)]
  simp

theorem Sections_ext {a b : Sections} (h1 : a.claude_md = b.claude_md)
    (h2 : a.hooks = b.hooks) (h3 : a.skills = b.skills) (h4 : a.agents = b.agents)
    (h5 : a.mcp_servers = b.mcp_servers)
    (h6 : a.external_skills = b.external_skills) : a = b := by
  cases a
  cases b
  simp only at h1 h2 h3 h4 h5 h6
  subst h1 h2 h3 h4 h5 h6
  rfl

theorem filter_opt_same (nm : Str) (c : Bool) (v : Str) :
    (if c then [(nm, v)] else []).filter (fun p => p.1 == nm) =
      if c then [(nm, v)] else [] := by
  cases c with
  | false => rfl
  | true =>
    rw [if_pos rfl]
    simp

theorem filter_opt_ne (nm : Str) (c : Bool) (k : Str) (v : Str)
    (hk : (k == nm) = false) :
    (if c then [(k, v)] else []).filter (fun p => p.1 == nm) = [] := by
  cases c with
  | false => rfl
  | true =>
    rw [if_pos rfl, List.filter_cons]
    simp [hk]

theorem guidance_span (g : Str) (h : plainGuidance g = true) :
    trimL (joinLines (splitLines (trimL g) ++ [[]])) = g := by
  rw [joinLines_append (splitLines (trimL g)) [[]] (splitOnCharL_ne_nil '\n' _) (by simp),
    show joinLines [[]] = [] from rfl, trimL_snoc_nl, joinLines_splitLines, trimL_idem,
    (plainGuidance_spec g h).1]

theorem nil_of_not_isEmpty_ne {α : Type} {l : List α} (h : ¬((!l.isEmpty) = true)) :
    l = [] := by
  cases hl : l with
  | nil => rfl
  | cons a t =>
    subst hl
    simp at h

theorem spans_shape (d : BDoc) :
    (buildBlocks d).map (fun b => (toLowerL b.1, trimL (joinLines b.2))) =
      (if !d.claudeMd.isEmpty then
        [(("claude_md".data : Str),
          trimL (joinLines (splitLines (trimL d.claudeMd) ++ [[]])))]
       else []) ++
      ((if !d.hooks.isEmpty then
        [(("hooks".data : Str), trimL (joinLines ("```json".data ::
          splitLines (jstringify 0 (.obj d.hooks)) ++ ["```".data, []])))] else []) ++
      ((if !d.skills.isEmpty then
        [(("skills".data : Str), trimL (joinLines (d.skills.flatMap fun p =>
          blockLines "### ".data (p.1, mdLines p))))] else []) ++
      ((if !d.agents.isEmpty then
        [(("agents".data : Str), trimL (joinLines (d.agents.flatMap fun p =>
          blockLines "### ".data (p.1, mdLines p))))] else []) ++
      ((if !d.mcpServers.isEmpty then
        [(("mcp_servers".data : Str), trimL (joinLines ("```json".data ::
          splitLines (jstringify 0 (.obj d.mcpServers)) ++ ["```".data, []])))] else []) ++
      (if !d.externalSkills.isEmpty then
        [(("external_skills".data : Str), trimL (joinLines
          ("| Name | Repository | Skill | Description |".data ::
           "|------|-----------|-------|-------------|".data ::
           d.externalSkills.map rowL ++ [[]])))] else []))))) := by
  unfold buildBlocks
  rw [List.map_append, List.map_append, List.map_append, List.map_append,
    List.map_append]
  rw [List.append_assoc, List.append_assoc, List.append_assoc, List.append_assoc]
  congr 1
  · cases hc : (!d.claudeMd.isEmpty) with
    | false => rfl
    | true =>
      rw [if_pos rfl, if_pos rfl, List.map_cons, List.map_nil]
      dsimp only
      rw [show toLowerL "claude_md".data = "claude_md".data from by decide]
  congr 1
  · cases hc : (!d.hooks.isEmpty) with
    | false => rfl
    | true =>
      rw [if_pos rfl, if_pos rfl, List.map_cons, List.map_nil]
      dsimp only
      rw [show toLowerL "hooks".data = "hooks".data from by decide]
  congr 1
  · cases hc : (!d.skills.isEmpty) with
    | false => rfl
    | true =>
      rw [if_pos rfl, if_pos rfl, List.map_cons, List.map_nil]
      dsimp only
      rw [show toLowerL "skills".data = "skills".data from by decide]
      rfl
  congr 1
  · cases hc : (!d.agents.isEmpty) with
    | false => rfl
    | true =>
      rw [if_pos rfl, if_pos rfl, List.map_cons, List.map_nil]
      dsimp only
      rw [show toLowerL "agents".data = "agents".data from by decide]
      rfl
  congr 1
  · cases hc : (!d.mcpServers.isEmpty) with
    | false => rfl
    | true =>
      rw [if_pos rfl, if_pos rfl, List.map_cons, List.map_nil]
      dsimp only
      rw [show toLowerL "mcp_servers".data = "mcp_servers".data from by decide]
  · cases hc : (!d.externalSkills.isEmpty) with
    | false => rfl
    | true =>
      rw [if_pos rfl, if_pos rfl, List.map_cons, List.map_nil]
      dsimp only
      rw [show toLowerL "external_skills".data = "external_skills".data from by decide]
      rfl

theorem extractSections_build (d : BDoc) (h : goodDoc d = true) :
    extractSections (joinLines (([[], "# ".data ++ d.meta.name, []] : List Str) ++
      (buildBlocks d).flatMap (blockLines "## ".data))) =
      { claude_md := d.claudeMd, hooks := .obj d.hooks, skills := d.skills,
        agents := d.agents, mcp_servers := .obj d.mcpServers,
        external_skills := d.externalSkills } := by
  obtain ⟨hm, hg, hh, hmc, hsk, hsknd, hag, hagnd, hex⟩ := goodDoc_spec d h
  unfold extractSections
  rw [sectionSpans_build d h, spans_shape d]
  apply Sections_ext
  · rw [foldl_applySection_claude_md]
    rw [List.filter_append, List.filter_append, List.filter_append, List.filter_append,
      List.filter_append,
      filter_opt_same "claude_md".data _ _,
      filter_opt_ne "claude_md".data _ _ _ (by decide),
      filter_opt_ne "claude_md".data _ _ _ (by decide),
      filter_opt_ne "claude_md".data _ _ _ (by decide),
      filter_opt_ne "claude_md".data _ _ _ (by decide),
      filter_opt_ne "claude_md".data _ _ _ (by decide)]
    simp only [List.append_nil]
    by_cases hc : (!d.claudeMd.isEmpty) = true
    · rw [if_pos hc, List.getLast?_singleton, Option.elim_some]
      exact guidance_span d.claudeMd hg
    · rw [if_neg hc, List.getLast?_nil, Option.elim_none]
      exact (nil_of_not_isEmpty_ne hc).symm
  · rw [foldl_applySection_hooks]
    rw [List.filter_append, List.filter_append, List.filter_append, List.filter_append,
      List.filter_append,
      filter_opt_ne "hooks".data _ _ _ (by decide),
      filter_opt_same "hooks".data _ _,
      filter_opt_ne "hooks".data _ _ _ (by decide),
      filter_opt_ne "hooks".data _ _ _ (by decide),
      filter_opt_ne "hooks".data _ _ _ (by decide),
      filter_opt_ne "hooks".data _ _ _ (by decide)]
    simp only [List.append_nil, List.nil_append]
    by_cases hc : (!d.hooks.isEmpty) = true
    · rw [if_pos hc, List.getLast?_singleton, Option.elim_some]
      exact jsonOrEmpty_block d.hooks hh
    · rw [if_neg hc, List.getLast?_nil, Option.elim_none]
      rw [nil_of_not_isEmpty_ne hc]
  · rw [foldl_applySection_skills]
    rw [List.filter_append, List.filter_append, List.filter_append, List.filter_append,
      List.filter_append,
      filter_opt_ne "skills".data _ _ _ (by decide),
      filter_opt_ne "skills".data _ _ _ (by decide),
      filter_opt_same "skills".data _ _,
      filter_opt_ne "skills".data _ _ _ (by decide),
      filter_opt_ne "skills".data _ _ _ (by decide),
      filter_opt_ne "skills".data _ _ _ (by decide)]
    simp only [List.append_nil, List.nil_append]
    by_cases hc : (!d.skills.isEmpty) = true
    · rw [if_pos hc, List.getLast?_singleton, Option.elim_some]
      exact extractNamedSubsections_build d.skills hsk hsknd (ne_nil_of_isEmpty_false hc)
    · rw [if_neg hc, List.getLast?_nil, Option.elim_none]
      exact (nil_of_not_isEmpty_ne hc).symm
  · rw [foldl_applySection_agents]
    rw [List.filter_append, List.filter_append, List.filter_append, List.filter_append,
      List.filter_append,
      filter_opt_ne "agents".data _ _ _ (by decide),
      filter_opt_ne "agents".data _ _ _ (by decide),
      filter_opt_ne "agents".data _ _ _ (by decide),
      filter_opt_same "agents".data _ _,
      filter_opt_ne "agents".data _ _ _ (by decide),
      filter_opt_ne "agents".data _ _ _ (by decide)]
    simp only [List.append_nil, List.nil_append]
    by_cases hc : (!d.agents.isEmpty) = true
    · rw [if_pos hc, List.getLast?_singleton, Option.elim_some]
      exact extractNamedSubsections_build d.agents hag hagnd (ne_nil_of_isEmpty_false hc)
    · rw [if_neg hc, List.getLast?_nil, Option.elim_none]
      exact (nil_of_not_isEmpty_ne hc).symm
  · rw [foldl_applySection_mcp_servers]
    rw [List.filter_append, List.filter_append, List.filter_append, List.filter_append,
      List.filter_append,
      filter_opt_ne "mcp_servers".data _ _ _ (by decide),
      filter_opt_ne "mcp_servers".data _ _ _ (by decide),
      filter_opt_ne "mcp_servers".data _ _ _ (by decide),
      filter_opt_ne "mcp_servers".data _ _ _ (by decide),
      filter_opt_same "mcp_servers".data _ _,
      filter_opt_ne "mcp_servers".data _ _ _ (by decide)]
    simp only [List.append_nil, List.nil_append]
    by_cases hc : (!d.mcpServers.isEmpty) = true
    · rw [if_pos hc, List.getLast?_singleton, Option.elim_some]
      exact jsonOrEmpty_block d.mcpServers hmc
    · rw [if_neg hc, List.getLast?_nil, Option.elim_none]
      rw [nil_of_not_isEmpty_ne hc]
  · rw [foldl_applySection_external_skills]
    rw [List.filter_append, List.filter_append, List.filter_append, List.filter_append,
      List.filter_append,
      filter_opt_ne "external_skills".data _ _ _ (by decide),
      filter_opt_ne "external_skills".data _ _ _ (by decide),
      filter_opt_ne "external_skills".data _ _ _ (by decide),
      filter_opt_ne "external_skills".data _ _ _ (by decide),
      filter_opt_ne "external_skills".data _ _ _ (by decide),
      filter_opt_same "external_skills".data _ _]
    simp only [List.append_nil, List.nil_append]
    by_cases hc : (!d.externalSkills.isEmpty) = true
    · rw [if_pos hc, List.getLast?_singleton, Option.elim_some]
      exact parseExternalSkillsTable_build d.externalSkills hex
        (ne_nil_of_isEmpty_false hc)
    · rw [if_neg hc, List.getLast?_nil, Option.elim_none]
      exact (nil_of_not_isEmpty_ne hc).symm

theorem splitLines_joinLines_flat :
    ∀ (L : List Str), L ≠ [] → splitLines (joinLines L) = L.flatMap splitLines := by
  intro L
  induction L with
  | nil => intro h; exact absurd rfl h
  | cons p rest ih =>
    intro _
    cases rest with
    | nil =>
      rw [show joinLines [p] = p from rfl]
      simp
    | cons q r =>
      rw [joinLines_cons p (q :: r) (by simp), splitLines_append, ih (by simp)]
      simp

theorem flatMap_splitLines_singles :
    ∀ (L : List Str), (∀ l ∈ L, l.contains '\n' = false) → L.flatMap splitLines = L := by
  intro L
  induction L with
  | nil => intro _; rfl
  | cons p rest ih =>
    intro h
    rw [List.flatMap_cons, splitLines_single p (h p (by simp)),
      ih (fun x hx => h x (by simp [hx]))]
    rfl

theorem foldr_groupLines (groups : List (Str × List Str)) (h : ∀ g ∈ groups, g.2 ≠ []) :
    groups.foldr (fun g acc =>
      (if g.2.isEmpty then [] else
        ("  ".data ++ g.1 ++ ":".data) ::
          g.2.map (fun v => "    - \"".data ++ v ++ "\"".data)) ++ acc) [] =
      groups.flatMap groupLines := by
  induction groups with
  | nil => rfl
  | cons g rest ih =>
    have hge : ¬(g.2.isEmpty = true) := by
      rw [isEmpty_false_of_ne_nil (h g (by simp))]
      simp
    rw [List.foldr_cons, List.flatMap_cons, if_neg hge,
      ih (fun x hx => h x (by simp [hx]))]
    rfl

theorem buildFrontmatterLines_eq (meta : BMeta) (h : goodMeta meta = true) :
    buildFrontmatterLines meta = "---".data :: (fmInner meta ++ ["---".data]) := by
  obtain ⟨_, _, _, _, hdet⟩ := goodMeta_spec meta h
  unfold buildFrontmatterLines fmInner
  cases hd : meta.detection with
  | none => rfl
  | some groups =>
    obtain ⟨hgs, _⟩ := hdet groups hd
    dsimp only
    rw [foldr_groupLines groups (fun g hg => (hgs g hg).2.1)]
    rfl

theorem plainDetKey_spec (s : Str) (h : plainDetKey s = true) :
    s ≠ [] ∧ s.contains '\n' = false ∧ trimL s = s ∧ s.contains ':' = false ∧
      startsW "- ".data s = false ∧ startsW "#".data s = false := by
  simp only [plainDetKey, noNl, trimStable, Bool.and_eq_true, Bool.not_eq_true',
    beq_iff_eq] at h
  refine ⟨?_, h.1.1.1.1.2, h.1.1.1.2, h.1.1.2, h.1.2, h.2⟩
  intro hc
  subst hc
  simp at h

theorem fmInner_noNl (meta : BMeta) (h : goodMeta meta = true) :
    ∀ l ∈ fmInner meta, l.contains '\n' = false := by
  obtain ⟨hid, hnm, hds, _, hdet⟩ := goodMeta_spec meta h
  intro l hl
  unfold fmInner at hl
  rcases List.mem_append.mp hl with hl | hl
  · rcases List.mem_cons.mp hl with rfl | hl
    · exact contains_eq_false_of_not_mem (not_mem_app (by decide)
        (not_mem_of_contains_eq_false (plainScalarStr_spec _ hid).2.1))
    · rcases List.mem_cons.mp hl with rfl | hl
      · exact contains_eq_false_of_not_mem (not_mem_app (by decide)
          (not_mem_of_contains_eq_false (plainScalarStr_spec _ hnm).2.1))
      · rcases List.mem_cons.mp hl with rfl | hl
        · exact contains_eq_false_of_not_mem (not_mem_app (by decide)
            (not_mem_of_contains_eq_false (plainScalarStr_spec _ hds).2.1))
        · rcases List.mem_cons.mp hl with rfl | hl
          · decide
          · simp at hl
  · cases hd : meta.detection with
    | none =>
      rw [hd] at hl
      simp at hl
    | some groups =>
      rw [hd] at hl
      obtain ⟨hgs, _⟩ := hdet groups hd
      rcases List.mem_cons.mp hl with rfl | hl
      · decide
      · rw [List.mem_flatMap] at hl
        obtain ⟨g, hg, hlg⟩ := hl
        obtain ⟨hk, _, hvs⟩ := hgs g hg
        rcases List.mem_cons.mp hlg with rfl | hlg
        · exact contains_eq_false_of_not_mem (not_mem_app (not_mem_app (by decide)
            (not_mem_of_contains_eq_false (plainDetKey_spec _ hk).2.1)) (by decide))
        · rw [List.mem_map] at hlg
          obtain ⟨v, hv, rfl⟩ := hlg
          have hvn := hvs v hv
          simp only [noNl, Bool.not_eq_true'] at hvn
          exact contains_eq_false_of_not_mem (not_mem_app (not_mem_app (by decide)
            (not_mem_of_contains_eq_false hvn)) (by decide))

theorem fmLines_noNl (meta : BMeta) (h : goodMeta meta = true) :
    ∀ l ∈ buildFrontmatterLines meta, l.contains '\n' = false := by
  rw [buildFrontmatterLines_eq meta h]
  intro l hl
  rcases List.mem_cons.mp hl with rfl | hl
  · decide
  · rcases List.mem_append.mp hl with hl | hl
    · exact fmInner_noNl meta h l hl
    · simp only [List.mem_singleton] at hl
      subst hl
      decide

theorem skillsChunk_lines (ps : List (Str × Str))
    (h : ∀ p ∈ ps, plainSubName p.1 = true) :
    (ps.foldr (fun p acc =>
      ["### ".data ++ p.1, "```markdown".data, trimL p.2, "```".data, []] ++ acc)
      []).flatMap splitLines =
      ps.flatMap fun p => blockLines "### ".data (p.1, mdLines p) := by
  induction ps with
  | nil => rfl
  | cons p rest ih =>
    rw [List.foldr_cons, List.flatMap_append, ih (fun x hx => h x (by simp [hx])),
      List.flatMap_cons]
    congr 1
    simp only [List.flatMap_cons, List.flatMap_nil,
      splitLines_single ("### ".data ++ p.1) (contains_eq_false_of_not_mem
        (not_mem_app (by decide) (not_mem_of_contains_eq_false
          (plainSubName_spec p.1 (h p (by simp))).2.1))),
      show splitLines "```markdown".data = ["```markdown".data] from by decide,
      show splitLines "```".data = ["```".data] from by decide,
      show splitLines ([] : Str) = [[]] from rfl]
    simp [blockLines, mdLines]

theorem splitLines_build (d : BDoc) (h : goodDoc d = true) :
    splitLines (buildTemplateContent d) =
      ("---".data :: (fmInner d.meta ++ ["---".data])) ++
        (([[], "# ".data ++ d.meta.name, []] : List Str) ++
          (buildBlocks d).flatMap (blockLines "## ".data)) := by
  obtain ⟨hm, hg, hh, hmc, hsk, _, hag, _, hex⟩ := goodDoc_spec d h
  obtain ⟨_, hname, _, _, _⟩ := goodMeta_spec d.meta hm
  have hC1 : (if !d.claudeMd.isEmpty then
      ["## claude_md".data, trimL d.claudeMd, []] else []).flatMap splitLines =
      (if !d.claudeMd.isEmpty then
        [(("claude_md".data : Str), splitLines (trimL d.claudeMd) ++ [[]])]
       else []).flatMap (blockLines "## ".data) := by
    cases hc : (!d.claudeMd.isEmpty) with
    | false => rfl
    | true =>
      rw [if_pos rfl, if_pos rfl]
      simp only [List.flatMap_cons, List.flatMap_nil,
        show splitLines "## claude_md".data = ["## claude_md".data] from by decide,
        show splitLines ([] : Str) = [[]] from rfl]
      simp [blockLines]
  have hC2 : (if !d.hooks.isEmpty then
      ["## hooks".data, "```json".data, jstringify 0 (.obj d.hooks), "```".data, []]
      else []).flatMap splitLines =
      (if !d.hooks.isEmpty then
        [(("hooks".data : Str), "```json".data ::
          splitLines (jstringify 0 (.obj d.hooks)) ++ ["```".data, []])]
       else []).flatMap (blockLines "## ".data) := by
    cases hc : (!d.hooks.isEmpty) with
    | false => rfl
    | true =>
      rw [if_pos rfl, if_pos rfl]
      simp only [List.flatMap_cons, List.flatMap_nil,
        show splitLines "## hooks".data = ["## hooks".data] from by decide,
        show splitLines "```json".data = ["```json".data] from by decide,
        show splitLines "```".data = ["```".data] from by decide,
        show splitLines ([] : Str) = [[]] from rfl]
      simp [blockLines]
  have hC3 : (if !d.skills.isEmpty then
      "## skills".data ::
        d.skills.foldr (fun p acc =>
          ["### ".data ++ p.1, "```markdown".data, trimL p.2, "```".data, []] ++ acc) []
      else []).flatMap splitLines =
      (if !d.skills.isEmpty then
        [(("skills".data : Str),
          d.skills.flatMap fun p => blockLines "### ".data (p.1, mdLines p))]
       else []).flatMap (blockLines "## ".data) := by
    cases hc : (!d.skills.isEmpty) with
    | false => rfl
    | true =>
      rw [if_pos rfl, if_pos rfl]
      simp only [List.flatMap_cons, List.flatMap_nil,
        show splitLines "## skills".data = ["## skills".data] from by decide,
        skillsChunk_lines d.skills (fun p hp => (hsk p hp).1)]
      simp [blockLines]
  have hC4 : (if !d.agents.isEmpty then
      "## agents".data ::
        d.agents.foldr (fun p acc =>
          ["### ".data ++ p.1, "```markdown".data, trimL p.2, "```".data, []] ++ acc) []
      else []).flatMap splitLines =
      (if !d.agents.isEmpty then
        [(("agents".data : Str),
          d.agents.flatMap fun p => blockLines "### ".data (p.1, mdLines p))]
       else []).flatMap (blockLines "## ".data) := by
    cases hc : (!d.agents.isEmpty) with
    | false => rfl
    | true =>
      rw [if_pos rfl, if_pos rfl]
      simp only [List.flatMap_cons, List.flatMap_nil,
        show splitLines "## agents".data = ["## agents".data] from by decide,
        skillsChunk_lines d.agents (fun p hp => (hag p hp).1)]
      simp [blockLines]
  have hC5 : (if !d.mcpServers.isEmpty then
      ["## mcp_servers".data, "```json".data, jstringify 0 (.obj d.mcpServers),
       "```".data, []] else []).flatMap splitLines =
      (if !d.mcpServers.isEmpty then
        [(("mcp_servers".data : Str), "```json".data ::
          splitLines (jstringify 0 (.obj d.mcpServers)) ++ ["```".data, []])]
       else []).flatMap (blockLines "## ".data) := by
    cases hc : (!d.mcpServers.isEmpty) with
    | false => rfl
    | true =>
      rw [if_pos rfl, if_pos rfl]
      simp only [List.flatMap_cons, List.flatMap_nil,
        show splitLines "## mcp_servers".data = ["## mcp_servers".data] from by decide,
        show splitLines "```json".data = ["```json".data] from by decide,
        show splitLines "```".data = ["```".data] from by decide,
        show splitLines ([] : Str) = [[]] from rfl]
      simp [blockLines]
  have hC6 : (if !d.externalSkills.isEmpty then
      ["## external_skills".data,
       "| Name | Repository | Skill | Description |".data,
       "|------|-----------|-------|-------------|".data] ++
        d.externalSkills.map (fun r =>
          "| ".data ++ r.name ++ " | ".data ++ r.repository ++ " | ".data ++ r.skill ++
            " | ".data ++ r.description ++ " |".data) ++ [[]]
      else []).flatMap splitLines =
      (if !d.externalSkills.isEmpty then
        [(("external_skills".data : Str),
          "| Name | Repository | Skill | Description |".data ::
            "|------|-----------|-------|-------------|".data ::
            d.externalSkills.map rowL ++ [[]])]
       else []).flatMap (blockLines "## ".data) := by
    cases hc : (!d.externalSkills.isEmpty) with
    | false => rfl
    | true =>
      rw [if_pos rfl, if_pos rfl]
      have hrows : (d.externalSkills.map rowL).flatMap splitLines =
          d.externalSkills.map rowL := by
        apply flatMap_splitLines_singles
        intro l hl
        rw [List.mem_map] at hl
        obtain ⟨r, hr, rfl⟩ := hl
        exact rowL_noNl r (hex r hr)
      rw [show (d.externalSkills.map (fun r =>
        "| ".data ++ r.name ++ " | ".data ++ r.repository ++ " | ".data ++ r.skill ++
          " | ".data ++ r.description ++ " |".data)) = d.externalSkills.map rowL from rfl]
      rw [List.flatMap_append, List.flatMap_append, hrows]
      simp only [List.flatMap_cons, List.flatMap_nil,
        show splitLines "## external_skills".data = ["## external_skills".data]
          from by decide,
        show splitLines "| Name | Repository | Skill | Description |".data =
          ["| Name | Repository | Skill | Description |".data] from by decide,
        show splitLines "|------|-----------|-------|-------------|".data =
          ["|------|-----------|-------|-------------|".data] from by decide,
        show splitLines ([] : Str) = [[]] from rfl]
      simp [blockLines]
  unfold buildTemplateContent
  rw [splitLines_joinLines_flat (buildParts d) (by unfold buildParts; simp)]
  unfold buildParts buildBlocks
  rw [List.flatMap_append, List.flatMap_append, List.flatMap_append, List.flatMap_append,
    List.flatMap_append, List.flatMap_append,
    List.flatMap_append, List.flatMap_append, List.flatMap_append, List.flatMap_append,
    List.flatMap_append]
  rw [hC1, hC2, hC3, hC4, hC5, hC6]
  simp only [List.flatMap_cons, List.flatMap_nil,
    show splitLines ([] : Str) = [[]] from rfl,
    splitLines_single ("# ".data ++ d.meta.name) (contains_eq_false_of_not_mem
      (not_mem_app (by decide) (not_mem_of_contains_eq_false
        (plainScalarStr_spec _ hname).2.1)))]
  rw [show buildFrontmatter d.meta = joinLines (buildFrontmatterLines d.meta) from rfl,
    splitLines_joinLines (buildFrontmatterLines d.meta)
      (by rw [buildFrontmatterLines_eq d.meta hm]; simp) (fmLines_noNl d.meta hm),
    buildFrontmatterLines_eq d.meta hm]
  rw [show (List.map rowL d.externalSkills) = (d.externalSkills.map (fun r =>
    "| ".data ++ r.name ++ " | ".data ++ r.repository ++ " | ".data ++ r.skill ++
      " | ".data ++ r.description ++ " |".data)) from rfl]
  simp [blockLines, mdLines]

theorem beq_false_of_headD {a b : Str} (h : a.headD 'x' ≠ b.headD 'x') :
    (a == b) = false := by
  cases hab : a == b with
  | false => rfl
  | true =>
    rw [beq_iff_eq] at hab
    exact absurd (by rw [hab]) h

theorem beq_false_of_getLastD {a b : Str} (h : a.getLastD 'x' ≠ b.getLastD 'x') :
    (a == b) = false := by
  cases hab : a == b with
  | false => rfl
  | true =>
    rw [beq_iff_eq] at hab
    exact absurd (by rw [hab]) h

theorem findIdxL_no_hit {α : Type} (p : α → Bool) :
    ∀ (A : List α), (∀ l ∈ A, p l = false) →
      ∀ (b : α) (B : List α), p b = true →
      findIdxL p (A ++ b :: B) = some A.length := by
  intro A
  induction A with
  | nil =>
    intro _ b B hb
    show (if p b then some 0 else (findIdxL p B).map (· + 1)) = some 0
    rw [if_pos hb]
  | cons a A' ih =>
    intro h b B hb
    show (if p a then some 0 else (findIdxL p (A' ++ b :: B)).map (· + 1)) =
      some (a :: A').length
    rw [if_neg (by rw [h a (by simp)]; simp), ih (fun x hx => h x (by simp [hx])) b B hb]
    rfl

theorem fmScalarLine_trim (pre v : Str) (hpre : jsWhitespace (pre.headD 'x') = false)
    (hpne : pre ≠ []) (hv : plainScalarStr v = true) : trimL (pre ++ v) = pre ++ v := by
  apply trimL_eq_self_of_ends
  · rw [headD_append_left _ _ _ hpne]
    exact hpre
  · rw [getLastD_append_right _ _ _ (plainScalarStr_spec v hv).1]
    exact trimStable_getLastD v (plainScalarStr_spec v hv).2.2.1 (plainScalarStr_spec v hv).1

theorem allWS_spaces2 : allWS "  ".data := by
  intro c hc
  rw [show "  ".data = [' ', ' '] from rfl] at hc
  rcases List.mem_cons.mp hc with rfl | hc
  · rfl
  · rcases List.mem_cons.mp hc with rfl | hc
    · rfl
    · simp at hc

theorem allWS_spaces4 : allWS "    ".data := by
  intro c hc
  rw [show "    ".data = [' ', ' ', ' ', ' '] from rfl] at hc
  rcases List.mem_cons.mp hc with rfl | hc
  · rfl
  · rcases List.mem_cons.mp hc with rfl | hc
    · rfl
    · rcases List.mem_cons.mp hc with rfl | hc
      · rfl
      · rcases List.mem_cons.mp hc with rfl | hc
        · rfl
        · simp at hc

theorem fmKeyLine_trim (k : Str) (hk : plainDetKey k = true) :
    trimL ("  ".data ++ k ++ ":".data) = k ++ ":".data := by
  obtain ⟨hne, _, ht, _, _, _⟩ := plainDetKey_spec k hk
  rw [List.append_assoc, trimL_ws_append _ _ allWS_spaces2]
  apply trimL_eq_self_of_ends
  · rw [headD_append_left _ _ _ hne]
    exact trimStable_headD k ht hne
  · rw [getLastD_append_right _ _ _ (by decide)]
    decide

theorem fmItemLine_trim (v : Str) :
    trimL ("    - \"".data ++ v ++ "\"".data) = "- \"".data ++ v ++ "\"".data := by
  rw [show "    - \"".data ++ v ++ "\"".data =
    "    ".data ++ ("- \"".data ++ v ++ "\"".data) from by simp,
    trimL_ws_append _ _ allWS_spaces4]
  apply trimL_eq_self_of_ends
  · rw [show "- \"".data ++ v ++ "\"".data =
      "- \"".data ++ (v ++ "\"".data) from by simp,
      headD_append_left _ _ _ (by decide)]
    decide
  · rw [getLastD_append_right _ _ _ (by decide)]
    decide

theorem fmInner_not_delim (meta : BMeta) (h : goodMeta meta = true) :
    ∀ l ∈ fmInner meta, (trimL l == "---".data) = false := by
  obtain ⟨hid, hnm, hds, _, hdet⟩ := goodMeta_spec meta h
  intro l hl
  unfold fmInner at hl
  rcases List.mem_append.mp hl with hl | hl
  · rcases List.mem_cons.mp hl with rfl | hl
    · apply beq_false_of_headD
      rw [fmScalarLine_trim "id: ".data _ (by decide) (by decide) hid,
        headD_append_left _ _ _ (by decide)]
      decide
    · rcases List.mem_cons.mp hl with rfl | hl
      · apply beq_false_of_headD
        rw [fmScalarLine_trim "name: ".data _ (by decide) (by decide) hnm,
          headD_append_left _ _ _ (by decide)]
        decide
      · rcases List.mem_cons.mp hl with rfl | hl
        · apply beq_false_of_headD
          rw [fmScalarLine_trim "description: ".data _ (by decide) (by decide) hds,
            headD_append_left _ _ _ (by decide)]
          decide
        · rcases List.mem_cons.mp hl with rfl | hl
          · decide
          · simp at hl
  · cases hd : meta.detection with
    | none =>
      rw [hd] at hl
      simp at hl
    | some groups =>
      rw [hd] at hl
      obtain ⟨hgs, _⟩ := hdet groups hd
      rcases List.mem_cons.mp hl with rfl | hl
      · decide
      · rw [List.mem_flatMap] at hl
        obtain ⟨g, hg, hlg⟩ := hl
        rcases List.mem_cons.mp hlg with rfl | hlg
        · apply beq_false_of_getLastD
          rw [fmKeyLine_trim g.1 (hgs g hg).1, getLastD_append_right _ _ _ (by decide)]
          decide
        · rw [List.mem_map] at hlg
          obtain ⟨v, hv, rfl⟩ := hlg
          apply beq_false_of_getLastD
          rw [fmItemLine_trim v, getLastD_append_right _ _ _ (by decide)]
          decide

theorem extractFrontmatter_build (d : BDoc) (h : goodDoc d = true) :
    extractFrontmatter (buildTemplateContent d) =
      (joinLines (fmInner d.meta),
       joinLines (([[], "# ".data ++ d.meta.name, []] : List Str) ++
         (buildBlocks d).flatMap (blockLines "## ".data))) := by
  obtain ⟨hm, _, _, _, _, _, _, _, _⟩ := goodDoc_spec d h
  have hfind : findIdxL (fun l => trimL l == "---".data)
      (fmInner d.meta ++ "---".data ::
        (([[], "# ".data ++ d.meta.name, []] : List Str) ++
          (buildBlocks d).flatMap (blockLines "## ".data))) =
      some (fmInner d.meta).length :=
    findIdxL_no_hit _ (fmInner d.meta) (fmInner_not_delim d.meta hm) _ _ (by decide)
  unfold extractFrontmatter
  rw [splitLines_build d h, List.cons_append, List.append_assoc,
    List.singleton_append]
  dsimp only
  rw [if_neg (by decide), hfind]
  dsimp only
  rw [List.take_left, drop_append_add]
  rfl

theorem fmStep_detection_t (st : FmState) :
    fmStep st "detection:".data = some { st with
      result := alSet st.result "detection".data (.obj []),
      parentKey := some "detection".data, parentIndent := 0, childKey := none } := rfl

theorem fmStep_version_t (st : FmState) :
    fmStep st "version: 1".data = some { st with
      result := alSet st.result "version".data (.scalar (.num 1)),
      parentKey := none, childKey := none } := rfl

theorem foldlM_append_t (l1 l2 : List Str) (st : FmState) :
    (l1 ++ l2).foldlM fmStep st =
      (l1.foldlM fmStep st).bind (fun st1 => l2.foldlM fmStep st1) := by
  rw [List.foldlM_append]
  rfl

theorem getLastD_irrel {v : Str} (h : v ≠ []) (d d' : Char) :
    v.getLastD d = v.getLastD d' := by
  rw [List.getLastD_eq_getLast?, List.getLastD_eq_getLast?, List.getLast?_eq_getLast v h]
  rfl

theorem trimStartL_eq_self (s : Str) (h : jsWhitespace (s.headD 'x') = false) :
    trimStartL s = s := by
  cases s with
  | nil => rfl
  | cons c r =>
    rw [List.headD_cons] at h
    show (c :: r).dropWhile jsWhitespace = c :: r
    rw [List.dropWhile_cons, if_neg (by simp [h])]

theorem contains_eq_true_of_mem {c : Char} {l : Str} (h : c ∈ l) :
    l.contains c = true := by
  simpa using h

theorem stripQuotesJs_plain (v : Str) (hne : v ≠ [])
    (hq1 : isQuoteChar (v.headD 'x') = false)
    (hq2 : isQuoteChar (v.getLastD 'x') = false) :
    stripQuotesJs v = v := by
  cases v with
  | nil => exact absurd rfl hne
  | cons c r =>
    rw [List.headD_cons] at hq1
    unfold stripQuotesJs
    dsimp only
    rw [if_neg (by simp [hq1])]
    have hgl : (c :: r).getLast? = some ((c :: r).getLastD 'x') := by
      rw [List.getLastD_eq_getLast?, List.getLast?_eq_getLast _ (by simp)]
      rfl
    rw [hgl]
    show (if isQuoteChar ((c :: r).getLastD 'x') = true then (c :: r).dropLast
      else c :: r) = c :: r
    rw [List.getLastD_eq_getLast?] at hq2
    rw [if_neg (by rw [List.getLastD_eq_getLast?, hq2]; simp)]

theorem parseScalar_plain (v : Str) (hv : plainScalarStr v = true) :
    parseScalar v = .str v := by
  obtain ⟨hne, _, ht, hq1, hq2, hdig, _⟩ := plainScalarStr_spec v hv
  have hd : isDigitsL v = false := by
    unfold isDigitsL
    rw [hdig]
    simp
  unfold parseScalar
  dsimp only
  rw [stripQuotesJs_plain v hne hq1 hq2, hd]
  rfl

theorem fmStep_scalar (st : FmState) (key v : Str)
    (hkne : key ≠ []) (hkh : jsWhitespace (key.headD 'x') = false)
    (hkhash : startsW "#".data (key ++ ':' :: ' ' :: v) = false)
    (hkc : ∀ c ∈ key, (c == ':') = false)
    (hkt : trimL key = key)
    (hvne : v ≠ []) (hvbr : v ≠ "[]".data) (hvt : trimL v = v)
    (hvl : jsWhitespace (v.getLastD 'x') = false) :
    fmStep st (key ++ ':' :: ' ' :: v) =
      some { st with result := alSet st.result key (.scalar (parseScalar v)),
                     parentKey := none, childKey := none } := by
  have hlne : key ++ ':' :: ' ' :: v ≠ [] := by
    cases key with
    | nil => exact absurd rfl hkne
    | cons a t => simp
  have htrim : trimL (key ++ ':' :: ' ' :: v) = key ++ ':' :: ' ' :: v := by
    apply trimL_eq_self_of_ends
    · rw [headD_append_left _ _ _ hkne]
      exact hkh
    · rw [getLastD_append_right _ _ _ (by simp), List.getLastD_cons, List.getLastD_cons,
        getLastD_irrel hvne ' ' 'x']
      exact hvl
  have hstart : trimStartL (key ++ ':' :: ' ' :: v) = key ++ ':' :: ' ' :: v := by
    apply trimStartL_eq_self
    rw [headD_append_left _ _ _ hkne]
    exact hkh
  have hidx : idxOfChar ':' (key ++ ':' :: ' ' :: v) = some key.length := by
    unfold idxOfChar
    exact findIdxL_no_hit _ key hkc ':' (' ' :: v) (by simp)
  have hval : trimL ((key ++ ':' :: ' ' :: v).drop (key.length + 1)) = v := by
    rw [drop_append_add, List.drop_succ_cons, List.drop_zero,
      show (' ' :: v) = [' '] ++ v from rfl, trimL_ws_append _ _ allWS_sp, hvt]
  have hkey : trimL ((key ++ ':' :: ' ' :: v).take key.length) = key := by
    rw [List.take_left, hkt]
  unfold fmStep
  rw [htrim, if_neg (by
    intro hor
    rcases hor with hnil | hsw
    · exact hlne hnil
    · rw [hkhash] at hsw
      cases hsw)]
  dsimp only
  rw [hstart, if_pos ⟨by omega, contains_eq_true_of_mem (by simp)⟩, hidx]
  dsimp only
  rw [hkey, hval, if_pos ⟨hvne, hvbr⟩]

theorem startsW_dash_key (k : Str) (h : startsW "- ".data k = false) (hne : k ≠ []) :
    startsW "- ".data (k ++ ":".data) = false := by
  cases k with
  | nil => exact absurd rfl hne
  | cons c r =>
    show (('-' == c) && startsW " ".data (r ++ ":".data)) = false
    cases hc : ('-' == c) with
    | false => rfl
    | true =>
      rw [show startsW "- ".data (c :: r) = (('-' == c) && startsW " ".data r) from rfl,
        hc, Bool.true_and] at h
      rw [Bool.true_and]
      cases r with
      | nil => rfl
      | cons c2 r2 =>
        have h2 : (' ' == c2) = false := by
          cases hc2 : (' ' == c2) with
          | false => rfl
          | true =>
            rw [show startsW " ".data (c2 :: r2) = ((' ' == c2) && true) from rfl, hc2]
              at h
            simp at h
        rw [show startsW " ".data ((c2 :: r2) ++ ":".data) =
          ((' ' == c2) && true) from rfl, h2]
        rfl

theorem startsW_hash_key (k : Str) (h : startsW "#".data k = false) (hne : k ≠ []) :
    startsW "#".data (k ++ ":".data) = false := by
  cases k with
  | nil => exact absurd rfl hne
  | cons c r =>
    have h2 : ('#' == c) = false := by
      cases hc : ('#' == c) with
      | false => rfl
      | true =>
        rw [show startsW "#".data (c :: r) = (('#' == c) && true) from rfl, hc] at h
        simp at h
    rw [show startsW "#".data ((c :: r) ++ ":".data) = (('#' == c) && true) from rfl, h2]
    rfl

theorem alGet_append_last {κ α : Type} [DecidableEq κ] :
    ∀ (m : List (κ × α)) (k : κ) (w : α), (∀ q ∈ m, q.1 ≠ k) →
      alGet (m ++ [(k, w)]) k = some w := by
  intro m
  induction m with
  | nil =>
    intro k w _
    show (if k = k then some w else alGet [] k) = some w
    rw [if_pos rfl]
  | cons q r ih =>
    intro k w h
    obtain ⟨qk, qv⟩ := q
    show (if qk = k then some qv else alGet (r ++ [(k, w)]) k) = some w
    rw [if_neg (h (qk, qv) (by simp)), ih k w (fun x hx => h x (by simp [hx]))]

theorem alSet_append_last {κ α : Type} [DecidableEq κ] :
    ∀ (m : List (κ × α)) (k : κ) (v w : α), (∀ q ∈ m, q.1 ≠ k) →
      alSet (m ++ [(k, w)]) k v = m ++ [(k, v)] := by
  intro m
  induction m with
  | nil =>
    intro k v w _
    show (if k = k then (k, v) :: [] else (k, w) :: alSet [] k v) = [(k, v)]
    rw [if_pos rfl]
  | cons q r ih =>
    intro k v w h
    obtain ⟨qk, qv⟩ := q
    show (if qk = k then (k, v) :: (r ++ [(k, w)])
      else (qk, qv) :: alSet (r ++ [(k, w)]) k v) = (qk, qv) :: (r ++ [(k, v)])
    rw [if_neg (h (qk, qv) (by simp)), ih k v w (fun x hx => h x (by simp [hx]))]

theorem fmStepTail_key (st : FmState) (pk k : Str) (hk : plainDetKey k = true)
    (m : List (Str × YChild)) (hm : alGet st.result pk = some (.obj m)) :
    fmStep.fmStepTail st pk 2 (k ++ ":".data) =
      some { st with result := alSet st.result pk (.obj (alSet m k (.list []))),
                     childKey := some k, childIndent := 2 } := by
  obtain ⟨hne, _, ht, hc, hdash, _⟩ := plainDetKey_spec k hk
  have hidx : idxOfChar ':' (k ++ ":".data) = some k.length := by
    unfold idxOfChar
    exact findIdxL_no_hit _ k (fun c hcm => by
      cases hcc : (c == ':') with
      | false => rfl
      | true =>
        rw [beq_iff_eq] at hcc
        subst hcc
        exact absurd (contains_eq_true_of_mem hcm) (by rw [hc]; simp))
      ':' [] (by simp)
  have hnk : trimL ((k ++ ":".data).take k.length) = k := by
    rw [List.take_left, ht]
  have hnv : trimL ((k ++ ":".data).drop (k.length + 1)) = [] := by
    rw [drop_append_add, List.drop_succ_cons, List.drop_zero]
    rfl
  unfold fmStep.fmStepTail
  rw [if_neg (by rw [startsW_dash_key k hdash hne]; simp),
    if_pos (contains_eq_true_of_mem (by simp)), hm]
  dsimp only
  rw [hidx]
  dsimp only
  rw [hnk, hnv, if_neg (by intro hcon; exact hcon.1 rfl)]

theorem fmStep_keyline (st : FmState) (pk k : Str) (hk : plainDetKey k = true)
    (hpk : st.parentKey = some pk) (hpi : st.parentIndent = 0)
    (hchild : st.childKey = none ∨ st.childIndent = 2)
    (m : List (Str × YChild)) (hm : alGet st.result pk = some (.obj m)) :
    fmStep st ("  ".data ++ k ++ ":".data) =
      some { st with result := alSet st.result pk (.obj (alSet m k (.list []))),
                     childKey := some k, childIndent := 2 } := by
  obtain ⟨hne, _, ht, hc, hdash, hhash⟩ := plainDetKey_spec k hk
  have htrim : trimL ("  ".data ++ k ++ ":".data) = k ++ ":".data := fmKeyLine_trim k hk
  have hstart : trimStartL ("  ".data ++ k ++ ":".data) = k ++ ":".data := by
    rw [List.append_assoc]
    show ("  ".data ++ (k ++ ":".data)).dropWhile jsWhitespace = k ++ ":".data
    rw [dropWhile_append_allWS _ _ allWS_spaces2]
    exact trimStartL_eq_self (k ++ ":".data)
      (by rw [headD_append_left _ _ _ hne]; exact trimStable_headD k ht hne)
  have hind : ((("  ".data ++ k ++ ":".data).length : Int) -
      ((k ++ ":".data).length : Int)) = 2 := by
    simp only [List.length_append, List.length_cons, List.length_nil]
    push_cast
    omega
  unfold fmStep
  rw [htrim, if_neg (by
    intro hor
    rcases hor with hnil | hsw
    · simp at hnil
    · rw [startsW_hash_key k hhash hne] at hsw
      cases hsw)]
  dsimp only
  rw [hstart, hind, if_neg (by intro hcon; exact absurd hcon.1 (by omega)), hpk]
  dsimp only
  rw [hpi, if_pos (by omega)]
  cases hck : st.childKey with
  | none =>
    dsimp only
    rw [fmStepTail_key st pk k hk m hm, hpk, hpi]
  | some ck =>
    have hci : st.childIndent = 2 := by
      rcases hchild with hnone | hci
      · rw [hck] at hnone
        cases hnone
      · exact hci
    dsimp only
    rw [if_neg (by
      intro hcon
      rw [startsW_dash_key k hdash hne] at hcon
      exact absurd hcon.2 (by simp)), hci, if_pos (by omega)]
    rw [fmStepTail_key ⟨st.result, some pk, 0, none, 2⟩ pk k hk m hm]

theorem stripQuotesJs_quoted (v : Str) :
    stripQuotesJs ('"' :: (v ++ "\"".data)) = v := by
  unfold stripQuotesJs
  dsimp only
  rw [if_pos (show isQuoteChar '"' = true from rfl),
    show (v ++ "\"".data) = v ++ ['"'] from rfl, List.getLast?_concat]
  show (if isQuoteChar '"' = true then (v ++ ['"']).dropLast else v ++ ['"']) = v
  rw [if_pos (show isQuoteChar '"' = true from rfl), List.dropLast_concat]

theorem fmStep_item (st : FmState) (pk k v : Str) (xs : List Str)
    (hpk : st.parentKey = some pk) (hpi : st.parentIndent = 0)
    (hck : st.childKey = some k) (hci : st.childIndent = 2)
    (m : List (Str × YChild)) (hm : alGet st.result pk = some (.obj m))
    (hmk : alGet m k = some (.list xs)) :
    fmStep st ("    - \"".data ++ v ++ "\"".data) =
      some { st with
        result := alSet st.result pk (.obj (alSet m k (.list (xs ++ [v])))) } := by
  have htrim : trimL ("    - \"".data ++ v ++ "\"".data) =
      "- \"".data ++ v ++ "\"".data := fmItemLine_trim v
  have hinner : jsWhitespace (("- \"".data ++ v ++ "\"".data).headD 'x') = false := by
    rw [headD_append_left _ _ _ (by simp), headD_append_left _ _ _ (by decide)]
    decide
  have hstart : trimStartL ("    - \"".data ++ v ++ "\"".data) =
      "- \"".data ++ v ++ "\"".data := by
    rw [show "    - \"".data ++ v ++ "\"".data =
      "    ".data ++ ("- \"".data ++ v ++ "\"".data) from by simp]
    show ("    ".data ++ ("- \"".data ++ v ++ "\"".data)).dropWhile jsWhitespace = _
    rw [dropWhile_append_allWS _ _ allWS_spaces4]
    exact trimStartL_eq_self _ hinner
  have hind : ((("    - \"".data ++ v ++ "\"".data).length : Int) -
      (("- \"".data ++ v ++ "\"".data).length : Int)) = 4 := by
    simp only [List.length_append, List.length_cons, List.length_nil]
    push_cast
    omega
  have hdrop : (("- \"".data ++ v ++ "\"".data).drop 2) = '"' :: (v ++ "\"".data) := rfl
  have htr2 : trimL ('"' :: (v ++ "\"".data)) = '"' :: (v ++ "\"".data) := by
    apply trimL_eq_self_of_ends
    · rw [List.headD_cons]
      decide
    · rw [List.getLastD_cons, getLastD_append_right _ _ _ (by decide)]
      decide
  unfold fmStep
  rw [htrim, if_neg (by
    intro hor
    rcases hor with hnil | hsw
    · simp at hnil
    · rw [show startsW "#".data ("- \"".data ++ v ++ "\"".data) = false from rfl] at hsw
      cases hsw)]
  dsimp only
  rw [hstart, hind, if_neg (by intro hcon; exact absurd hcon.1 (by omega)), hpk]
  dsimp only
  rw [hpi, if_pos (by omega), hck]
  dsimp only
  rw [hci, if_pos ⟨by omega,
      show startsW "- ".data ("- \"".data ++ v ++ "\"".data) = true from rfl⟩,
    hdrop, htr2, stripQuotesJs_quoted, hm]
  dsimp only
  rw [hmk]

theorem fmSteps_items (pk k : Str) :
    ∀ (vs : List Str) (st : FmState) (R0 : List (Str × YVal))
      (M0 : List (Str × YChild)) (xs : List Str),
      st.parentKey = some pk → st.parentIndent = 0 →
      st.childKey = some k → st.childIndent = 2 →
      st.result = R0 ++ [(pk, .obj (M0 ++ [(k, .list xs)]))] →
      (∀ q ∈ R0, q.1 ≠ pk) → (∀ q ∈ M0, q.1 ≠ k) →
      (vs.map (fun v => "    - \"".data ++ v ++ "\"".data)).foldlM fmStep st =
        some { st with result := R0 ++ [(pk, .obj (M0 ++ [(k, .list (xs ++ vs))]))] } := by
  intro vs
  induction vs with
  | nil =>
    intro st R0 M0 xs _ _ _ _ hres _ _
    show some st = _
    rw [List.append_nil, ← hres]
  | cons v vs' ih =>
    intro st R0 M0 xs hpk hpi hck hci hres hR0 hM0
    rw [List.map_cons, List.foldlM_cons]
    have hm : alGet st.result pk = some (.obj (M0 ++ [(k, .list xs)])) := by
      rw [hres]
      exact alGet_append_last R0 pk _ hR0
    have hmk : alGet (M0 ++ [(k, .list xs)]) k = some (.list xs) :=
      alGet_append_last M0 k _ hM0
    rw [fmStep_item st pk k v xs hpk hpi hck hci _ hm hmk]
    rw [show ∀ (a : FmState) (f : FmState → Option FmState), (some a >>= f) = f a
      from fun a f => rfl]
    dsimp only
    have hres1 : (alSet st.result pk
        (.obj (alSet (M0 ++ [(k, .list xs)]) k (.list (xs ++ [v]))))) =
        R0 ++ [(pk, .obj (M0 ++ [(k, .list (xs ++ [v]))]))] := by
      rw [hres, alSet_append_last R0 pk _ _ hR0, alSet_append_last M0 k _ _ hM0]
    rw [hres1,
      ih { st with result := R0 ++ [(pk, .obj (M0 ++ [(k, .list (xs ++ [v]))]))] } R0 M0 (xs ++ [v]) hpk hpi hck hci rfl hR0 hM0]
    simp

theorem fmSteps_groups (pk : Str) :
    ∀ (gs : List (Str × List Str)) (st : FmState) (R0 : List (Str × YVal))
      (M0 : List (Str × YChild)),
      (∀ g ∈ gs, plainDetKey g.1 = true) →
      ((gs.map Prod.fst).Nodup) →
      st.parentKey = some pk → st.parentIndent = 0 →
      (st.childKey = none ∨ st.childIndent = 2) →
      st.result = R0 ++ [(pk, .obj M0)] →
      (∀ q ∈ R0, q.1 ≠ pk) →
      (∀ g ∈ gs, ∀ q ∈ M0, q.1 ≠ g.1) →
      ∃ st', (gs.flatMap groupLines).foldlM fmStep st = some st' ∧
        st'.result = R0 ++ [(pk, .obj (M0 ++ gs.map (fun g => (g.1, .list g.2))))] := by
  intro gs
  induction gs with
  | nil =>
    intro st R0 M0 _ _ _ _ _ hres _ _
    exact ⟨st, rfl, by rw [hres]; simp⟩
  | cons g rest ih =>
    intro st R0 M0 hpl hnd hpk hpi hch hres hR0 hfresh
    rw [List.flatMap_cons, foldlM_append_t,
      show groupLines g = ("  ".data ++ g.1 ++ ":".data) ::
        g.2.map (fun v => "    - \"".data ++ v ++ "\"".data) from rfl,
      List.foldlM_cons]
    have hm : alGet st.result pk = some (.obj M0) := by
      rw [hres]
      exact alGet_append_last R0 pk _ hR0
    rw [fmStep_keyline st pk g.1 (hpl g (by simp)) hpk hpi hch M0 hm,
      show ∀ (a : FmState) (f : FmState → Option FmState), (some a >>= f) = f a
        from fun a f => rfl]
    dsimp only
    have hset : alSet st.result pk (.obj (alSet M0 g.1 (.list []))) =
        R0 ++ [(pk, .obj (M0 ++ [(g.1, .list [])]))] := by
      rw [hres, alSet_append_last R0 pk _ _ hR0,
        alSet_fresh M0 g.1 _ (fun q hq => hfresh g (by simp) q hq)]
    rw [hset,
      fmSteps_items pk g.1 g.2 { st with result := R0 ++ [(pk, .obj (M0 ++ [(g.1, .list [])]))], childKey := some g.1, childIndent := 2 } R0 M0 [] hpk hpi rfl rfl rfl hR0 (fun q hq => hfresh g (by simp) q hq),
      show ∀ (a : FmState) (f : FmState → Option FmState), (some a).bind f = f a
        from fun a f => rfl]
    dsimp only
    rw [List.nil_append]
    obtain ⟨st', hfold, hres'⟩ := ih
      { st with result := R0 ++ [(pk, .obj (M0 ++ [(g.1, .list g.2)]))], childKey := some g.1, childIndent := 2 }
      R0 (M0 ++ [(g.1, .list g.2)])
      (fun x hx => hpl x (by simp [hx]))
      (by rw [List.map_cons, List.nodup_cons] at hnd; exact hnd.2)
      hpk hpi (Or.inr rfl) rfl hR0
      (by
        intro x hx q hq
        rcases List.mem_append.mp hq with hq | hq
        · exact hfresh x (by simp [hx]) q hq
        · simp only [List.mem_singleton] at hq
          subst hq
          intro hc
          have hc' : g.1 = x.1 := hc
          rw [List.map_cons, List.nodup_cons] at hnd
          apply hnd.1
          rw [hc']
          exact List.mem_map_of_mem Prod.fst hx)
    refine ⟨st', hfold, ?_⟩
    rw [hres']
    simp

theorem bind_some_fm (a : FmState) (f : FmState → Option FmState) :
    (some a >>= f) = f a := rfl

theorem fmStep_scalar_plain (st : FmState) (key v : Str)
    (hkne : key ≠ []) (hkh : jsWhitespace (key.headD 'x') = false)
    (hkhash : startsW "#".data (key ++ ':' :: ' ' :: v) = false)
    (hkc : ∀ c ∈ key, (c == ':') = false) (hkt : trimL key = key)
    (hv : plainScalarStr v = true) :
    fmStep st (key ++ ':' :: ' ' :: v) =
      some { st with result := alSet st.result key (.scalar (.str v)),
                     parentKey := none, childKey := none } := by
  obtain ⟨hvne, _, hvt, _, _, _, hvbr⟩ := plainScalarStr_spec v hv
  rw [fmStep_scalar st key v hkne hkh hkhash hkc hkt hvne hvbr hvt
    (trimStable_getLastD v hvt hvne), parseScalar_plain v hv]

theorem trimL_ne_nil_of_headD (s : Str) (hne : s ≠ [])
    (h : jsWhitespace (s.headD 'x') = false) : trimL s ≠ [] := by
  cases s with
  | nil => exact absurd rfl hne
  | cons c r =>
    rw [List.headD_cons] at h
    intro hc
    unfold trimL at hc
    rw [List.dropWhile_cons, if_neg (by simp [h])] at hc
    rw [List.rdropWhile_eq_nil_iff] at hc
    have h2 := hc c (by simp)
    rw [h] at h2
    cases h2

theorem bind_some_fm2 (a : FmState) (g : FmState → Str → Option FmState) (l : List Str) :
    (some a >>= fun st' => l.foldlM g st') = l.foldlM g a := rfl

theorem bind_some_fold (a : FmState) (l : List Str) :
    (Option.bind (some a) (fun st1 => l.foldlM fmStep st1)) = l.foldlM fmStep a := rfl

theorem fmRun4 (ida nm ds : Str) (hid : plainScalarStr ida = true)
    (hnm : plainScalarStr nm = true) (hds : plainScalarStr ds = true) :
    (["id: ".data ++ ida, "name: ".data ++ nm, "description: ".data ++ ds,
      "version: 1".data] : List Str).foldlM fmStep fmInit =
      some ⟨[("id".data, .scalar (.str ida)), ("name".data, .scalar (.str nm)),
        ("description".data, .scalar (.str ds)), ("version".data, .scalar (.num 1))],
        none, -1, none, -1⟩ := by
  rw [List.foldlM_cons, show "id: ".data ++ ida = "id".data ++ ':' :: ' ' :: ida from rfl,
    fmStep_scalar_plain _ "id".data ida (by decide) (by decide) rfl (by decide) (by decide) hid,
    bind_some_fm2, List.foldlM_cons,
    show "name: ".data ++ nm = "name".data ++ ':' :: ' ' :: nm from rfl,
    fmStep_scalar_plain _ "name".data nm (by decide) (by decide) rfl (by decide) (by decide) hnm,
    bind_some_fm2, List.foldlM_cons,
    show "description: ".data ++ ds = "description".data ++ ':' :: ' ' :: ds from rfl,
    fmStep_scalar_plain _ "description".data ds (by decide) (by decide) rfl (by decide) (by decide) hds,
    bind_some_fm2, List.foldlM_cons, fmStep_version_t, bind_some_fm2]
  rfl

theorem parseFrontmatterE_build (d : BDoc) (h : goodMeta d.meta = true) :
    parseFrontmatterE (joinLines (fmInner d.meta)) = some (metaExpected d) := by
  obtain ⟨hid, hnm, hds, _, hdet⟩ := goodMeta_spec d.meta h
  have hinner_ne : fmInner d.meta ≠ [] := by unfold fmInner; simp
  have e : fmInner d.meta = ("id: ".data ++ d.meta.id) :: (fmInner d.meta).tail := rfl
  have hhead : (joinLines (fmInner d.meta)).headD 'x' = 'i' := by
    rw [e, headD_joinLines _ _ (by simp) 'x',
      headD_append_left "id: ".data d.meta.id 'x' (by decide)]
    decide
  have hjq_ne : joinLines (fmInner d.meta) ≠ [] := by
    intro hc
    rw [hc] at hhead
    exact absurd hhead (by decide)
  have htr : trimL (joinLines (fmInner d.meta)) ≠ [] :=
    trimL_ne_nil_of_headD _ hjq_ne (by rw [hhead]; decide)
  unfold parseFrontmatterE
  rw [if_neg htr, splitLines_joinLines (fmInner d.meta) hinner_ne (fmInner_noNl d.meta h)]
  cases hd : d.meta.detection with
  | none =>
    have hfm : fmInner d.meta = ["id: ".data ++ d.meta.id, "name: ".data ++ d.meta.name,
        "description: ".data ++ d.meta.description, "version: 1".data] := by
      unfold fmInner
      rw [hd]
      rfl
    rw [hfm, fmRun4 d.meta.id d.meta.name d.meta.description hid hnm hds]
    unfold metaExpected
    rw [hd]
    rfl
  | some groups =>
    obtain ⟨hgs, hnd⟩ := hdet groups hd
    have hfm : fmInner d.meta = (["id: ".data ++ d.meta.id, "name: ".data ++ d.meta.name,
        "description: ".data ++ d.meta.description, "version: 1".data] : List Str) ++
        ("detection:".data :: groups.flatMap groupLines) := by
      unfold fmInner
      rw [hd]
    rw [hfm, foldlM_append_t, fmRun4 d.meta.id d.meta.name d.meta.description hid hnm hds,
      bind_some_fold, List.foldlM_cons, fmStep_detection_t, bind_some_fm2]
    have hR0 : ∀ q ∈ ([("id".data, YVal.scalar (.str d.meta.id)),
        ("name".data, YVal.scalar (.str d.meta.name)),
        ("description".data, YVal.scalar (.str d.meta.description)),
        ("version".data, YVal.scalar (.num 1))] : List (Str × YVal)),
        q.1 ≠ "detection".data := by
      intro q hq
      rcases List.mem_cons.mp hq with rfl | hq
      · show "id".data ≠ "detection".data
        decide
      rcases List.mem_cons.mp hq with rfl | hq
      · show "name".data ≠ "detection".data
        decide
      rcases List.mem_cons.mp hq with rfl | hq
      · show "description".data ≠ "detection".data
        decide
      rcases List.mem_cons.mp hq with rfl | hq
      · show "version".data ≠ "detection".data
        decide
      exact absurd hq (List.not_mem_nil q)
    obtain ⟨st', hfold, hres'⟩ := fmSteps_groups "detection".data groups
      ⟨[("id".data, .scalar (.str d.meta.id)), ("name".data, .scalar (.str d.meta.name)),
        ("description".data, .scalar (.str d.meta.description)),
        ("version".data, .scalar (.num 1)), ("detection".data, .obj [])],
        some "detection".data, 0, none, -1⟩
      [("id".data, .scalar (.str d.meta.id)), ("name".data, .scalar (.str d.meta.name)),
        ("description".data, .scalar (.str d.meta.description)),
        ("version".data, .scalar (.num 1))] []
      (fun g hg => (hgs g hg).1) hnd rfl rfl (Or.inl rfl) rfl hR0
      (fun g hg q hq => absurd hq (List.not_mem_nil q))
    show Option.map (fun x => x.result) (List.foldlM fmStep
      ⟨[("id".data, .scalar (.str d.meta.id)), ("name".data, .scalar (.str d.meta.name)),
        ("description".data, .scalar (.str d.meta.description)),
        ("version".data, .scalar (.num 1)), ("detection".data, .obj [])],
        some "detection".data, 0, none, -1⟩ (groups.flatMap groupLines)) =
      some (metaExpected d)
    rw [hfold]
    show some st'.result = some (metaExpected d)
    rw [hres']
    unfold metaExpected
    rw [hd]
    rfl

theorem parseTemplateContent_build (d : BDoc) (h : goodDoc d = true) :
    parseTemplateContent (buildTemplateContent d) =
      { meta := metaExpected d, claude_md := d.claudeMd, hooks := .obj d.hooks,
        skills := d.skills, agents := d.agents, mcp_servers := .obj d.mcpServers,
        external_skills := d.externalSkills } := by
  obtain ⟨hm, _, _, _, _, _, _, _, _⟩ := goodDoc_spec d h
  unfold parseTemplateContent parseTemplateContentE
  rw [extractFrontmatter_build d h]
  dsimp only
  rw [parseFrontmatterE_build d hm, Option.map_some', Option.getD_some]
  rw [extractSections_build d h]

/-- C1: round-trip of `buildTemplateContent` through `parseTemplateContent`,
corrected: it holds only on documents the builder serialises faithfully
(`goodDoc`), which in particular forces `meta.version = 1`, since the
builder hard-codes `version: 1` regardless of the input version (see
`C1_roundtrip_counterexample`).  For such documents every field listed in
spec section 3 is recovered: the parsed frontmatter mapping yields the
original id, name, description, version and detection groups, and the
parsed body sections equal the original claude_md, hooks, skills, agents,
mcp_servers and external_skills. -/
theorem C1_amended (d : BDoc) (h : goodDoc d = true) :
    alGet (parseTemplateContent (buildTemplateContent d)).meta "id".data =
      some (.scalar (.str d.meta.id)) ∧
    alGet (parseTemplateContent (buildTemplateContent d)).meta "name".data =
      some (.scalar (.str d.meta.name)) ∧
    alGet (parseTemplateContent (buildTemplateContent d)).meta "description".data =
      some (.scalar (.str d.meta.description)) ∧
    alGet (parseTemplateContent (buildTemplateContent d)).meta "version".data =
      some (.scalar (.num d.meta.version.toNat)) ∧
    alGet (parseTemplateContent (buildTemplateContent d)).meta "detection".data =
      d.meta.detection.map
        (fun groups => YVal.obj (groups.map (fun g => (g.1, YChild.list g.2)))) ∧
    (parseTemplateContent (buildTemplateContent d)).claude_md = d.claudeMd ∧
    (parseTemplateContent (buildTemplateContent d)).hooks = .obj d.hooks ∧
    (parseTemplateContent (buildTemplateContent d)).skills = d.skills ∧
    (parseTemplateContent (buildTemplateContent d)).agents = d.agents ∧
    (parseTemplateContent (buildTemplateContent d)).mcp_servers = .obj d.mcpServers ∧
    (parseTemplateContent (buildTemplateContent d)).external_skills = d.externalSkills := by
  have hb := parseTemplateContent_build d h
  have hv : d.meta.version = 1 := (goodMeta_spec d.meta (goodDoc_spec d h).1).2.2.2.1
  rw [hb]
  refine ⟨rfl, rfl, rfl, ?_, ?_, rfl, rfl, rfl, rfl, rfl, rfl⟩
  · rw [hv]
    rfl
  · unfold metaExpected
    cases d.meta.detection with
    | none => rfl
    | some groups => rfl

theorem C1_amended_witness :
    goodDoc (BDoc.mk (BMeta.mk "tid".data "Tool".data "desc".data 1 (some [("files".data, ["a.txt".data])])) "Use it.".data [("k".data, Json.str "v".data)] [("s1".data, "body".data)] [("a1".data, "abody".data)] [("m".data, Json.str "w".data)] [ExtRow.mk "n".data "r".data "s".data "d".data]) = true ∧
    alGet (parseTemplateContent (buildTemplateContent (BDoc.mk (BMeta.mk "tid".data "Tool".data "desc".data 1 (some [("files".data, ["a.txt".data])])) "Use it.".data [("k".data, Json.str "v".data)] [("s1".data, "body".data)] [("a1".data, "abody".data)] [("m".data, Json.str "w".data)] [ExtRow.mk "n".data "r".data "s".data "d".data]))).meta "id".data =
      some (YVal.scalar (Scalar.str "tid".data)) ∧
    alGet (parseTemplateContent (buildTemplateContent (BDoc.mk (BMeta.mk "tid".data "Tool".data "desc".data 1 (some [("files".data, ["a.txt".data])])) "Use it.".data [("k".data, Json.str "v".data)] [("s1".data, "body".data)] [("a1".data, "abody".data)] [("m".data, Json.str "w".data)] [ExtRow.mk "n".data "r".data "s".data "d".data]))).meta "detection".data =
      some (YVal.obj [("files".data, YChild.list ["a.txt".data])]) ∧
    (parseTemplateContent (buildTemplateContent (BDoc.mk (BMeta.mk "tid".data "Tool".data "desc".data 1 (some [("files".data, ["a.txt".data])])) "Use it.".data [("k".data, Json.str "v".data)] [("s1".data, "body".data)] [("a1".data, "abody".data)] [("m".data, Json.str "w".data)] [ExtRow.mk "n".data "r".data "s".data "d".data]))).skills =
      [("s1".data, "body".data)] := by
  have hg : goodDoc (BDoc.mk (BMeta.mk "tid".data "Tool".data "desc".data 1 (some [("files".data, ["a.txt".data])])) "Use it.".data [("k".data, Json.str "v".data)] [("s1".data, "body".data)] [("a1".data, "abody".data)] [("m".data, Json.str "w".data)] [ExtRow.mk "n".data "r".data "s".data "d".data]) = true := by
    simp only [goodDoc, goodMeta, plainJsonFields, plainJson, plainJStr]
    decide
  exact ⟨hg, (C1_amended _ hg).1, (C1_amended _ hg).2.2.2.2.1,
    (C1_amended _ hg).2.2.2.2.2.2.2.1⟩
